import Mathlib

/-!
Verification development for the iroh replica store (`iroh-sync/src/store/fs.rs`)
and the download scheduler state machine (`iroh/src/downloader/state.rs`).

The store is modelled over sorted association lists standing for the redb
tables; 32-byte ids (namespaces, authors, peers, hashes) are modelled as `Nat`
(order-isomorphic to the lexicographic order on fixed-width byte arrays), and
variable-length keys as `List Nat` of bytes compared lexicographically.
-/

namespace Iroh

/-! ## Lexicographic comparison of byte sequences and compound record keys -/

/-- Comparison of two natural numbers, mirroring `Ord` on fixed-width ids. -/
def cmpNat (a b : Nat) : Ordering :=
  if a < b then .lt else if b < a then .gt else .eq

/-- Lexicographic comparison of byte sequences (shorter strict prefixes sort first),
mirroring `Ord` on `&[u8]` / `Vec<u8>`. -/
def cmpBytes : List Nat → List Nat → Ordering
  | [], [] => .eq
  | [], _ :: _ => .lt
  | _ :: _, [] => .gt
  | a :: as, b :: bs =>
    if a < b then .lt else if b < a then .gt else cmpBytes as bs

/-- A record identifier `(namespace, author, key)`, the key of the primary
`records-1` table. -/
abbrev RecordId := Nat × Nat × List Nat

/-- The key of the secondary `records-by-key-1` table: `(namespace, key, author)`. -/
abbrev ByKeyId := Nat × List Nat × Nat

/-- Lexicographic comparison of primary record keys, component by component,
as redb compares `(&[u8;32], &[u8;32], &[u8])` tuples. -/
def cmpId (x y : RecordId) : Ordering :=
  (cmpNat x.1 y.1).then ((cmpNat x.2.1 y.2.1).then (cmpBytes x.2.2 y.2.2))

/-- Lexicographic comparison of by-key index keys `(namespace, key, author)`. -/
def cmpByKey (x y : ByKeyId) : Ordering :=
  (cmpNat x.1 y.1).then ((cmpBytes x.2.1 y.2.1).then (cmpNat x.2.2 y.2.2))

/-- Lexicographic comparison of `(namespace, author)` keys of the latest-per-author table. -/
def cmpNs2 (x y : Nat × Nat) : Ordering :=
  (cmpNat x.1 y.1).then (cmpNat x.2 y.2)

/-! ## Generic sorted association tables (the model of redb tables)

redb tables are ordered maps with unique keys. We model a table as a list of
key/value pairs sorted strictly by the key comparator; `tblInsert` is
insert-or-replace, `tblRemove` removes the row and returns its previous value,
`tblGet` is point lookup. Range scans over a sorted table are filters by the
range bounds.
-/

/-- Point lookup (`Table::get`). -/
def tblGet {κ ν : Type} (cmp : κ → κ → Ordering) : List (κ × ν) → κ → Option ν
  | [], _ => none
  | (k', v') :: rest, k => if cmp k k' = .eq then some v' else tblGet cmp rest k

/-- Insert-or-replace keeping the list sorted (`Table::insert`). -/
def tblInsert {κ ν : Type} (cmp : κ → κ → Ordering) : List (κ × ν) → κ → ν → List (κ × ν)
  | [], k, v => [(k, v)]
  | (k', v') :: rest, k, v =>
    match cmp k k' with
    | .lt => (k, v) :: (k', v') :: rest
    | .eq => (k, v) :: rest
    | .gt => (k', v') :: tblInsert cmp rest k v

/-- Remove a row, returning its previous value (`Table::remove`). -/
def tblRemove {κ ν : Type} (cmp : κ → κ → Ordering) : List (κ × ν) → κ → Option ν × List (κ × ν)
  | [], _ => (none, [])
  | (k', v') :: rest, k =>
    if cmp k k' = .eq then (some v', rest)
    else
      let p := tblRemove cmp rest k
      (p.1, (k', v') :: p.2)

/-- A table is sorted strictly by its key comparator. -/
def TblSorted {κ ν : Type} (cmp : κ → κ → Ordering) (l : List (κ × ν)) : Prop :=
  l.Pairwise (fun a b => cmp a.1 b.1 = .lt)

instance instDecTblSorted {κ ν : Type} (cmp : κ → κ → Ordering) (l : List (κ × ν)) :
    Decidable (TblSorted cmp l) := by
  unfold TblSorted
  infer_instance

/-! ## Replica store data model (`iroh-sync/src/store/fs.rs`)

`RecordsValue` is the row value of the primary `records-1` table:
`(timestamp, namespace signature, author signature, len, hash)`.
Signatures and hashes are opaque 64/32-byte strings, modelled as `Nat`.
-/

/-- Row value of the `records-1` table. -/
structure RecordsValue where
  timestamp : Nat
  sigNamespace : Nat
  sigAuthor : Nat
  len : Nat
  hash : Nat
deriving DecidableEq, Repr

/-- A signed entry: record identifier, record value and both signatures
(`SignedEntry` of `iroh-sync`, flattened). -/
structure SignedEntry where
  id : RecordId
  timestamp : Nat
  sigNamespace : Nat
  sigAuthor : Nat
  len : Nat
  hash : Nat
deriving DecidableEq, Repr

/-- The canonical hash of the empty byte string (`Hash::EMPTY`), an opaque
distinguished constant. -/
def EMPTY_HASH : Nat := 0

/-- `value_is_empty` of fs.rs: a row is empty iff its hash is the empty-content hash. -/
def value_is_empty (v : RecordsValue) : Bool := v.hash == EMPTY_HASH

/-- `SignedEntry::is_empty`: an entry is empty iff its content hash is the
empty-content hash. -/
def SignedEntry.is_empty (e : SignedEntry) : Bool := e.hash == EMPTY_HASH

/-- `into_entry` of fs.rs: reassemble a `SignedEntry` from a table key and row value. -/
def into_entry (k : RecordId) (v : RecordsValue) : SignedEntry :=
  { id := k
    timestamp := v.timestamp
    sigNamespace := v.sigNamespace
    sigAuthor := v.sigAuthor
    len := v.len
    hash := v.hash }

/-- The value stored by `put` for an entry. -/
def SignedEntry.value (e : SignedEntry) : RecordsValue :=
  { timestamp := e.timestamp
    sigNamespace := e.sigNamespace
    sigAuthor := e.sigAuthor
    len := e.len
    hash := e.hash }

/-- The by-key index key of an entry id: `(namespace, key, author)`. -/
def byKeyIdOf (id : RecordId) : ByKeyId := (id.1, id.2.2, id.2.1)

/-- The three record tables touched by `put` and `remove`:
`records-1`, `records-by-key-1` and `latest-by-author-1`. -/
structure ReplicaTables where
  records : List (RecordId × RecordsValue)
  by_key : List (ByKeyId × Unit)
  latest : List ((Nat × Nat) × (Nat × List Nat))
deriving DecidableEq, Repr

/-- `get_one` of fs.rs: point lookup in the records table, filtering empty
entries unless `include_empty` is set. -/
def get_one (records : List (RecordId × RecordsValue)) (ns author : Nat) (key : List Nat)
    (include_empty : Bool) : Option SignedEntry :=
  match tblGet cmpId records (ns, author, key) with
  | none => none
  | some v =>
    let entry := into_entry (ns, author, key) v
    if !include_empty && entry.is_empty then none else some entry

/-- `Store::get_one`, which always passes `include_empty = false`. -/
def store_get_one (records : List (RecordId × RecordsValue)) (ns author : Nat)
    (key : List Nat) : Option SignedEntry :=
  get_one records ns author key false

/-- `StoreInstance::put`: within one transaction insert the records row, the
by-key row, and (unconditionally) the latest-per-author row. -/
def put (t : ReplicaTables) (e : SignedEntry) : ReplicaTables :=
  { records := tblInsert cmpId t.records e.id e.value
    by_key := tblInsert cmpByKey t.by_key (byKeyIdOf e.id) ()
    latest := tblInsert cmpNs2 t.latest (e.id.1, e.id.2.1) (e.timestamp, e.id.2.2) }

/-- `StoreInstance::remove`: within one transaction remove the by-key row and
the records row, returning the previous entry if any; the latest-per-author
table is not touched. -/
def remove (t : ReplicaTables) (id : RecordId) : ReplicaTables × Option SignedEntry :=
  let by_key2 := (tblRemove cmpByKey t.by_key (byKeyIdOf id)).2
  let p := tblRemove cmpId t.records id
  ({ records := p.2, by_key := by_key2, latest := t.latest },
   p.1.map (fun v => into_entry id v))

/-! ## Range bounds over the records table

Modelled from the spec: `bounds.rs` (the `RecordsBounds` / `ByKeyBounds`
constructors) is not under src; §4.1 of the spec describes them as half-open
intervals of compound keys, clipped to a namespace, using the lexicographic
successor of the namespace prefix as the exclusive end. With namespaces as
`Nat`, the successor of the prefix `ns` is `ns + 1`.
-/

/-- A redb range bound over record ids. -/
inductive DbBound
  | incl (id : RecordId)
  | excl (id : RecordId)
deriving DecidableEq, Repr

/-- One half-open interval of record ids (`RecordsBounds`). -/
structure RecordsBounds where
  start : DbBound
  stop : DbBound
deriving DecidableEq, Repr

def ordIsLt : Ordering → Bool
  | .lt => true
  | _ => false

def ordNotGt : Ordering → Bool
  | .gt => false
  | _ => true

/-- Does an id lie above the start bound? -/
def fromContains : DbBound → RecordId → Bool
  | .incl b, id => ordNotGt (cmpId b id)
  | .excl b, id => ordIsLt (cmpId b id)

/-- Does an id lie below the stop bound? -/
def toContains : DbBound → RecordId → Bool
  | .incl b, id => ordNotGt (cmpId id b)
  | .excl b, id => ordIsLt (cmpId id b)

/-- Bound membership. -/
def inBounds (b : RecordsBounds) (id : RecordId) : Bool :=
  fromContains b.start id && toContains b.stop id

/-- `RecordsBounds::namespace`: all rows of a namespace. -/
def nsBounds (ns : Nat) : RecordsBounds :=
  ⟨.incl (ns, 0, []), .excl (ns + 1, 0, [])⟩

/-- `RecordsBounds::from_start`: from the start of the namespace to the given end. -/
def from_start (ns : Nat) (stop : DbBound) : RecordsBounds :=
  ⟨.incl (ns, 0, []), stop⟩

/-- `RecordsBounds::to_end`: from the given start to the end of the namespace. -/
def to_end (ns : Nat) (start : DbBound) : RecordsBounds :=
  ⟨start, .excl (ns + 1, 0, [])⟩

/-- A redb range scan over the sorted records table: the rows inside the bounds,
in table order. -/
def scanRecords (records : List (RecordId × RecordsValue)) (b : RecordsBounds) :
    List (RecordId × RecordsValue) :=
  records.filter (fun r => inBounds b r.1)

/-- Scan of the by-key table bounded by `(namespace, key)`: all rows with that
namespace and key, any author (`ByKeyBounds`, modelled from the spec as the
author-prefix interval). -/
def scanByKeyNsKey (by_key : List (ByKeyId × Unit)) (ns : Nat) (key : List Nat) :
    List ByKeyId :=
  (by_key.filter (fun r => r.1.1 == ns && r.1.2.1 == key)).map (·.1)

/-- `StoreInstance::get_range`: ordered iteration over `[x, y)`;
equal endpoints cover the whole namespace; for a wrapped range the two halves
`[start-of-namespace, y)` and `[x, end-of-namespace]` are chained in that order. -/
def get_range (records : List (RecordId × RecordsValue)) (ns : Nat) (x y : RecordId) :
    List SignedEntry :=
  match cmpId x y with
  | .eq =>
    (scanRecords records (nsBounds ns)).map (fun r => into_entry r.1 r.2) ++ []
  | .lt =>
    (scanRecords records ⟨.incl x, .excl y⟩).map (fun r => into_entry r.1 r.2) ++ []
  | .gt =>
    (scanRecords records (from_start ns (.excl y))).map (fun r => into_entry r.1 r.2)
      ++ (scanRecords records (to_end ns (.incl x))).map (fun r => into_entry r.1 r.2)

/-! ## The query iterator (`QueryIterator` of fs.rs)

The query shape is modelled from the spec (§4.4; `Query` and the filters live
in `store/mod.rs` which is not under src): an author filter, a key filter,
`offset`, `limit` and `include_empty`. We model the `AuthorKey` index plan
(`latest_per_key = false`), with ascending direction; the `Prefix` key filter
is spelled `Pfx` here. The iterator logic itself — limit early-return, filter,
offset skipping, and the `count` field that is read but never incremented —
mirrors `QueryIterator::next` of fs.rs.
-/

inductive AuthorFilter
  | Any
  | Exact (author : Nat)
deriving DecidableEq, Repr

inductive KeyFilter
  | Any
  | ExactKey (key : List Nat)
  | Pfx (p : List Nat)
deriving DecidableEq, Repr

/-- Byte-string prefix test: `isPfx p k` iff `p` is a prefix of `k`. -/
def isPfx : List Nat → List Nat → Bool
  | [], _ => true
  | _ :: _, [] => false
  | a :: as, b :: bs => a == b && isPfx as bs

def KeyFilter.matches : KeyFilter → List Nat → Bool
  | .Any, _ => true
  | .ExactKey k, key => key == k
  | .Pfx p, key => isPfx p key

def AuthorFilter.matches : AuthorFilter → Nat → Bool
  | .Any, _ => true
  | .Exact a, author => author == a

structure Query where
  author_filter : AuthorFilter
  key_filter : KeyFilter
  offset : Nat
  limit : Option Nat
  include_empty : Bool
deriving DecidableEq, Repr

/-- The `matches!(self.query.limit(), Some(limit) if self.count >= limit)`
early-return test of `QueryIterator::next`. -/
def limitReached (q : Query) (cnt : Nat) : Bool :=
  match q.limit with
  | some l => l ≤ cnt
  | none => false

/-- Index-plan selection for the `AuthorKey` plan of `QueryIterator::new`:
an exact author narrows the bounds (and resets the key filter to `Any`),
otherwise the whole namespace is scanned with the query's key filter. -/
def queryPlan (ns : Nat) (q : Query) : (RecordId → Bool) × KeyFilter :=
  match q.author_filter with
  | .Exact author =>
    (fun id => id.1 == ns && id.2.1 == author && q.key_filter.matches id.2.2, KeyFilter.Any)
  | .Any => (fun id => id.1 == ns, q.key_filter)

/-- The output stream of `QueryIterator::next` over the bounded row list:
entries are filtered by the key/empty filters, then `offset` passing entries
are skipped; `count` is carried exactly as in the source, where it is compared
against `limit` but never incremented. -/
def queryRunAux (q : Query) (kf : KeyFilter) :
    List (RecordId × RecordsValue) → Nat → Nat → List SignedEntry
  | [], _, _ => []
  | r :: rest, off, cnt =>
    if limitReached q cnt then []
    else if kf.matches r.1.2.2 && (q.include_empty || !value_is_empty r.2) then
      if off < q.offset then queryRunAux q kf rest (off + 1) cnt
      else into_entry r.1 r.2 :: queryRunAux q kf rest off cnt
    else queryRunAux q kf rest off cnt

/-- `Store::get_many` for the `AuthorKey` plan: bound the records table, then
run the query iterator. -/
def get_many (records : List (RecordId × RecordsValue)) (ns : Nat) (q : Query) :
    List SignedEntry :=
  let p := queryPlan ns q
  queryRunAux q p.2 (records.filter (fun r => p.1 r.1)) 0 0

/-! ## The parent iterator (`ParentIterator` of fs.rs) -/

/-- The loop of `ParentIterator::next`, structured on a fuel argument that
bounds the number of `pop` steps (the key length strictly decreases on every
iteration, so `key.length` fuel is always enough). -/
def prefixes_of_aux (records : List (RecordId × RecordsValue)) (ns author : Nat) :
    Nat → List Nat → List SignedEntry
  | 0, _ => []
  | fuel + 1, key =>
    if key = [] then []
    else
      match get_one records ns author key false with
      | some e => e :: prefixes_of_aux records ns author fuel key.dropLast
      | none => prefixes_of_aux records ns author fuel key.dropLast

/-- `ParentIterator::next`, unrolled to the full output list: while the key is
non-empty, look up the current key (skipping empty entries), then strip the
last byte; lookup hits are yielded, misses skipped. -/
def prefixes_of (records : List (RecordId × RecordsValue)) (ns author : Nat)
    (key : List Nat) : List SignedEntry :=
  prefixes_of_aux records ns author key.length key

/-! ## The per-namespace peer LRU (`Store::register_useful_peer`)

The `sync-peers-1` multimap stores, per namespace, a set of `(nanos, peer)`
pairs ordered by value; we model one namespace's value set as a sorted
duplicate-free list. `PEERS_PER_DOC_CACHE_SIZE` is modelled from the spec
(the constant lives in `store/mod.rs`, not under src; non-zero, default 5).
The wall clock read is passed in as the `nanos` argument.
-/

/-- Capacity of the per-document peer cache. Modelled from the spec: non-zero
constant, default 5. -/
def PEERS_PER_DOC_CACHE_SIZE : Nat := 5

/-- A `(last_used_nanos, peer)` pair of the sync-peers multimap. -/
abbrev PeerEntry := Nat × Nat

/-- Multimap value insert: ordered by `(nanos, peer)`, duplicates not stored. -/
def peersInsert : List PeerEntry → PeerEntry → List PeerEntry
  | [], x => [x]
  | y :: rest, x =>
    match cmpNs2 x y with
    | .lt => x :: y :: rest
    | .eq => y :: rest
    | .gt => y :: peersInsert rest x

/-- Multimap value remove: drops the exact `(nanos, peer)` pair if present. -/
def peersRemove : List PeerEntry → PeerEntry → List PeerEntry
  | [], _ => []
  | y :: rest, x => if x = y then rest else y :: peersRemove rest x

/-- `Store::register_useful_peer` on one namespace's peer set, mirroring the
source: the first (oldest) entry is the eviction candidate; re-registering the
oldest peer or a peer found further in replaces its entry; a genuinely new
peer is inserted and, if the total now exceeds the capacity, the original
oldest entry is removed. -/
def register_useful_peer (peers : List PeerEntry) (nanos peer : Nat) : List PeerEntry :=
  match peers with
  | [] => peersInsert [] (nanos, peer)
  | (oldest_nanos, oldest_peer) :: rest =>
    if oldest_peer = peer then
      peersInsert (peersRemove ((oldest_nanos, oldest_peer) :: rest) (oldest_nanos, oldest_peer))
        (nanos, peer)
    else
      let len := 1 + rest.length
      match (rest.find? (fun q => q.2 == peer)).map (·.1) with
      | some prev_nanos =>
        peersInsert (peersRemove ((oldest_nanos, oldest_peer) :: rest) (prev_nanos, peer))
          (nanos, peer)
      | none =>
        let peers2 := peersInsert ((oldest_nanos, oldest_peer) :: rest) (nanos, peer)
        if len + 1 > PEERS_PER_DOC_CACHE_SIZE then
          peersRemove peers2 (oldest_nanos, oldest_peer)
        else peers2

/-- A sequence of `register_useful_peer` calls starting from an empty set;
each call carries its clock reading. -/
def runPeers (calls : List (Nat × Nat)) : List PeerEntry :=
  calls.foldl (fun peers c => register_useful_peer peers c.1 c.2) []

/-! ## Download scheduler state machine (`iroh/src/downloader/state.rs`)

Node, resource and group ids are `Nat`; `BTreeMap`s are association lists
(the nodes map, the only one iterated as a map, is kept sorted by key);
`IndexSet`s and `HashSet`s are duplicate-free lists (insertion-ordered —
`IndexSet` and the id-generator live in `downloader/state/util.rs`, not under
src, and are modelled from the spec's ordered-map design note). The constants
`INITIAL_RETRY_COUNT`, `IDLE_PEER_TIMEOUT` and the `FailureAction` enum live
in `downloader/mod.rs`, not under src, and are modelled from the spec (§6).
Durations are in seconds.
-/

structure ConcurrencyLimits where
  max_concurrent_requests : Nat
  max_concurrent_requests_per_node : Nat
  max_open_connections : Nat
deriving DecidableEq, Repr

/-- The `Default` impl for `ConcurrencyLimits`. -/
def defaultLimits : ConcurrencyLimits := ⟨50, 4, 25⟩

def ConcurrencyLimits.at_requests_capacity (l : ConcurrencyLimits) (active : Nat) : Bool :=
  l.max_concurrent_requests ≤ active

def ConcurrencyLimits.node_remaining_requests (l : ConcurrencyLimits) (active : Nat) :
    Option Nat :=
  let r := l.max_concurrent_requests_per_node - active
  if r = 0 then none else some r

def ConcurrencyLimits.node_at_request_capacity (l : ConcurrencyLimits) (active : Nat) : Bool :=
  l.max_concurrent_requests_per_node ≤ active

def ConcurrencyLimits.conns_at_capacity (l : ConcurrencyLimits) (active : Nat) : Bool :=
  l.max_open_connections ≤ active

def ConcurrencyLimits.remaining_connections (l : ConcurrencyLimits) (active : Nat) :
    Option Nat :=
  let r := l.max_open_connections - active
  if r = 0 then none else some r

abbrev NodeId := Nat

inductive ResourceKind
  | Blob
  | HashSeq
deriving DecidableEq, Repr

structure Resource where
  hash : Nat
  kind : ResourceKind
deriving DecidableEq, Repr

inductive Group
  | Doc (ns : Nat)
deriving DecidableEq, Repr

/-- Modelled from the spec: `INITIAL_RETRY_COUNT` (downloader/mod.rs, not under
src) is a small integer, e.g. 4. -/
def INITIAL_RETRY_COUNT : Nat := 4

/-- Modelled from the spec: `IDLE_PEER_TIMEOUT` (downloader/mod.rs, not under
src), e.g. 10 seconds. -/
def IDLE_PEER_TIMEOUT : Nat := 10

/-- The ad-hoc retry timeout of `on_node_failed` (`Duration::from_secs(1)`). -/
def RETRY_TIMEOUT : Nat := 1

inductive PendingState
  | Connecting
  | RetryTimeout
deriving DecidableEq, Repr

inductive NodeState
  | Disconnected (failed : Bool)
  | Pending (ps : PendingState) (remaining_retries : Nat)
  | Connected
deriving DecidableEq, Repr

def NodeState.is_active : NodeState → Bool
  | .Connected => true
  | .Pending .Connecting _ => true
  | _ => false

def NodeState.may_connect : NodeState → Bool
  | .Disconnected false => true
  | _ => false

def NodeState.connecting : NodeState := .Pending .Connecting INITIAL_RETRY_COUNT

structure NodeInfo where
  groups : List Group
  resources : List Resource
  active_transfers : List Nat
  state : NodeState
  in_disconnect_timeout : Bool
deriving DecidableEq, Repr

/-- The `Default` impl for `NodeInfo`. -/
def NodeInfo.init : NodeInfo := ⟨[], [], [], .Disconnected false, false⟩

/-- `NodeInfo::remaining_retries`: for a pending node, `remaining_retries - 1`
in u8 arithmetic (wrapping on underflow, as in release builds); a fresh budget
otherwise. -/
def NodeInfo.remaining_retries (n : NodeInfo) : Nat :=
  match n.state with
  | .Pending _ r => (r + 255) % 256
  | _ => INITIAL_RETRY_COUNT

def NodeInfo.should_reconnect (n : NodeInfo) : Bool := 0 < n.remaining_retries

def NodeInfo.is_connected (n : NodeInfo) : Bool :=
  match n.state with
  | .Connected => true
  | _ => false

structure ResourceState where
  groups : List Group
  nodes : List NodeId
  skip_nodes : List NodeId
  active_transfer : Option Nat
deriving DecidableEq, Repr

/-- The `Default` impl for `ResourceState`. -/
def ResourceState.init : ResourceState := ⟨[], [], [], none⟩

def ResourceState.is_transfering (r : ResourceState) : Bool := r.active_transfer.isSome

def ResourceState.can_start_transfer (r : ResourceState) (node : NodeId) : Bool :=
  !r.is_transfering && !r.skip_nodes.contains node

structure GroupState where
  resources : List Resource
  nodes : List NodeId
deriving DecidableEq, Repr

/-- The `Default` impl for `GroupState`. -/
def GroupState.init : GroupState := ⟨[], []⟩

structure Transfer where
  id : Nat
  resource : Resource
  node : NodeId
deriving DecidableEq, Repr

inductive Timer
  | RetryNode (node : NodeId)
  | DropConnection (node : NodeId)
deriving DecidableEq, Repr

inductive OutEvent
  | StartTransfer (t : Transfer)
  | StartDial (node : NodeId)
  | RegisterTimer (duration : Nat) (timer : Timer)
  | DropConnection (node : NodeId)
deriving DecidableEq, Repr

/-- Modelled from the spec: `FailureAction` (downloader/mod.rs, not under src);
the payloads of the variants are dropped. -/
inductive FailureAction
  | NotFound
  | AbortRequest
  | DropPeer
  | RetryLater
deriving DecidableEq, Repr

structure NodeHints where
  resources : List Resource
  groups : List Group
deriving DecidableEq, Repr

structure ResourceHints where
  nodes : List NodeId
  skip_nodes : List NodeId
  groups : List Group
deriving DecidableEq, Repr

inductive InEvent
  | AddNode (node : NodeId) (hints : NodeHints)
  | AddResource (resource : Resource) (hints : ResourceHints)
  | TransferReady (id : Nat)
  | TransferFailed (id : Nat) (failure : FailureAction)
  | NodeConnected (node : NodeId)
  | NodeFailed (node : NodeId)
  | TimerExpired (timer : Timer)
deriving DecidableEq, Repr

/-- The scheduler state (`State` of state.rs); `actions` accumulates the
pending output events, `transfer_id` is the id generator's next value. -/
structure State where
  groups : List (Group × GroupState)
  resources : List (Resource × ResourceState)
  nodes : List (NodeId × NodeInfo)
  limits : ConcurrencyLimits
  active_transfers : List (Nat × Transfer)
  transfer_id : Nat
  actions : List OutEvent
deriving DecidableEq, Repr

/-! ### Association-list map helpers for the scheduler maps -/

def alGet {κ ν : Type} [DecidableEq κ] : List (κ × ν) → κ → Option ν
  | [], _ => none
  | (k', v') :: rest, k => if k = k' then some v' else alGet rest k

/-- Replace the value of an existing key in place (`get_mut` then assignment);
no-op if the key is absent. -/
def alSet {κ ν : Type} [DecidableEq κ] : List (κ × ν) → κ → ν → List (κ × ν)
  | [], _, _ => []
  | (k', v') :: rest, k, v => if k = k' then (k, v) :: rest else (k', v') :: alSet rest k v

/-- Insert-or-replace (`BTreeMap::insert`). -/
def alInsert {κ ν : Type} [DecidableEq κ] : List (κ × ν) → κ → ν → List (κ × ν)
  | [], k, v => [(k, v)]
  | (k', v') :: rest, k, v => if k = k' then (k, v) :: rest else (k', v') :: alInsert rest k v

/-- Remove an entry, returning its value (`BTreeMap::remove`); `none` leaves
the map unchanged. -/
def alTake {κ ν : Type} [DecidableEq κ] : List (κ × ν) → κ → Option (ν × List (κ × ν))
  | [], _ => none
  | (k', v') :: rest, k =>
    if k = k' then some (v', rest)
    else
      match alTake rest k with
      | none => none
      | some (v, r) => some (v, (k', v') :: r)

/-- `entry().or_default()` for the (lookup-only) groups/resources maps. -/
def alEntryOr {κ ν : Type} [DecidableEq κ] (l : List (κ × ν)) (k : κ) (d : ν) :
    List (κ × ν) :=
  match alGet l k with
  | some _ => l
  | none => l ++ [(k, d)]

/-- `entry().or_default()` for the key-sorted nodes map. -/
def nodesEnsure : List (NodeId × NodeInfo) → NodeId → List (NodeId × NodeInfo)
  | [], n => [(n, NodeInfo.init)]
  | (k, v) :: rest, n =>
    if n < k then (n, NodeInfo.init) :: (k, v) :: rest
    else if n = k then (k, v) :: rest
    else (k, v) :: nodesEnsure rest n

/-- `IndexSet::insert` / `HashSet::insert`: append when absent. -/
def insertIdx {α : Type} [DecidableEq α] (l : List α) (x : α) : List α :=
  if x ∈ l then l else l ++ [x]

/-! ### The scheduler operations -/

/-- Recognises `RegisterTimer` output events. -/
def OutEvent.isRegTimer : OutEvent → Bool
  | .RegisterTimer _ _ => true
  | _ => false

def connection_count (s : State) : Nat :=
  (s.nodes.filter (fun p => p.2.state.is_active)).length

/-- The number of active transfers of one node (0 for unknown nodes). -/
def nodeLoad (s : State) (n : NodeId) : Nat :=
  match alGet s.nodes n with
  | some ni => ni.active_transfers.length
  | none => 0

def State.conns_at_capacity (s : State) : Bool :=
  s.limits.conns_at_capacity (connection_count s)

/-- The resources reachable through a node's groups, in group order. -/
def groupResources (groups : List (Group × GroupState)) : List Group → List Resource
  | [] => []
  | g :: gs =>
    (match alGet groups g with
     | some st => st.resources
     | none => []) ++ groupResources groups gs

/-- `node_resource_iter`: the node's direct resources chained with the
resources of its groups, each paired with its `ResourceState` (entries absent
from the resources map are dropped). -/
def node_resource_iter (resources : List (Resource × ResourceState))
    (groups : List (Group × GroupState)) (ni : NodeInfo) :
    List (Resource × ResourceState) :=
  (ni.resources ++ groupResources groups ni.groups).filterMap
    (fun r =>
      match alGet resources r with
      | some st => some (r, st)
      | none => none)

/-- `node_is_needed`: some startable resource exists for the node. -/
def node_is_needed (resources : List (Resource × ResourceState))
    (groups : List (Group × GroupState)) (node : NodeId) (ni : NodeInfo) : Bool :=
  (node_resource_iter resources groups ni).any (fun p => p.2.can_start_transfer node)

def node_should_connect (resources : List (Resource × ResourceState))
    (groups : List (Group × GroupState)) (node : NodeId) (ni : NodeInfo) : Bool :=
  ni.state.may_connect && node_is_needed resources groups node ni

/-- The `next_resources` selection loop of `node_fill_transfers`: walk the
candidates, collect startable resources into a set until it has `remaining`
elements. -/
def collect_next (node : NodeId) :
    List (Resource × ResourceState) → Nat → List Resource → List Resource
  | [], _, acc => acc
  | (r, st) :: rest, remaining, acc =>
    if st.can_start_transfer node then
      let acc2 := if r ∈ acc then acc else acc ++ [r]
      if acc2.length = remaining then acc2 else collect_next node rest remaining acc2
    else collect_next node rest remaining acc

/-- One iteration of the transfer-start loop of `node_fill_transfers`: allocate
a fresh transfer id, emit `StartTransfer`, and register the transfer on the
global map, the node and the resource. -/
def start_transfer (node : NodeId) (s : State) (r : Resource) : State :=
  match alGet s.resources r, alGet s.nodes node with
  | some rs, some ni =>
    let id := s.transfer_id
    let t : Transfer := ⟨id, r, node⟩
    { s with
      transfer_id := id + 1
      actions := s.actions ++ [.StartTransfer t]
      active_transfers := alInsert s.active_transfers id t
      nodes := alSet s.nodes node { ni with active_transfers := insertIdx ni.active_transfers id }
      resources := alSet s.resources r { rs with active_transfer := some id } }
  | _, _ => s

/-- The trailing idle-timer block of `node_fill_transfers`: register a
disconnect timer for a node left without transfers, otherwise clear the
timeout flag. -/
def fill_finish (s1 : State) (node : NodeId) : State :=
  match alGet s1.nodes node with
  | none => s1
  | some ni2 =>
    if ni2.active_transfers.isEmpty && !ni2.in_disconnect_timeout then
      { s1 with
        actions := s1.actions ++ [.RegisterTimer IDLE_PEER_TIMEOUT (.DropConnection node)]
        nodes := alSet s1.nodes node { ni2 with in_disconnect_timeout := true } }
    else
      { s1 with nodes := alSet s1.nodes node { ni2 with in_disconnect_timeout := false } }

/-- `State::node_fill_transfers`. -/
def node_fill_transfers (s : State) (node : NodeId) : State :=
  match alGet s.nodes node with
  | none => s
  | some ni =>
    if !ni.is_connected
        || s.limits.node_at_request_capacity ni.active_transfers.length
        || s.limits.at_requests_capacity s.active_transfers.length then s
    else
      let s1 :=
        match s.limits.node_remaining_requests ni.active_transfers.length with
        | none => s
        | some remaining =>
          let candidates := node_resource_iter s.resources s.groups ni
          let next := collect_next node candidates remaining []
          next.foldl (start_transfer node) s
      fill_finish s1 node

/-- `State::on_node_connected`. -/
def on_node_connected (s : State) (node : NodeId) : State :=
  match alGet s.nodes node with
  | none => s
  | some ni =>
    let s2 := { s with nodes := alSet s.nodes node { ni with state := .Connected } }
    node_fill_transfers s2 node

/-- `self.groups.entry(group).or_default().nodes.insert(node)`. -/
def groupsAddNode (groups : List (Group × GroupState)) (g : Group) (node : NodeId) :
    List (Group × GroupState) :=
  let groups2 := alEntryOr groups g GroupState.init
  match alGet groups2 g with
  | some gs => alSet groups2 g { gs with nodes := insertIdx gs.nodes node }
  | none => groups2

/-- The body of the resource-hint loop of `add_node`: when the resource exists,
record the node as a provider and clear it from the skip set. -/
def resourcesAttachNode (resources : List (Resource × ResourceState)) (r : Resource)
    (node : NodeId) : List (Resource × ResourceState) :=
  match alGet resources r with
  | some rs =>
    alSet resources r
      { rs with nodes := insertIdx rs.nodes node, skip_nodes := rs.skip_nodes.erase node }
  | none => resources

/-- The group-hint loop of `add_node`, threading the node's group set and the
groups map. -/
def addNodeGroupsLoop (node : NodeId) :
    List Group → List Group → List (Group × GroupState) →
    List Group × List (Group × GroupState)
  | [], ngs, groups => (ngs, groups)
  | g :: rest, ngs, groups =>
    if g ∈ ngs then addNodeGroupsLoop node rest ngs groups
    else addNodeGroupsLoop node rest (ngs ++ [g]) (groupsAddNode groups g node)

/-- The resource-hint loop of `add_node`, threading the node's resource set and
the resources map. -/
def addNodeResourcesLoop (node : NodeId) :
    List Resource → List Resource → List (Resource × ResourceState) →
    List Resource × List (Resource × ResourceState)
  | [], nrs, resources => (nrs, resources)
  | r :: rest, nrs, resources =>
    if r ∈ nrs then addNodeResourcesLoop node rest nrs resources
    else addNodeResourcesLoop node rest (nrs ++ [r]) (resourcesAttachNode resources r node)

/-- The state-dispatch tail of `add_node`: a pending node is left alone, a
connected node is refilled, a dialable disconnected node is dialed. -/
def add_node_apply (s : State) (node : NodeId) (ni2 : NodeInfo) (atCap : Bool) : State :=
  match ni2.state with
  | .Pending _ _ => s
  | .Connected => node_fill_transfers s node
  | .Disconnected _ =>
    if !atCap && node_should_connect s.resources s.groups node ni2 then
      { s with
        nodes := alSet s.nodes node { ni2 with state := NodeState.connecting }
        actions := s.actions ++ [.StartDial node] }
    else s

/-- `State::add_node`. -/
def add_node (s : State) (node : NodeId) (hints : NodeHints) : State :=
  let atCap := s.conns_at_capacity
  let s := { s with nodes := nodesEnsure s.nodes node }
  match alGet s.nodes node with
  | none => s
  | some ni =>
    let pg := addNodeGroupsLoop node hints.groups ni.groups s.groups
    let pr := addNodeResourcesLoop node hints.resources ni.resources s.resources
    let ni2 := { ni with groups := pg.1, resources := pr.1 }
    let s := { s with groups := pg.2, resources := pr.2, nodes := alSet s.nodes node ni2 }
    add_node_apply s node ni2 atCap

/-- `group_state.resources.insert(resource)` under `entry().or_default()`. -/
def groupsAddResource (groups : List (Group × GroupState)) (g : Group) (r : Resource) :
    List (Group × GroupState) :=
  let groups2 := alEntryOr groups g GroupState.init
  match alGet groups2 g with
  | some gs => alSet groups2 g { gs with resources := insertIdx gs.resources r }
  | none => groups2

/-- The group-hint loop of `add_resource`. -/
def addResourceGroupsLoop (r : Resource) :
    List Group → List Group → List (Group × GroupState) →
    List Group × List (Group × GroupState)
  | [], rgs, groups => (rgs, groups)
  | g :: rest, rgs, groups =>
    if g ∈ rgs then addResourceGroupsLoop r rest rgs groups
    else addResourceGroupsLoop r rest (rgs ++ [g]) (groupsAddResource groups g r)

/-- `State::add_resource`. -/
def add_resource (s : State) (resource : Resource) (hints : ResourceHints) : State :=
  let s := { s with resources := alEntryOr s.resources resource ResourceState.init }
  let s :=
    match alGet s.resources resource with
    | some rs =>
      let skips := hints.skip_nodes.foldl insertIdx rs.skip_nodes
      let pg := addResourceGroupsLoop resource hints.groups rs.groups s.groups
      { s with
        resources := alSet s.resources resource { rs with skip_nodes := skips, groups := pg.1 }
        groups := pg.2 }
    | none => s
  hints.nodes.foldl (fun s2 n => add_node s2 n ⟨[resource], []⟩) s

/-- `resource_state.nodes.remove(&node)` over one resource of a failed node. -/
def resourceDropNode (resources : List (Resource × ResourceState)) (node : NodeId)
    (r : Resource) : List (Resource × ResourceState) :=
  match alGet resources r with
  | some rs => alSet resources r { rs with nodes := rs.nodes.erase node }
  | none => resources

/-- The queue-reconnects loop of `on_node_failed`: walk the nodes in key order,
dial up to `k` nodes that should connect. -/
def queue_reconnects (resources : List (Resource × ResourceState))
    (groups : List (Group × GroupState)) :
    List (NodeId × NodeInfo) → Nat → List (NodeId × NodeInfo) × List OutEvent
  | [], _ => ([], [])
  | (n, ni) :: rest, k =>
    if k = 0 then ((n, ni) :: rest, [])
    else if node_should_connect resources groups n ni then
      let p := queue_reconnects resources groups rest (k - 1)
      ((n, { ni with state := NodeState.connecting }) :: p.1, .StartDial n :: p.2)
    else
      let p := queue_reconnects resources groups rest k
      ((n, ni) :: p.1, p.2)

/-- `State::on_node_failed`. -/
def on_node_failed (s : State) (node : NodeId) (may_reconnect : Bool) : State :=
  match alGet s.nodes node with
  | none => s
  | some ni =>
    let s1 :=
      if may_reconnect && !ni.should_reconnect then
        { s with
          actions := s.actions ++ [.RegisterTimer RETRY_TIMEOUT (.RetryNode node)]
          nodes := alSet s.nodes node
            { ni with state := .Pending .RetryTimeout ni.remaining_retries } }
      else
        { s with
          actions := s.actions ++ [.DropConnection node]
          resources := ni.resources.foldl (fun m r => resourceDropNode m node r) s.resources
          nodes := alSet s.nodes node { ni with resources := [], state := .Disconnected true } }
    match s1.limits.remaining_connections (connection_count s1) with
    | none => s1
    | some remaining =>
      let p := queue_reconnects s1.resources s1.groups s1.nodes remaining
      { s1 with nodes := p.1, actions := s1.actions ++ p.2 }

/-- `node_state.resources.remove(&resource)` for one node referencing a
finished resource. -/
def nodesDropResource (nodes : List (NodeId × NodeInfo)) (r : Resource) (n : NodeId) :
    List (NodeId × NodeInfo) :=
  match alGet nodes n with
  | some ni => alSet nodes n { ni with resources := ni.resources.erase r }
  | none => nodes

/-- `group_state.resources.remove(&resource)` for one group referencing a
finished resource. -/
def groupsDropResource (groups : List (Group × GroupState)) (r : Resource) (g : Group) :
    List (Group × GroupState) :=
  match alGet groups g with
  | some gs => alSet groups g { gs with resources := gs.resources.erase r }
  | none => groups

/-- The tail of `on_transfer_ready`: unregister the transfer id on the node
and refill its transfer slots. -/
def transfer_ready_apply (s : State) (t : Transfer) (id : Nat) : State :=
  match alGet s.nodes t.node with
  | none => s
  | some ni =>
    let s :=
      { s with
        nodes := alSet s.nodes t.node
          { ni with active_transfers := ni.active_transfers.erase id } }
    node_fill_transfers s t.node

/-- `State::on_transfer_ready`; an unknown id is dropped (the
`debug_assert!` has no effect in release builds). -/
def on_transfer_ready (s : State) (id : Nat) : State :=
  match alTake s.active_transfers id with
  | none => s
  | some (t, rest) =>
    let s := { s with active_transfers := rest }
    let s :=
      match alTake s.resources t.resource with
      | none => s
      | some (rs, resRest) =>
        { s with
          resources := resRest
          nodes := rs.nodes.foldl (fun m n => nodesDropResource m t.resource n) s.nodes
          groups := rs.groups.foldl (fun m g => groupsDropResource m t.resource g) s.groups }
    transfer_ready_apply s t id

/-- The tail of `on_transfer_failed`: unregister the transfer id on the node
and dispatch on the failure action. -/
def transfer_failed_apply (s : State) (t : Transfer) (id : Nat)
    (action : FailureAction) : State :=
  match alGet s.nodes t.node with
  | none => s
  | some ni =>
    let s :=
      { s with
        nodes := alSet s.nodes t.node
          { ni with active_transfers := ni.active_transfers.erase id } }
    match action with
    | .NotFound => node_fill_transfers s t.node
    | .AbortRequest => node_fill_transfers s t.node
    | .DropPeer => on_node_failed s t.node false
    | .RetryLater => on_node_failed s t.node true

/-- `State::on_transfer_failed`; an unknown id is dropped. -/
def on_transfer_failed (s : State) (id : Nat) (action : FailureAction) : State :=
  match alTake s.active_transfers id with
  | none => s
  | some (t, rest) =>
    let s := { s with active_transfers := rest }
    let s := { s with resources := alEntryOr s.resources t.resource ResourceState.init }
    let s :=
      match alGet s.resources t.resource with
      | some rs =>
        { s with
          resources := alSet s.resources t.resource
            { rs with skip_nodes := insertIdx rs.skip_nodes t.node, active_transfer := none } }
      | none => s
    transfer_failed_apply s t id action

/-- `State::on_timer`. -/
def on_timer (s : State) : Timer → State
  | .RetryNode node =>
    match alGet s.nodes node with
    | none => s
    | some ni =>
      { s with
        nodes := alSet s.nodes node { ni with state := NodeState.connecting }
        actions := s.actions ++ [.StartDial node] }
  | .DropConnection node =>
    match alGet s.nodes node with
    | none => s
    | some ni =>
      if ni.in_disconnect_timeout then
        if ni.active_transfers.isEmpty then
          { s with
            nodes := alSet s.nodes node
              { ni with in_disconnect_timeout := false, state := .Disconnected false }
            actions := s.actions ++ [.DropConnection node] }
        else
          { s with nodes := alSet s.nodes node { ni with in_disconnect_timeout := false } }
      else s

/-- `State::handle`. -/
def handle (s : State) : InEvent → State
  | .AddNode node hints => add_node s node hints
  | .AddResource resource hints => add_resource s resource hints
  | .TransferReady id => on_transfer_ready s id
  | .TransferFailed id failure => on_transfer_failed s id failure
  | .NodeConnected node => on_node_connected s node
  | .NodeFailed node => on_node_failed s node true
  | .TimerExpired timer => on_timer s timer

/-- `State::new`. -/
def State.new (limits : ConcurrencyLimits) : State := ⟨[], [], [], limits, [], 0, []⟩

/-- The state reached from the initial state by a sequence of input events. -/
def run (limits : ConcurrencyLimits) (events : List InEvent) : State :=
  events.foldl handle (State.new limits)


/-! ### Invariant predicates -/

/-- The nodes map is sorted strictly by node id (the `BTreeMap` key order). -/
def NodesSorted (nodes : List (NodeId × NodeInfo)) : Prop :=
  List.Pairwise (· < ·) (nodes.map Prod.fst)

/-- The resources map has no duplicate keys. -/
def ResKeysNodup (s : State) : Prop := (s.resources.map Prod.fst).Nodup

/-- Every resource's provider-node set is duplicate-free. -/
def RsNodesNodup (s : State) : Prop := ∀ p ∈ s.resources, p.2.nodes.Nodup

/-- Every node is running at most `max_concurrent_requests_per_node` transfers. -/
def NodesPerCap (s : State) : Prop :=
  ∀ p ∈ s.nodes, p.2.active_transfers.length ≤ s.limits.max_concurrent_requests_per_node

/-- The number of active transfers is bounded by
`max_concurrent_requests + max_concurrent_requests_per_node - 1`: one fill
round checks the global cap once before starting up to a node's remaining
per-node budget. -/
def GlobalCap (s : State) : Prop :=
  s.active_transfers.length
    ≤ s.limits.max_concurrent_requests + s.limits.max_concurrent_requests_per_node - 1

/-- One direction of reverse-index consistency: a node recorded as a provider
of a resource has that resource in its own set. -/
def ReverseIdxOk (s : State) : Prop :=
  ∀ p ∈ s.resources, ∀ n ∈ p.2.nodes, ∀ ni, alGet s.nodes n = some ni → p.1 ∈ ni.resources

/-- Every node recorded as a provider of a resource is present in the nodes
map. -/
def NodeKnown (s : State) : Prop :=
  ∀ p ∈ s.resources, ∀ n ∈ p.2.nodes, ∃ ni, alGet s.nodes n = some ni

/-- The combined inductive invariant of the scheduler state machine. -/
def MasterInv (s : State) : Prop :=
  NodesSorted s.nodes ∧ ResKeysNodup s ∧ RsNodesNodup s ∧ NodesPerCap s ∧ GlobalCap s
    ∧ ReverseIdxOk s ∧ NodeKnown s

/-- Well-formedness of one namespace's peer set: value-sorted, at most one
entry per peer, within capacity. -/
def PeersInv (peers : List PeerEntry) : Prop :=
  List.Pairwise (fun a b => cmpNs2 a b = .lt) peers ∧
  List.Pairwise (fun a b : PeerEntry => a.2 ≠ b.2) peers ∧
  peers.length ≤ PEERS_PER_DOC_CACHE_SIZE

/-! ### Concrete example inputs used by witnesses and counterexamples -/

def exEntry1 : SignedEntry := ⟨(0, 0, [1]), 10, 1, 2, 3, 7⟩
def exEntry12 : SignedEntry := ⟨(0, 0, [1, 2]), 11, 1, 2, 3, 8⟩
def exEntryEmpty : SignedEntry := ⟨(0, 0, [5]), 12, 1, 2, 3, EMPTY_HASH⟩
def emptyTables : ReplicaTables := ⟨[], [], []⟩

/-- Two non-empty entries of namespace 0 at keys `[1]` and `[1, 2]`. -/
def exTables : ReplicaTables := put (put emptyTables exEntry1) exEntry12

def exResourceA : Resource := ⟨1, .Blob⟩
def exResourceB : Resource := ⟨2, .Blob⟩
def exResourceC : Resource := ⟨3, .Blob⟩
def exResourceD : Resource := ⟨4, .Blob⟩

/-- One resource provided by node 0; the node connects and the transfer fails
with `RetryLater` — the first transient failure of a fresh node. -/
def c1Events : List InEvent :=
  [.AddResource exResourceA ⟨[0], [], []⟩, .NodeConnected 0,
   .TransferFailed 0 .RetryLater]

/-- Four resources provided by node 0, which then connects. -/
def c4FillEvents : List InEvent :=
  [.AddResource exResourceA ⟨[0], [], []⟩, .AddResource exResourceB ⟨[0], [], []⟩,
   .AddResource exResourceC ⟨[0], [], []⟩, .AddResource exResourceD ⟨[0], [], []⟩,
   .NodeConnected 0]

/-- Two known nodes and a `NodeConnected` event for each. -/
def c4ConnEvents : List InEvent :=
  [.AddNode 0 ⟨[], []⟩, .AddNode 1 ⟨[], []⟩, .NodeConnected 0, .NodeConnected 1]

/-- A node declared with a resource hint before the resource itself is added. -/
def c10Events : List InEvent :=
  [.AddNode 0 ⟨[exResourceA], []⟩, .AddResource exResourceA ⟨[], [], []⟩]

/-- One resource provided by node 0 and a connection: leaves one running
transfer with id 0. -/
def c9Events : List InEvent :=
  [.AddResource exResourceA ⟨[0], [], []⟩, .NodeConnected 0]


/-! ## Lemmas about comparators and sorted tables -/

theorem cmpNat_eq_iff {a b : Nat} : cmpNat a b = .eq ↔ a = b := by
  unfold cmpNat
  split
  · simp only [reduceCtorEq, false_iff]; omega
  · split
    · simp only [reduceCtorEq, false_iff]; omega
    · simp only [true_iff]; omega

theorem cmpNat_lt_iff {a b : Nat} : cmpNat a b = .lt ↔ a < b := by
  unfold cmpNat
  split
  · simpa
  · split <;> simp <;> omega

theorem cmpNat_gt_iff {a b : Nat} : cmpNat a b = .gt ↔ b < a := by
  unfold cmpNat
  split
  · simp only [reduceCtorEq, false_iff]; omega
  · split <;> simp <;> omega

theorem cmpNat_swap (a b : Nat) : cmpNat b a = (cmpNat a b).swap := by
  unfold cmpNat
  rcases Nat.lt_trichotomy a b with h | h | h
  · rw [if_neg (Nat.lt_asymm h), if_pos h, if_pos h]; rfl
  · subst h
    rw [if_neg (Nat.lt_irrefl _), if_neg (Nat.lt_irrefl _)]; rfl
  · rw [if_pos h, if_neg (Nat.lt_asymm h), if_pos h]; rfl

theorem cmpBytes_eq_iff : ∀ {a b : List Nat}, cmpBytes a b = .eq ↔ a = b
  | [], [] => by simp [cmpBytes]
  | [], _ :: _ => by simp [cmpBytes]
  | _ :: _, [] => by simp [cmpBytes]
  | a :: as, b :: bs => by
    unfold cmpBytes
    split
    · simp only [reduceCtorEq, false_iff]
      intro h; cases h; omega
    · split
      · simp only [reduceCtorEq, false_iff]
        intro h; cases h; omega
      · rw [cmpBytes_eq_iff (a := as) (b := bs)]
        constructor
        · intro h; subst h; congr 1; omega
        · intro h; cases h; rfl

theorem cmpBytes_swap : ∀ {a b : List Nat}, cmpBytes b a = (cmpBytes a b).swap
  | [], [] => rfl
  | [], _ :: _ => rfl
  | _ :: _, [] => rfl
  | a :: as, b :: bs => by
    unfold cmpBytes
    rcases Nat.lt_trichotomy a b with h | h | h
    · rw [if_neg (Nat.lt_asymm h), if_pos h, if_pos h]; rfl
    · subst h
      rw [if_neg (Nat.lt_irrefl _), if_neg (Nat.lt_irrefl _), if_neg (Nat.lt_irrefl _),
        if_neg (Nat.lt_irrefl _)]
      exact cmpBytes_swap
    · rw [if_pos h, if_neg (Nat.lt_asymm h), if_pos h]; rfl

theorem cmpBytes_lt_trans : ∀ {a b c : List Nat},
    cmpBytes a b = .lt → cmpBytes b c = .lt → cmpBytes a c = .lt
  | [], [], _ => by intro h1 _; simp [cmpBytes] at h1
  | [], _ :: _, [] => by intro _ h2; simp [cmpBytes] at h2
  | [], _ :: _, _ :: _ => by intro _ _; rfl
  | _ :: _, [], _ => by intro h1 _; simp [cmpBytes] at h1
  | _ :: _, _ :: _, [] => by intro _ h2; simp [cmpBytes] at h2
  | a :: as, b :: bs, c :: cs => by
    unfold cmpBytes
    intro h1 h2
    rcases Nat.lt_trichotomy a b with hab | hab | hab
    · rcases Nat.lt_trichotomy b c with hbc | hbc | hbc
      · rw [if_pos (Nat.lt_trans hab hbc)]
      · subst hbc; rw [if_pos hab]
      · rw [if_neg (Nat.lt_asymm hbc), if_pos hbc] at h2; cases h2
    · subst hab
      rcases Nat.lt_trichotomy a c with hac | hac | hac
      · rw [if_pos hac]
      · subst hac
        rw [if_neg (Nat.lt_irrefl _), if_neg (Nat.lt_irrefl _)] at h1 h2 ⊢
        exact cmpBytes_lt_trans h1 h2
      · rw [if_neg (Nat.lt_asymm hac), if_pos hac] at h2; cases h2
    · rw [if_neg (Nat.lt_asymm hab), if_pos hab] at h1; cases h1

theorem othen_eq_lt {a b : Ordering} :
    a.then b = .lt ↔ a = .lt ∨ (a = .eq ∧ b = .lt) := by
  cases a <;> simp [Ordering.then]

theorem othen_eq_eq {a b : Ordering} :
    a.then b = .eq ↔ a = .eq ∧ b = .eq := by
  cases a <;> simp [Ordering.then]

theorem othen_eq_gt {a b : Ordering} :
    a.then b = .gt ↔ a = .gt ∨ (a = .eq ∧ b = .gt) := by
  cases a <;> simp [Ordering.then]

theorem cmpId_eq_iff {x y : RecordId} : cmpId x y = .eq ↔ x = y := by
  unfold cmpId
  rw [othen_eq_eq, othen_eq_eq, cmpNat_eq_iff, cmpNat_eq_iff, cmpBytes_eq_iff]
  constructor
  · rintro ⟨h1, h2, h3⟩
    exact Prod.ext h1 (Prod.ext h2 h3)
  · intro h; subst h; exact ⟨rfl, rfl, rfl⟩

theorem cmpByKey_eq_iff {x y : ByKeyId} : cmpByKey x y = .eq ↔ x = y := by
  unfold cmpByKey
  rw [othen_eq_eq, othen_eq_eq, cmpNat_eq_iff, cmpNat_eq_iff, cmpBytes_eq_iff]
  constructor
  · rintro ⟨h1, h2, h3⟩
    exact Prod.ext h1 (Prod.ext h2 h3)
  · intro h; subst h; exact ⟨rfl, rfl, rfl⟩

theorem cmpNs2_eq_iff {x y : Nat × Nat} : cmpNs2 x y = .eq ↔ x = y := by
  unfold cmpNs2
  rw [othen_eq_eq, cmpNat_eq_iff, cmpNat_eq_iff]
  constructor
  · rintro ⟨h1, h2⟩; exact Prod.ext h1 h2
  · intro h; subst h; exact ⟨rfl, rfl⟩

theorem cmpId_lt_trans {x y z : RecordId} :
    cmpId x y = .lt → cmpId y z = .lt → cmpId x z = .lt := by
  unfold cmpId
  rw [othen_eq_lt, othen_eq_lt, othen_eq_lt, othen_eq_lt, othen_eq_lt, othen_eq_lt]
  simp only [cmpNat_lt_iff, cmpNat_eq_iff]
  rintro (h1 | ⟨e1, h1 | ⟨e1', hb1⟩⟩) (h2 | ⟨e2, h2 | ⟨e2', hb2⟩⟩)
  · exact Or.inl (by omega)
  · exact Or.inl (by omega)
  · exact Or.inl (by omega)
  · exact Or.inl (by omega)
  · exact Or.inr ⟨by omega, Or.inl (by omega)⟩
  · exact Or.inr ⟨by omega, Or.inl (by omega)⟩
  · exact Or.inl (by omega)
  · exact Or.inr ⟨by omega, Or.inl (by omega)⟩
  · exact Or.inr ⟨by omega, Or.inr ⟨by rw [e1', e2'], cmpBytes_lt_trans hb1 hb2⟩⟩

theorem oswap_then (a b : Ordering) : (a.then b).swap = a.swap.then b.swap := by
  cases a <;> cases b <;> rfl

theorem cmpId_swap (x y : RecordId) : cmpId y x = (cmpId x y).swap := by
  unfold cmpId
  rw [cmpNat_swap x.1 y.1, cmpNat_swap x.2.1 y.2.1,
    cmpBytes_swap (a := x.2.2) (b := y.2.2)]
  generalize cmpNat x.1 y.1 = o1
  generalize cmpNat x.2.1 y.2.1 = o2
  generalize cmpBytes x.2.2 y.2.2 = o3
  cases o1 <;> cases o2 <;> cases o3 <;> rfl

theorem cmpId_irrefl {x : RecordId} : cmpId x x = .eq := cmpId_eq_iff.mpr rfl

theorem cmpByKey_lt_trans {x y z : ByKeyId} :
    cmpByKey x y = .lt → cmpByKey y z = .lt → cmpByKey x z = .lt := by
  unfold cmpByKey
  rw [othen_eq_lt, othen_eq_lt, othen_eq_lt, othen_eq_lt, othen_eq_lt, othen_eq_lt]
  simp only [cmpNat_lt_iff, cmpNat_eq_iff, cmpBytes_eq_iff]
  rintro (h1 | ⟨e1, h1 | ⟨e1', hb1⟩⟩) (h2 | ⟨e2, h2 | ⟨e2', hb2⟩⟩)
  · exact Or.inl (by omega)
  · exact Or.inl (by omega)
  · exact Or.inl (by omega)
  · exact Or.inl (by omega)
  · exact Or.inr ⟨by omega, Or.inl (cmpBytes_lt_trans h1 h2)⟩
  · exact Or.inr ⟨by omega, Or.inl (by rw [← e2']; exact h1)⟩
  · exact Or.inl (by omega)
  · exact Or.inr ⟨by omega, Or.inl (by rw [e1']; exact h2)⟩
  · exact Or.inr ⟨by omega, Or.inr ⟨by rw [e1', e2'], by omega⟩⟩

theorem cmpByKey_swap (x y : ByKeyId) : cmpByKey y x = (cmpByKey x y).swap := by
  unfold cmpByKey
  rw [cmpNat_swap x.1 y.1, cmpNat_swap x.2.2 y.2.2,
    cmpBytes_swap (a := x.2.1) (b := y.2.1)]
  generalize cmpNat x.1 y.1 = o1
  generalize cmpBytes x.2.1 y.2.1 = o2
  generalize cmpNat x.2.2 y.2.2 = o3
  cases o1 <;> cases o2 <;> cases o3 <;> rfl

theorem cmpNs2_lt_trans {x y z : Nat × Nat} :
    cmpNs2 x y = .lt → cmpNs2 y z = .lt → cmpNs2 x z = .lt := by
  unfold cmpNs2
  rw [othen_eq_lt, othen_eq_lt, othen_eq_lt]
  simp only [cmpNat_lt_iff, cmpNat_eq_iff]
  rintro (h1 | ⟨e1, h1⟩) (h2 | ⟨e2, h2⟩)
  · exact Or.inl (by omega)
  · exact Or.inl (by omega)
  · exact Or.inl (by omega)
  · exact Or.inr ⟨by omega, by omega⟩

theorem cmpNs2_swap (x y : Nat × Nat) : cmpNs2 y x = (cmpNs2 x y).swap := by
  unfold cmpNs2
  rw [cmpNat_swap x.1 y.1, cmpNat_swap x.2 y.2]
  generalize cmpNat x.1 y.1 = o1
  generalize cmpNat x.2 y.2 = o2
  cases o1 <;> cases o2 <;> rfl

theorem mem_tblInsert {κ ν : Type} {cmp : κ → κ → Ordering}
    {l : List (κ × ν)} {k : κ} {v : ν} {b : κ × ν}
    (hb : b ∈ tblInsert cmp l k v) : b = (k, v) ∨ b ∈ l := by
  induction l with
  | nil => simpa [tblInsert] using hb
  | cons q qs ihq =>
    obtain ⟨kq, vq⟩ := q
    rcases hq : cmp k kq with _ | _ | _ <;> simp only [tblInsert, hq] at hb
    · rcases List.mem_cons.mp hb with h | h
      · exact Or.inl h
      · exact Or.inr h
    · rcases List.mem_cons.mp hb with h | h
      · exact Or.inl h
      · exact Or.inr (List.mem_cons_of_mem _ h)
    · rcases List.mem_cons.mp hb with h | h
      · exact Or.inr (by simp [h])
      · rcases ihq h with h' | h'
        · exact Or.inl h'
        · exact Or.inr (List.mem_cons_of_mem _ h')

theorem tblGet_tblInsert_same {κ ν : Type} {cmp : κ → κ → Ordering}
    (heq : ∀ a b : κ, cmp a b = .eq ↔ a = b)
    (l : List (κ × ν)) (k : κ) (v : ν) :
    tblGet cmp (tblInsert cmp l k v) k = some v := by
  induction l with
  | nil => simp [tblInsert, tblGet, (heq k k).mpr rfl]
  | cons p rest ih =>
    obtain ⟨k', v'⟩ := p
    rcases hc : cmp k k' with _ | _ | _ <;> simp only [tblInsert, hc]
    · simp [tblGet, (heq k k).mpr rfl]
    · simp [tblGet, (heq k k).mpr rfl]
    · have hne : cmp k k' ≠ .eq := by rw [hc]; simp
      simp [tblGet, hne, ih]

theorem tblGet_tblInsert_ne {κ ν : Type} {cmp : κ → κ → Ordering}
    (heq : ∀ a b : κ, cmp a b = .eq ↔ a = b)
    (l : List (κ × ν)) (k k₂ : κ) (v : ν) (hne : k₂ ≠ k) :
    tblGet cmp (tblInsert cmp l k v) k₂ = tblGet cmp l k₂ := by
  have hke : cmp k₂ k ≠ .eq := fun h => hne ((heq _ _).mp h)
  induction l with
  | nil => simp [tblInsert, tblGet, hke]
  | cons p rest ih =>
    obtain ⟨k', v'⟩ := p
    rcases hc : cmp k k' with _ | _ | _ <;> simp only [tblInsert, hc]
    · simp [tblGet, hke]
    · have : k = k' := (heq _ _).mp hc
      subst this
      simp [tblGet, hke]
    · simp only [tblGet, ih]

theorem tblInsert_sorted {κ ν : Type} {cmp : κ → κ → Ordering}
    (heq : ∀ a b : κ, cmp a b = .eq ↔ a = b)
    (htrans : ∀ a b c : κ, cmp a b = .lt → cmp b c = .lt → cmp a c = .lt)
    (hswap : ∀ a b : κ, cmp b a = (cmp a b).swap)
    {l : List (κ × ν)} (hs : TblSorted cmp l) (k : κ) (v : ν) :
    TblSorted cmp (tblInsert cmp l k v) := by
  induction l with
  | nil => simp [tblInsert, TblSorted]
  | cons p rest ih =>
    obtain ⟨k', v'⟩ := p
    rw [TblSorted, List.pairwise_cons] at hs
    obtain ⟨hall, hrest⟩ := hs
    rcases hc : cmp k k' with _ | _ | _ <;> simp only [tblInsert, hc]
    · rw [TblSorted, List.pairwise_cons]
      refine ⟨?_, List.pairwise_cons.mpr ⟨hall, hrest⟩⟩
      intro b hb
      rcases List.mem_cons.mp hb with hb' | hb'
      · subst hb'; exact hc
      · exact htrans _ _ _ hc (hall b hb')
    · have : k = k' := (heq _ _).mp hc
      subst this
      rw [TblSorted, List.pairwise_cons]
      exact ⟨hall, hrest⟩
    · rw [TblSorted, List.pairwise_cons]
      constructor
      · intro b hb
        rcases mem_tblInsert hb with hb' | hb'
        · subst hb'
          have h2 := hswap k k'
          rw [hc] at h2
          simpa using h2
        · exact hall b hb'
      · exact ih hrest

theorem tblRemove_fst {κ ν : Type} (cmp : κ → κ → Ordering) (l : List (κ × ν)) (k : κ) :
    (tblRemove cmp l k).1 = tblGet cmp l k := by
  induction l with
  | nil => simp [tblRemove, tblGet]
  | cons p rest ih =>
    obtain ⟨k', v'⟩ := p
    unfold tblRemove tblGet
    split
    · rfl
    · simpa using ih

/-- Keys strictly below every key of a list do not occur in it. -/
theorem tblGet_of_all_lt {κ ν : Type} {cmp : κ → κ → Ordering}
    {l : List (κ × ν)} (k : κ)
    (hall : ∀ b ∈ l, cmp k b.1 = .lt) :
    tblGet cmp l k = none := by
  induction l with
  | nil => rfl
  | cons p rest ih =>
    obtain ⟨k', v'⟩ := p
    have h1 : cmp k k' = .lt := hall (k', v') (by simp)
    have hne : cmp k k' ≠ .eq := by rw [h1]; simp
    unfold tblGet
    rw [if_neg hne]
    exact ih (fun b hb => hall b (List.mem_cons_of_mem _ hb))

theorem tblRemove_get_same {κ ν : Type} {cmp : κ → κ → Ordering}
    (heq : ∀ a b : κ, cmp a b = .eq ↔ a = b)
    {l : List (κ × ν)} (hs : TblSorted cmp l) (k : κ) :
    tblGet cmp (tblRemove cmp l k).2 k = none := by
  induction l with
  | nil => simp [tblRemove, tblGet]
  | cons p rest ih =>
    obtain ⟨k', v'⟩ := p
    rw [TblSorted, List.pairwise_cons] at hs
    obtain ⟨hall, hrest⟩ := hs
    unfold tblRemove
    split
    · rename_i hc
      have : k = k' := (heq _ _).mp hc
      subst this
      exact tblGet_of_all_lt k hall
    · rename_i hc
      simpa [tblGet, hc] using ih hrest

theorem tblRemove_get_ne {κ ν : Type} {cmp : κ → κ → Ordering}
    (heq : ∀ a b : κ, cmp a b = .eq ↔ a = b)
    (l : List (κ × ν)) (k k₂ : κ) (hne : k₂ ≠ k) :
    tblGet cmp (tblRemove cmp l k).2 k₂ = tblGet cmp l k₂ := by
  have hke : cmp k₂ k ≠ .eq := fun h => hne ((heq _ _).mp h)
  induction l with
  | nil => simp [tblRemove, tblGet]
  | cons p rest ih =>
    obtain ⟨k', v'⟩ := p
    unfold tblRemove
    split
    · rename_i hc
      have : k = k' := (heq _ _).mp hc
      subst this
      simp [tblGet, hke]
    · rename_i hc
      unfold tblGet
      split
      · rfl
      · simpa using ih

theorem mem_tblRemove {κ ν : Type} {cmp : κ → κ → Ordering}
    {l : List (κ × ν)} {k : κ} {b : κ × ν}
    (hb : b ∈ (tblRemove cmp l k).2) : b ∈ l := by
  induction l with
  | nil =>
    rw [tblRemove] at hb
    cases hb
  | cons q qs ihq =>
    obtain ⟨kq, vq⟩ := q
    unfold tblRemove at hb
    split at hb
    · exact List.mem_cons_of_mem _ hb
    · rcases List.mem_cons.mp hb with h | h
      · exact List.mem_cons.mpr (Or.inl h)
      · exact List.mem_cons_of_mem _ (ihq h)



/-! ## Bound characterization lemmas -/

theorem ordIsLt_iff {o : Ordering} : ordIsLt o = true ↔ o = .lt := by
  cases o <;> simp [ordIsLt]

theorem ordNotGt_iff {o : Ordering} : ordNotGt o = true ↔ o ≠ .gt := by
  cases o <;> simp [ordNotGt]

theorem bool_ext {a b : Bool} (h : (a = true) ↔ (b = true)) : a = b := by
  cases a <;> cases b <;> simp_all

theorem cmpId_nsmin_gt_iff {ns : Nat} {id : RecordId} :
    cmpId (ns, 0, ([] : List Nat)) id = .gt ↔ id.1 < ns := by
  obtain ⟨i1, i2, i3⟩ := id
  unfold cmpId
  rw [othen_eq_gt]
  dsimp only
  constructor
  · rintro (h | ⟨e, h⟩)
    · exact cmpNat_gt_iff.mp h
    · rw [othen_eq_gt] at h
      rcases h with h | ⟨e2, h⟩
      · have := cmpNat_gt_iff.mp h; omega
      · rcases i3 with _ | ⟨c, cs⟩ <;> simp [cmpBytes] at h
  · intro h
    exact Or.inl (cmpNat_gt_iff.mpr h)

theorem cmpId_nsmax_lt_iff {ns : Nat} {id : RecordId} :
    cmpId id (ns + 1, 0, ([] : List Nat)) = .lt ↔ id.1 < ns + 1 := by
  obtain ⟨i1, i2, i3⟩ := id
  unfold cmpId
  rw [othen_eq_lt]
  dsimp only
  constructor
  · rintro (h | ⟨e, h⟩)
    · exact cmpNat_lt_iff.mp h
    · rw [othen_eq_lt] at h
      rcases h with h | ⟨e2, h⟩
      · have := cmpNat_lt_iff.mp h; omega
      · rcases i3 with _ | ⟨c, cs⟩ <;> simp [cmpBytes] at h
  · intro h
    exact Or.inl (cmpNat_lt_iff.mpr h)

theorem inBounds_nsBounds_iff {ns : Nat} {id : RecordId} :
    inBounds (nsBounds ns) id = true ↔ id.1 = ns := by
  unfold inBounds nsBounds fromContains toContains
  dsimp only
  rw [Bool.and_eq_true, ordNotGt_iff, ordIsLt_iff]
  constructor
  · rintro ⟨h1, h2⟩
    have ha : ¬ id.1 < ns := fun hlt => h1 (cmpId_nsmin_gt_iff.mpr hlt)
    have hb := cmpId_nsmax_lt_iff.mp h2
    omega
  · intro h
    refine ⟨fun hgt => ?_, cmpId_nsmax_lt_iff.mpr (by omega)⟩
    have := cmpId_nsmin_gt_iff.mp hgt
    omega

theorem inBounds_nsBounds_eq (ns : Nat) (id : RecordId) :
    inBounds (nsBounds ns) id = (id.1 == ns) :=
  bool_ext (inBounds_nsBounds_iff.trans beq_iff_eq.symm)

theorem cmpId_lt_fst_le {a b : RecordId} (h : cmpId a b = .lt) : a.1 ≤ b.1 := by
  unfold cmpId at h
  rw [othen_eq_lt] at h
  rcases h with h | ⟨e, h⟩
  · exact Nat.le_of_lt (cmpNat_lt_iff.mp h)
  · exact Nat.le_of_eq (cmpNat_eq_iff.mp e)

theorem cmpId_not_gt_fst_le {a b : RecordId} (h : cmpId a b ≠ .gt) : a.1 ≤ b.1 := by
  rcases hc : cmpId a b with _ | _ | _
  · exact cmpId_lt_fst_le hc
  · exact Nat.le_of_eq (congrArg Prod.fst (cmpId_eq_iff.mp hc))
  · exact absurd hc h

theorem inBounds_from_start_iff {ns : Nat} {y id : RecordId} (hy : y.1 = ns) :
    inBounds (from_start ns (.excl y)) id = true ↔ id.1 = ns ∧ cmpId id y = .lt := by
  unfold inBounds from_start fromContains toContains
  dsimp only
  rw [Bool.and_eq_true, ordNotGt_iff, ordIsLt_iff]
  constructor
  · rintro ⟨h1, h2⟩
    have ha : ¬ id.1 < ns := fun hlt => h1 (cmpId_nsmin_gt_iff.mpr hlt)
    have hb : id.1 ≤ y.1 := cmpId_lt_fst_le h2
    exact ⟨by omega, h2⟩
  · rintro ⟨h1, h2⟩
    exact ⟨fun hgt => by have := cmpId_nsmin_gt_iff.mp hgt; omega, h2⟩

theorem inBounds_to_end_iff {ns : Nat} {x id : RecordId} (hx : x.1 = ns) :
    inBounds (to_end ns (.incl x)) id = true ↔ id.1 = ns ∧ cmpId x id ≠ .gt := by
  unfold inBounds to_end fromContains toContains
  dsimp only
  rw [Bool.and_eq_true, ordNotGt_iff, ordIsLt_iff]
  constructor
  · rintro ⟨h1, h2⟩
    have ha : x.1 ≤ id.1 := cmpId_not_gt_fst_le h1
    have hb := cmpId_nsmax_lt_iff.mp h2
    exact ⟨by omega, h1⟩
  · rintro ⟨h1, h2⟩
    exact ⟨h2, cmpId_nsmax_lt_iff.mpr (by omega)⟩

/-! ## Lemmas about `get_one` and the parent iterator -/

theorem get_one_eq_some {records : List (RecordId × RecordsValue)} {ns author : Nat}
    {key : List Nat} {e : SignedEntry}
    (h : get_one records ns author key false = some e) :
    e.id = (ns, author, key) ∧ e.is_empty = false ∧
      tblGet cmpId records (ns, author, key) = some e.value := by
  unfold get_one at h
  rcases hg : tblGet cmpId records (ns, author, key) with _ | v <;> rw [hg] at h
  · cases h
  · dsimp only at h
    split at h
    · cases h
    · rename_i hemp
      cases h
      refine ⟨rfl, ?_, ?_⟩
      · simpa [into_entry, SignedEntry.is_empty] using hemp
      · rfl

theorem isPfx_refl : ∀ k : List Nat, isPfx k k = true
  | [] => rfl
  | a :: as => by simp [isPfx, isPfx_refl as]

theorem isPfx_dropLast : ∀ k : List Nat, isPfx k.dropLast k = true
  | [] => rfl
  | [a] => rfl
  | a :: b :: r => by
    have ih := isPfx_dropLast (b :: r)
    simpa [List.dropLast, isPfx] using ih

theorem isPfx_trans : ∀ {a b c : List Nat},
    isPfx a b = true → isPfx b c = true → isPfx a c = true
  | [], _, _ => fun _ _ => rfl
  | x :: xs, [], _ => by intro h _; simp [isPfx] at h
  | x :: xs, y :: ys, [] => by intro _ h; simp [isPfx] at h
  | x :: xs, y :: ys, z :: zs => by
    simp only [isPfx, Bool.and_eq_true, beq_iff_eq]
    rintro ⟨rfl, h1⟩ ⟨rfl, h2⟩
    exact ⟨rfl, isPfx_trans h1 h2⟩

theorem prefixes_of_aux_spec (records : List (RecordId × RecordsValue)) (ns author : Nat) :
    ∀ (fuel : Nat) (key : List Nat), key.length ≤ fuel →
      (∀ e ∈ prefixes_of_aux records ns author fuel key,
          e.id.1 = ns ∧ e.id.2.1 = author ∧ isPfx e.id.2.2 key = true ∧
          e.is_empty = false ∧ e.id.2.2.length ≤ key.length ∧
          get_one records ns author e.id.2.2 false = some e) ∧
      List.Pairwise (fun a b => b.id.2.2.length < a.id.2.2.length)
        (prefixes_of_aux records ns author fuel key) := by
  intro fuel
  induction fuel with
  | zero =>
    intro key hk
    constructor
    · intro e he; simp [prefixes_of_aux] at he
    · simp [prefixes_of_aux]
  | succ n ih =>
    intro key hk
    by_cases hkey : key = []
    · subst hkey
      constructor
      · intro e he; simp [prefixes_of_aux] at he
      · simp [prefixes_of_aux]
    · have hlen : key.length ≠ 0 := fun h0 => hkey (List.eq_nil_of_length_eq_zero h0)
      have hdl : key.dropLast.length ≤ n := by
        rw [List.length_dropLast]; omega
      have ihd := ih key.dropLast hdl
      have htail : ∀ e ∈ prefixes_of_aux records ns author n key.dropLast,
          e.id.1 = ns ∧ e.id.2.1 = author ∧ isPfx e.id.2.2 key = true ∧
          e.is_empty = false ∧ e.id.2.2.length ≤ key.length ∧
          get_one records ns author e.id.2.2 false = some e := by
        intro e he
        obtain ⟨h1, h2, h3, h4, h5, h6⟩ := ihd.1 e he
        refine ⟨h1, h2, isPfx_trans h3 (isPfx_dropLast key), h4, ?_, h6⟩
        have : key.dropLast.length = key.length - 1 := List.length_dropLast key
        omega
      have htailLt : ∀ e ∈ prefixes_of_aux records ns author n key.dropLast,
          e.id.2.2.length < key.length := by
        intro e he
        obtain ⟨_, _, _, _, h5, _⟩ := ihd.1 e he
        have : key.dropLast.length = key.length - 1 := List.length_dropLast key
        omega
      rcases hg : get_one records ns author key false with _ | e0
      · constructor
        · intro e he
          rw [prefixes_of_aux, if_neg hkey, hg] at he
          exact htail e he
        · rw [prefixes_of_aux, if_neg hkey, hg]
          exact ihd.2
      · obtain ⟨hid, hne, _⟩ := get_one_eq_some hg
        have hk2 : e0.id.2.2 = key := by rw [hid]
        constructor
        · intro e he
          rw [prefixes_of_aux, if_neg hkey, hg] at he
          rcases List.mem_cons.mp he with he' | he'
          · subst he'
            refine ⟨?_, ?_, ?_, hne, ?_, ?_⟩
            · rw [hid]
            · rw [hid]
            · rw [hk2]; exact isPfx_refl key
            · rw [hk2]
            · rw [hk2]; exact hg
          · exact htail e he'
        · rw [prefixes_of_aux, if_neg hkey, hg]
          refine List.Pairwise.cons ?_ ihd.2
          intro e' he'
          rw [hk2]
          exact htailLt e' he'
theorem prefixes_of_spec (records : List (RecordId × RecordsValue)) (ns author : Nat)
    (key : List Nat) :
    (∀ e ∈ prefixes_of records ns author key,
        e.id.1 = ns ∧ e.id.2.1 = author ∧ isPfx e.id.2.2 key = true ∧
        e.is_empty = false ∧
        get_one records ns author e.id.2.2 false = some e) ∧
    List.Pairwise (fun a b => b.id.2.2.length < a.id.2.2.length)
      (prefixes_of records ns author key) := by
  have h := prefixes_of_aux_spec records ns author key.length key (Nat.le_refl _)
  refine ⟨?_, h.2⟩
  intro e he
  obtain ⟨h1, h2, h3, h4, _, h6⟩ := h.1 e he
  exact ⟨h1, h2, h3, h4, h6⟩

/-! ## Counting an entry in a bounded scan -/

theorem into_entry_fst {k k' : RecordId} {v v' : RecordsValue}
    (h : into_entry k v = into_entry k' v') : k = k' :=
  congrArg SignedEntry.id h

theorem filter_cons_pos {α : Type} {p : α → Bool} {a : α} (l : List α) (h : p a = true) :
    (a :: l).filter p = a :: l.filter p := by
  simp [List.filter_cons, h]

theorem filter_cons_neg {α : Type} {p : α → Bool} {a : α} (l : List α) (h : ¬ p a = true) :
    (a :: l).filter p = l.filter p := by
  simp [List.filter_cons, h]

theorem count_zero_of_keys_ne (pred : RecordId → Bool) (k : RecordId) (v : RecordsValue) :
    ∀ (l : List (RecordId × RecordsValue)), (∀ r ∈ l, r.1 ≠ k) →
      ((l.filter (fun r => pred r.1)).map (fun r => into_entry r.1 r.2)).count (into_entry k v)
        = 0
  | [], _ => rfl
  | (k', v') :: rest, hall => by
    have hk' : k' ≠ k := hall (k', v') (by simp)
    have hrest := count_zero_of_keys_ne pred k v rest
      (fun r hr => hall r (List.mem_cons_of_mem _ hr))
    have hne : into_entry k v ≠ into_entry k' v' := fun h => hk' (into_entry_fst h).symm
    by_cases hp : pred k' = true
    · rw [filter_cons_pos (p := fun r => pred r.1) (a := (k', v')) rest hp, List.map_cons, List.count_cons]
      simp only [beq_iff_eq]
      rw [if_neg (fun h => hne h.symm)]
      simpa using hrest
    · rw [filter_cons_neg (p := fun r => pred r.1) (a := (k', v')) rest hp]
      exact hrest

theorem count_one_of_get (pred : RecordId → Bool) :
    ∀ (l : List (RecordId × RecordsValue)), TblSorted cmpId l →
      ∀ (k : RecordId) (v : RecordsValue), tblGet cmpId l k = some v → pred k = true →
      ((l.filter (fun r => pred r.1)).map (fun r => into_entry r.1 r.2)).count (into_entry k v)
        = 1
  | [], _, k, v, hget, _ => by simp [tblGet] at hget
  | (k', v') :: rest, hs, k, v, hget, hp => by
    rw [TblSorted, List.pairwise_cons] at hs
    obtain ⟨hall, hrest⟩ := hs
    unfold tblGet at hget
    by_cases hc : cmpId k k' = .eq
    · rw [if_pos hc] at hget
      obtain rfl : v' = v := by injection hget
      have hk : k = k' := cmpId_eq_iff.mp hc
      subst hk
      rw [filter_cons_pos (p := fun r => pred r.1) (a := (k, v')) rest hp, List.map_cons, List.count_cons]
      simp only [beq_iff_eq, if_true]
      have h0 := count_zero_of_keys_ne pred k v' rest
        (fun r hr => fun he => by
          have h1 := hall r hr
          rw [he, cmpId_irrefl] at h1
          cases h1)
      omega
    · rw [if_neg hc] at hget
      have hk : k ≠ k' := fun h => hc (by rw [h]; exact cmpId_irrefl)
      have hne : into_entry k v ≠ into_entry k' v' := fun h => hk (into_entry_fst h)
      have htail := count_one_of_get pred rest hrest k v hget hp
      by_cases hp' : pred k' = true
      · rw [filter_cons_pos (p := fun r => pred r.1) (a := (k', v')) rest hp', List.map_cons, List.count_cons]
        simp only [beq_iff_eq]
        rw [if_neg (fun h => hne h.symm)]
        omega
      · rw [filter_cons_neg (p := fun r => pred r.1) (a := (k', v')) rest hp']
        exact htail

theorem count_key_zero_of_ne (pred : ByKeyId → Bool) (k : ByKeyId) :
    ∀ (l : List (ByKeyId × Unit)), (∀ r ∈ l, r.1 ≠ k) →
      ((l.filter (fun r => pred r.1)).map Prod.fst).count k = 0
  | [], _ => rfl
  | (k', v') :: rest, hall => by
    have hk' : k' ≠ k := hall (k', v') (by simp)
    have hrest := count_key_zero_of_ne pred k rest
      (fun r hr => hall r (List.mem_cons_of_mem _ hr))
    by_cases hp : pred k' = true
    · rw [filter_cons_pos (p := fun r => pred r.1) (a := (k', v')) rest hp, List.map_cons, List.count_cons]
      simp only [beq_iff_eq]
      rw [if_neg hk']
      simpa using hrest
    · rw [filter_cons_neg (p := fun r => pred r.1) (a := (k', v')) rest hp]
      exact hrest

theorem count_key_one_of_get (pred : ByKeyId → Bool) :
    ∀ (l : List (ByKeyId × Unit)), TblSorted cmpByKey l →
      ∀ (k : ByKeyId), tblGet cmpByKey l k = some () → pred k = true →
      ((l.filter (fun r => pred r.1)).map Prod.fst).count k = 1
  | [], _, k, hget, _ => by simp [tblGet] at hget
  | (k', v') :: rest, hs, k, hget, hp => by
    rw [TblSorted, List.pairwise_cons] at hs
    obtain ⟨hall, hrest⟩ := hs
    unfold tblGet at hget
    by_cases hc : cmpByKey k k' = .eq
    · have hk : k = k' := cmpByKey_eq_iff.mp hc
      subst hk
      rw [filter_cons_pos (p := fun r => pred r.1) (a := (k, v')) rest hp, List.map_cons, List.count_cons]
      simp only [beq_iff_eq, if_true]
      have h0 := count_key_zero_of_ne pred k rest
        (fun r hr => fun he => by
          have h1 := hall r hr
          rw [he, (cmpByKey_eq_iff (x := k) (y := k)).mpr rfl] at h1
          cases h1)
      omega
    · rw [if_neg hc] at hget
      have hk : k ≠ k' := fun h => hc ((cmpByKey_eq_iff).mpr h)
      have htail := count_key_one_of_get pred rest hrest k hget hp
      by_cases hp' : pred k' = true
      · rw [filter_cons_pos (p := fun r => pred r.1) (a := (k', v')) rest hp', List.map_cons, List.count_cons]
        simp only [beq_iff_eq]
        rw [if_neg (fun h => hk h.symm)]
        omega
      · rw [filter_cons_neg (p := fun r => pred r.1) (a := (k', v')) rest hp']
        exact htail

/-! ## Claims C2, C3, C5 -/

/-- C2: the claim says the iterator yields at most `l` entries when
`limit = Some l`. `QueryIterator::next` compares `self.count` against the
limit but never increments `self.count`, so with two matching entries and
`limit = Some 1` the iterator yields both entries. -/
theorem claim_C2_limit_ignored :
    (get_many exTables.records 0 ⟨.Any, .Any, 0, some 1, true⟩).length = 2 ∧
    ¬ ((get_many exTables.records 0 ⟨.Any, .Any, 0, some 1, true⟩).length ≤ 1) := by
  decide

/-- C3 counterexample: with entries stored at keys `[1]` and `[1, 2]`,
`prefixes_of` at id key `[1, 2]` yields the entry at `[1, 2]` itself first and
then the entry at `[1]` — so its outputs are neither strict prefixes of the
id's key nor in ascending key-length order, refuting the claim as stated. -/
theorem claim_C3_counterexample :
    (prefixes_of exTables.records 0 0 [1, 2]).map (fun e => e.id.2.2) = [[1, 2], [1]] ∧
    ¬ ((∀ e ∈ prefixes_of exTables.records 0 0 [1, 2],
          isPfx e.id.2.2 [1, 2] = true ∧ e.id.2.2 ≠ [1, 2]) ∧
       List.Pairwise (fun a b => a.id.2.2.length < b.id.2.2.length)
         (prefixes_of exTables.records 0 0 [1, 2])) := by
  decide

/-- C3 (amended): every entry yielded by `prefixes_of(id)` has the same
namespace and author as `id` and a key that is a (non-strict) byte-prefix of
`id.key`; prefixes are produced in strictly descending key-length order; and
keys whose lookup misses or whose entry is empty are skipped (every yielded
entry is a non-empty lookup hit). -/
theorem claim_C3_amended (records : List (RecordId × RecordsValue)) (ns author : Nat)
    (key : List Nat) :
    (∀ e ∈ prefixes_of records ns author key,
        e.id.1 = ns ∧ e.id.2.1 = author ∧ isPfx e.id.2.2 key = true ∧
        e.is_empty = false ∧
        get_one records ns author e.id.2.2 false = some e) ∧
    List.Pairwise (fun a b => b.id.2.2.length < a.id.2.2.length)
      (prefixes_of records ns author key) :=
  prefixes_of_spec records ns author key

theorem claim_C3_amended_witness :
    exEntry12 ∈ prefixes_of exTables.records 0 0 [1, 2] ∧
    isPfx exEntry12.id.2.2 [1, 2] = true ∧ exEntry12.is_empty = false :=
  ⟨by decide,
   ((claim_C3_amended exTables.records 0 0 [1, 2]).1 exEntry12 (by decide)).2.2.1,
   ((claim_C3_amended exTables.records 0 0 [1, 2]).1 exEntry12 (by decide)).2.2.2.1⟩

/-- `get_one` after `put` returns the entry itself as long as it is non-empty. -/
theorem get_one_put (t : ReplicaTables) (e : SignedEntry) (hne : e.is_empty = false) :
    get_one (put t e).records e.id.1 e.id.2.1 e.id.2.2 false = some e := by
  have hget : tblGet cmpId (put t e).records (e.id.1, e.id.2.1, e.id.2.2) = some e.value := by
    show tblGet cmpId (tblInsert cmpId t.records e.id e.value) (e.id.1, e.id.2.1, e.id.2.2)
        = some e.value
    have hid : ((e.id.1, e.id.2.1, e.id.2.2) : RecordId) = e.id := rfl
    rw [hid]
    exact tblGet_tblInsert_same (fun a b => cmpId_eq_iff) t.records e.id e.value
  unfold get_one
  rw [hget]
  dsimp only
  have hemp : (into_entry (e.id.1, e.id.2.1, e.id.2.2) e.value).is_empty = false := hne
  rw [hemp]
  rfl

/-- C5 counterexample: the claim says `get_one` returns every freshly put
entry, but `Store::get_one` passes `include_empty = false`, so an empty entry
(content hash equal to the empty-content hash) is stored yet filtered out of
the lookup. -/
theorem claim_C5_counterexample :
    store_get_one (put emptyTables exEntryEmpty).records 0 0 [5] = none ∧
    exEntryEmpty.id = (0, 0, [5]) ∧
    tblGet cmpId (put emptyTables exEntryEmpty).records (0, 0, [5])
      = some exEntryEmpty.value := by
  decide

/-- C5 (amended): for every *non-empty* signed entry E, immediately after
`put(E)`: `get_one` on E's namespace, author and key returns E; the records
scan bounded by E's namespace contains E exactly once; and the records-by-key
scan bounded by `(E.namespace, E.key)` contains E's index row exactly once. -/
theorem claim_C5_amended (t : ReplicaTables) (e : SignedEntry)
    (hrec : TblSorted cmpId t.records) (hbk : TblSorted cmpByKey t.by_key)
    (hne : e.is_empty = false) :
    store_get_one (put t e).records e.id.1 e.id.2.1 e.id.2.2 = some e ∧
    ((scanRecords (put t e).records (nsBounds e.id.1)).map
        (fun r => into_entry r.1 r.2)).count e = 1 ∧
    (scanByKeyNsKey (put t e).by_key e.id.1 e.id.2.2).count (byKeyIdOf e.id) = 1 := by
  refine ⟨get_one_put t e hne, ?_, ?_⟩
  · have hsorted : TblSorted cmpId (put t e).records :=
      tblInsert_sorted (fun a b => cmpId_eq_iff) (fun _ _ _ => cmpId_lt_trans)
        (fun a b => cmpId_swap a b) hrec e.id e.value
    have hget : tblGet cmpId (put t e).records e.id = some e.value :=
      tblGet_tblInsert_same (fun a b => cmpId_eq_iff) t.records e.id e.value
    have hp : inBounds (nsBounds e.id.1) e.id = true := inBounds_nsBounds_iff.mpr rfl
    exact count_one_of_get (fun id => inBounds (nsBounds e.id.1) id) (put t e).records
      hsorted e.id e.value hget hp
  · have hsorted : TblSorted cmpByKey (put t e).by_key :=
      tblInsert_sorted (fun a b => cmpByKey_eq_iff) (fun _ _ _ => cmpByKey_lt_trans)
        (fun a b => cmpByKey_swap a b) hbk (byKeyIdOf e.id) ()
    have hget : tblGet cmpByKey (put t e).by_key (byKeyIdOf e.id) = some () :=
      tblGet_tblInsert_same (fun a b => cmpByKey_eq_iff) t.by_key (byKeyIdOf e.id) ()
    have hp : ((byKeyIdOf e.id).1 == e.id.1 && (byKeyIdOf e.id).2.1 == e.id.2.2) = true := by
      simp [byKeyIdOf]
    exact count_key_one_of_get (fun kk => kk.1 == e.id.1 && kk.2.1 == e.id.2.2)
      (put t e).by_key hsorted (byKeyIdOf e.id) hget hp

theorem claim_C5_amended_witness :
    (TblSorted cmpId exTables.records ∧ TblSorted cmpByKey exTables.by_key ∧
      exEntry1.is_empty = false) ∧
    store_get_one (put exTables exEntry1).records 0 0 [1] = some exEntry1 :=
  ⟨⟨by decide, by decide, by decide⟩,
   (claim_C5_amended exTables exEntry1 (by decide) (by decide) (by decide)).1⟩

/-! ## Claims C7 and C8 -/

/-- C7: `get_range` over `[x, y)`: equal endpoints cover the whole namespace;
for `x < y` it yields exactly the stored entries `e` with `x ≤ e.id < y`, in
ascending id order; for `x > y` (a wrapped range, with both endpoints in the
namespace) it yields the namespace's entries below `y` followed by those at or
above `x`, concatenated in that order. -/
theorem claim_C7 (records : List (RecordId × RecordsValue)) (ns : Nat) (x y : RecordId)
    (hs : TblSorted cmpId records) :
    (x = y →
      get_range records ns x y
        = (records.filter (fun r => r.1.1 == ns)).map (fun r => into_entry r.1 r.2)) ∧
    (cmpId x y = .lt →
      get_range records ns x y
        = (records.filter (fun r => ordNotGt (cmpId x r.1) && ordIsLt (cmpId r.1 y))).map
            (fun r => into_entry r.1 r.2) ∧
      List.Pairwise (fun a b => cmpId a.id b.id = .lt) (get_range records ns x y)) ∧
    (cmpId x y = .gt → x.1 = ns → y.1 = ns →
      get_range records ns x y
        = (records.filter (fun r => r.1.1 == ns && ordIsLt (cmpId r.1 y))).map
            (fun r => into_entry r.1 r.2)
          ++ (records.filter (fun r => r.1.1 == ns && ordNotGt (cmpId x r.1))).map
            (fun r => into_entry r.1 r.2)) := by
  refine ⟨?_, ?_, ?_⟩
  · intro hxy
    subst hxy
    have h : cmpId x x = .eq := cmpId_irrefl
    simp only [get_range, h, List.append_nil]
    unfold scanRecords
    congr 1
    apply List.filter_congr
    intro r _
    exact inBounds_nsBounds_eq ns r.1
  · intro hlt
    constructor
    · simp only [get_range, hlt, List.append_nil]
      rfl
    · simp only [get_range, hlt, List.append_nil]
      rw [List.pairwise_map]
      exact List.Pairwise.sublist (List.filter_sublist _) hs
  · intro hgt hx hy
    simp only [get_range, hgt]
    unfold scanRecords
    congr 1
    · congr 1
      apply List.filter_congr
      intro r _
      apply bool_ext
      rw [inBounds_from_start_iff hy]
      simp [ordIsLt_iff]
    · congr 1
      apply List.filter_congr
      intro r _
      apply bool_ext
      rw [inBounds_to_end_iff hx]
      simp [ordNotGt_iff]

theorem claim_C7_witness :
    TblSorted cmpId exTables.records ∧
    get_range exTables.records 0 (0, 0, [1]) (0, 0, [1])
      = (exTables.records.filter (fun r => r.1.1 == 0)).map (fun r => into_entry r.1 r.2) :=
  ⟨by decide, (claim_C7 exTables.records 0 (0, 0, [1]) (0, 0, [1]) (by decide)).1 rfl⟩

/-- C8: `remove(id)` deletes both the records row and the records-by-key row
for `id`, leaves every other row of both tables and the whole
latest-per-author table unchanged, and returns the previously stored entry if
one existed. -/
theorem claim_C8 (t : ReplicaTables) (id : RecordId)
    (hrec : TblSorted cmpId t.records) (hbk : TblSorted cmpByKey t.by_key) :
    tblGet cmpId (remove t id).1.records id = none ∧
    (∀ id2 : RecordId, id2 ≠ id →
      tblGet cmpId (remove t id).1.records id2 = tblGet cmpId t.records id2) ∧
    tblGet cmpByKey (remove t id).1.by_key (byKeyIdOf id) = none ∧
    (∀ k2 : ByKeyId, k2 ≠ byKeyIdOf id →
      tblGet cmpByKey (remove t id).1.by_key k2 = tblGet cmpByKey t.by_key k2) ∧
    (remove t id).1.latest = t.latest ∧
    (remove t id).2 = (tblGet cmpId t.records id).map (fun v => into_entry id v) := by
  refine ⟨?_, ?_, ?_, ?_, rfl, ?_⟩
  · exact tblRemove_get_same (fun a b => cmpId_eq_iff) hrec id
  · intro id2 h
    exact tblRemove_get_ne (fun a b => cmpId_eq_iff) t.records id id2 h
  · exact tblRemove_get_same (fun a b => cmpByKey_eq_iff) hbk (byKeyIdOf id)
  · intro k2 h
    exact tblRemove_get_ne (fun a b => cmpByKey_eq_iff) t.by_key (byKeyIdOf id) k2 h
  · show (tblRemove cmpId t.records id).1.map (fun v => into_entry id v)
      = (tblGet cmpId t.records id).map (fun v => into_entry id v)
    rw [tblRemove_fst cmpId t.records id]

theorem claim_C8_witness :
    (TblSorted cmpId exTables.records ∧ TblSorted cmpByKey exTables.by_key) ∧
    tblGet cmpId (remove exTables (0, 0, [1])).1.records (0, 0, [1]) = none ∧
    (remove exTables (0, 0, [1])).1.latest = exTables.latest :=
  ⟨⟨by decide, by decide⟩,
   (claim_C8 exTables (0, 0, [1]) (by decide) (by decide)).1,
   (claim_C8 exTables (0, 0, [1]) (by decide) (by decide)).2.2.2.2.1⟩

/-! ## Peer-set lemmas for the per-namespace LRU (claim C6) -/

theorem peersRemove_head (y : PeerEntry) (rest : List PeerEntry) :
    peersRemove (y :: rest) y = rest := by
  simp [peersRemove]

theorem mem_peersRemove : ∀ {l : List PeerEntry} {x b : PeerEntry},
    b ∈ peersRemove l x → b ∈ l
  | [], x, b => by simp [peersRemove]
  | y :: rest, x, b => by
    intro hb
    unfold peersRemove at hb
    split at hb
    · exact List.mem_cons_of_mem _ hb
    · rcases List.mem_cons.mp hb with h | h
      · exact List.mem_cons.mpr (Or.inl h)
      · exact List.mem_cons_of_mem _ (mem_peersRemove h)

theorem peersRemove_sublist : ∀ (l : List PeerEntry) (x : PeerEntry),
    List.Sublist (peersRemove l x) l
  | [], _ => List.Sublist.refl _
  | y :: rest, x => by
    unfold peersRemove
    split
    · exact List.sublist_cons_self y rest
    · exact List.Sublist.cons₂ y (peersRemove_sublist rest x)

theorem peersRemove_length_of_mem : ∀ {l : List PeerEntry} {x : PeerEntry}, x ∈ l →
    (peersRemove l x).length + 1 = l.length
  | [], x, h => by cases h
  | y :: rest, x, h => by
    unfold peersRemove
    split
    · simp
    · rename_i hne
      rcases List.mem_cons.mp h with h1 | h1
      · exact absurd h1 hne
      · have := peersRemove_length_of_mem h1
        simp only [List.length_cons]
        omega

theorem mem_peersRemove_of_ne : ∀ {l : List PeerEntry} {x q : PeerEntry}, q ∈ l → q ≠ x →
    q ∈ peersRemove l x
  | [], x, q, h, _ => by cases h
  | y :: rest, x, q, h, hne => by
    unfold peersRemove
    split
    · rename_i hxy
      subst hxy
      rcases List.mem_cons.mp h with h1 | h1
      · exact absurd h1 hne
      · exact h1
    · rcases List.mem_cons.mp h with h1 | h1
      · exact List.mem_cons.mpr (Or.inl h1)
      · exact List.mem_cons_of_mem _ (mem_peersRemove_of_ne h1 hne)

theorem not_mem_peersRemove_self : ∀ {l : List PeerEntry}, l.Nodup →
    ∀ x : PeerEntry, x ∉ peersRemove l x
  | [], _, x => by simp [peersRemove]
  | y :: rest, hnd, x => by
    rw [List.nodup_cons] at hnd
    unfold peersRemove
    split
    · rename_i hxy
      subst hxy
      exact hnd.1
    · rename_i hxy
      intro hmem
      rcases List.mem_cons.mp hmem with h1 | h1
      · exact hxy h1
      · exact not_mem_peersRemove_self hnd.2 x h1

theorem mem_peersInsert : ∀ {l : List PeerEntry} {x b : PeerEntry},
    b ∈ peersInsert l x → b = x ∨ b ∈ l
  | [], x, b => by
    intro h
    simp only [peersInsert] at h
    exact Or.inl (by simpa using h)
  | y :: rest, x, b => by
    intro hb
    rcases hc : cmpNs2 x y with _ | _ | _ <;> simp only [peersInsert, hc] at hb
    · rcases List.mem_cons.mp hb with h | h
      · exact Or.inl h
      · exact Or.inr h
    · exact Or.inr hb
    · rcases List.mem_cons.mp hb with h | h
      · exact Or.inr (List.mem_cons.mpr (Or.inl h))
      · rcases mem_peersInsert h with h' | h'
        · exact Or.inl h'
        · exact Or.inr (List.mem_cons_of_mem _ h')

theorem self_mem_peersInsert : ∀ (l : List PeerEntry) (x : PeerEntry), x ∈ peersInsert l x
  | [], x => by simp [peersInsert]
  | y :: rest, x => by
    rcases hc : cmpNs2 x y with _ | _ | _ <;> simp only [peersInsert, hc]
    · exact List.mem_cons.mpr (Or.inl rfl)
    · exact List.mem_cons.mpr (Or.inl (cmpNs2_eq_iff.mp hc))
    · exact List.mem_cons_of_mem _ (self_mem_peersInsert rest x)

theorem mem_peersInsert_of_mem : ∀ {l : List PeerEntry} (x : PeerEntry) {b : PeerEntry},
    b ∈ l → b ∈ peersInsert l x
  | [], x, b, h => by cases h
  | y :: rest, x, b, h => by
    rcases hc : cmpNs2 x y with _ | _ | _ <;> simp only [peersInsert, hc]
    · exact List.mem_cons_of_mem _ h
    · exact h
    · rcases List.mem_cons.mp h with h1 | h1
      · exact List.mem_cons.mpr (Or.inl h1)
      · exact List.mem_cons_of_mem _ (mem_peersInsert_of_mem x h1)

theorem peersInsert_length_of_fresh : ∀ {l : List PeerEntry} {x : PeerEntry}, x ∉ l →
    (peersInsert l x).length = l.length + 1
  | [], x, _ => rfl
  | y :: rest, x, hx => by
    rcases hc : cmpNs2 x y with _ | _ | _ <;> simp only [peersInsert, hc]
    · simp
    · exact absurd (List.mem_cons.mpr (Or.inl (cmpNs2_eq_iff.mp hc))) hx
    · have h' : x ∉ rest := fun h => hx (List.mem_cons_of_mem _ h)
      simp [peersInsert_length_of_fresh h']

theorem peersInsert_sorted : ∀ {l : List PeerEntry},
    List.Pairwise (fun a b => cmpNs2 a b = .lt) l →
    ∀ x : PeerEntry, List.Pairwise (fun a b => cmpNs2 a b = .lt) (peersInsert l x)
  | [], _, x => by simp [peersInsert]
  | y :: rest, hs, x => by
    rw [List.pairwise_cons] at hs
    obtain ⟨hall, hrest⟩ := hs
    rcases hc : cmpNs2 x y with _ | _ | _ <;> simp only [peersInsert, hc]
    · refine List.Pairwise.cons ?_ (List.Pairwise.cons hall hrest)
      intro b hb
      rcases List.mem_cons.mp hb with h1 | h1
      · rw [h1]; exact hc
      · exact cmpNs2_lt_trans hc (hall b h1)
    · exact List.Pairwise.cons hall hrest
    · refine List.Pairwise.cons ?_ (peersInsert_sorted hrest x)
      intro b hb
      rcases mem_peersInsert hb with h1 | h1
      · rw [h1]
        have h2 := cmpNs2_swap x y
        rw [hc] at h2
        exact h2
      · exact hall b h1

theorem sndNe_peersInsert : ∀ {l : List PeerEntry} {x : PeerEntry},
    (∀ b ∈ l, b.2 ≠ x.2) →
    List.Pairwise (fun a b : PeerEntry => a.2 ≠ b.2) l →
    List.Pairwise (fun a b : PeerEntry => a.2 ≠ b.2) (peersInsert l x)
  | [], x, _, _ => by simp [peersInsert]
  | y :: rest, x, hall, hp => by
    rw [List.pairwise_cons] at hp
    obtain ⟨hhead, hrest⟩ := hp
    rcases hc : cmpNs2 x y with _ | _ | _ <;> simp only [peersInsert, hc]
    · refine List.Pairwise.cons ?_ (List.Pairwise.cons hhead hrest)
      intro b hb
      exact fun h => (hall b hb) h.symm
    · exact List.Pairwise.cons hhead hrest
    · refine List.Pairwise.cons ?_
        (sndNe_peersInsert (fun b hb => hall b (List.mem_cons_of_mem _ hb)) hrest)
      intro b hb
      rcases mem_peersInsert hb with h1 | h1
      · subst h1
        exact hall y (List.mem_cons.mpr (Or.inl rfl))
      · exact hhead b h1

theorem cmpNs2_lt_fst_le {a b : Nat × Nat} (h : cmpNs2 a b = .lt) : a.1 ≤ b.1 := by
  unfold cmpNs2 at h
  rw [othen_eq_lt] at h
  rcases h with h | ⟨e, h⟩
  · exact Nat.le_of_lt (cmpNat_lt_iff.mp h)
  · exact Nat.le_of_eq (cmpNat_eq_iff.mp e)

theorem peersNodup {l : List PeerEntry}
    (hs : List.Pairwise (fun a b => cmpNs2 a b = .lt) l) : l.Nodup := by
  refine hs.imp ?_
  intro a b hab heq
  subst heq
  rw [cmpNs2_eq_iff.mpr rfl] at hab
  cases hab

theorem snd_unique {l : List PeerEntry}
    (hp : List.Pairwise (fun a b : PeerEntry => a.2 ≠ b.2) l)
    {q b : PeerEntry} (hq : q ∈ l) (hb : b ∈ l) (hne : b ≠ q) : b.2 ≠ q.2 := by
  have hsym : Symmetric (fun a b : PeerEntry => a.2 ≠ b.2) := fun a b h => h.symm
  exact List.Pairwise.forall hsym hp hb hq hne

/-- The case analysis of `register_useful_peer`: it preserves well-formedness,
re-registering a present peer replaces its entry at unchanged size, and
registering a fresh peer at capacity evicts exactly the original oldest
entry. -/
theorem register_cases (peers : List PeerEntry) (nanos peer : Nat)
    (hsort : List.Pairwise (fun a b => cmpNs2 a b = .lt) peers)
    (hpne : List.Pairwise (fun a b : PeerEntry => a.2 ≠ b.2) peers)
    (hlen : peers.length ≤ PEERS_PER_DOC_CACHE_SIZE) :
    PeersInv (register_useful_peer peers nanos peer) ∧
    (peer ∈ peers.map Prod.snd →
      (register_useful_peer peers nanos peer).length = peers.length ∧
      (nanos, peer) ∈ register_useful_peer peers nanos peer ∧
      (∀ t2, (t2, peer) ∈ register_useful_peer peers nanos peer → t2 = nanos)) ∧
    (peer ∉ peers.map Prod.snd →
      ∀ oldest rest, peers = oldest :: rest →
        rest.length + 1 = PEERS_PER_DOC_CACHE_SIZE →
        (register_useful_peer peers nanos peer).length = PEERS_PER_DOC_CACHE_SIZE ∧
        oldest ∉ register_useful_peer peers nanos peer ∧
        (nanos, peer) ∈ register_useful_peer peers nanos peer ∧
        (∀ q ∈ rest, q ∈ register_useful_peer peers nanos peer)) := by
  match peers with
  | [] =>
    refine ⟨⟨?_, ?_, ?_⟩, ?_, ?_⟩
    · simp [register_useful_peer, peersInsert]
    · simp [register_useful_peer, peersInsert]
    · show (peersInsert [] (nanos, peer)).length ≤ PEERS_PER_DOC_CACHE_SIZE
      simp [peersInsert]
      decide
    · intro h; simp at h
    · intro _ oldest rest heq; cases heq
  | (tOld, pOld) :: rest =>
    rw [List.pairwise_cons] at hsort hpne
    obtain ⟨hallS, hrestS⟩ := hsort
    obtain ⟨hallN, hrestN⟩ := hpne
    have hndL : ((tOld, pOld) :: rest).Nodup :=
      peersNodup (List.pairwise_cons.mpr ⟨hallS, hrestS⟩)
    by_cases hop : pOld = peer
    · -- the oldest entry belongs to the registered peer: replace it
      have hres : register_useful_peer ((tOld, pOld) :: rest) nanos peer
          = peersInsert rest (nanos, peer) := by
        simp only [register_useful_peer, if_pos hop, peersRemove_head]
      have hrfresh : ∀ b ∈ rest, b.2 ≠ peer := fun b hb => fun he =>
        hallN b hb (hop.trans he.symm)
      have hfresh : (nanos, peer) ∉ rest := fun hmem => hrfresh (nanos, peer) hmem rfl
      have hlength : (peersInsert rest (nanos, peer)).length = rest.length + 1 :=
        peersInsert_length_of_fresh hfresh
      refine ⟨⟨?_, ?_, ?_⟩, ?_, ?_⟩
      · rw [hres]; exact peersInsert_sorted hrestS (nanos, peer)
      · rw [hres]
        exact sndNe_peersInsert
          (show ∀ b ∈ rest, b.2 ≠ ((nanos, peer) : PeerEntry).2 from hrfresh) hrestN
      · rw [hres, hlength]
        simpa using hlen
      · intro _
        refine ⟨by rw [hres, hlength]; simp, by rw [hres]; exact self_mem_peersInsert _ _, ?_⟩
        intro t2 ht2
        rw [hres] at ht2
        rcases mem_peersInsert ht2 with h1 | h1
        · exact congrArg Prod.fst h1
        · exact absurd rfl (hrfresh (t2, peer) h1)
      · intro hnm
        exfalso
        apply hnm
        rw [List.map_cons]
        exact List.mem_cons.mpr (Or.inl hop.symm)
    · rcases hf : rest.find? (fun q => q.2 == peer) with _ | q
      · -- the peer is new
        have hNoRest : ∀ b ∈ rest, b.2 ≠ peer := by
          intro b hb
          have := List.find?_eq_none.mp hf b hb
          simpa using this
        have hNo : ∀ b ∈ (tOld, pOld) :: rest, b.2 ≠ peer := by
          intro b hb
          rcases List.mem_cons.mp hb with h1 | h1
          · rw [h1]; exact hop
          · exact hNoRest b h1
        have hfresh : (nanos, peer) ∉ (tOld, pOld) :: rest := fun hmem =>
          hNo (nanos, peer) hmem rfl
        have hsortL := List.pairwise_cons.mpr ⟨hallS, hrestS⟩
        have hneL := List.pairwise_cons.mpr ⟨hallN, hrestN⟩
        have hsortI := peersInsert_sorted hsortL (nanos, peer)
        have hneI := sndNe_peersInsert
          (show ∀ b ∈ (tOld, pOld) :: rest, b.2 ≠ ((nanos, peer) : PeerEntry).2 from hNo) hneL
        have hlenI : (peersInsert ((tOld, pOld) :: rest) (nanos, peer)).length
            = rest.length + 2 := by
          rw [peersInsert_length_of_fresh hfresh]
          simp
        by_cases hcap : 1 + rest.length + 1 > PEERS_PER_DOC_CACHE_SIZE
        · have hres : register_useful_peer ((tOld, pOld) :: rest) nanos peer
              = peersRemove (peersInsert ((tOld, pOld) :: rest) (nanos, peer)) (tOld, pOld) := by
            simp only [register_useful_peer, if_neg hop, hf, Option.map_some', Option.map_none',
              if_pos hcap]
          have hmemI : (tOld, pOld) ∈ peersInsert ((tOld, pOld) :: rest) (nanos, peer) :=
            mem_peersInsert_of_mem _ (List.mem_cons.mpr (Or.inl rfl))
          have hlenR : (register_useful_peer ((tOld, pOld) :: rest) nanos peer).length
              = rest.length + 1 := by
            rw [hres]
            have := peersRemove_length_of_mem hmemI
            omega
          refine ⟨⟨?_, ?_, ?_⟩, ?_, ?_⟩
          · rw [hres]
            exact List.Pairwise.sublist (peersRemove_sublist _ _) hsortI
          · rw [hres]
            exact List.Pairwise.sublist (peersRemove_sublist _ _) hneI
          · rw [hlenR]
            simpa using hlen
          · intro hmem
            exfalso
            rcases List.mem_map.mp hmem with ⟨b, hb, hbe⟩
            exact hNo b hb hbe
          · intro _ oldest rest2 heq hcap5
            injection heq with h1 h2
            subst h1
            subst h2
            refine ⟨by rw [hlenR]; omega, ?_, ?_, ?_⟩
            · rw [hres]
              exact not_mem_peersRemove_self (peersNodup hsortI) (tOld, pOld)
            · rw [hres]
              refine mem_peersRemove_of_ne (self_mem_peersInsert _ _) ?_
              intro he
              exact hop (congrArg Prod.snd he).symm
            · intro q hq
              rw [hres]
              refine mem_peersRemove_of_ne (mem_peersInsert_of_mem _ (List.mem_cons_of_mem _ hq)) ?_
              intro he
              rw [List.nodup_cons] at hndL
              exact hndL.1 (he ▸ hq)
        · have hres : register_useful_peer ((tOld, pOld) :: rest) nanos peer
              = peersInsert ((tOld, pOld) :: rest) (nanos, peer) := by
            simp only [register_useful_peer, if_neg hop, hf, Option.map_some', Option.map_none',
              if_neg hcap]
          refine ⟨⟨?_, ?_, ?_⟩, ?_, ?_⟩
          · rw [hres]; exact hsortI
          · rw [hres]; exact hneI
          · rw [hres, hlenI]; omega
          · intro hmem
            exfalso
            rcases List.mem_map.mp hmem with ⟨b, hb, hbe⟩
            exact hNo b hb hbe
          · intro _ oldest rest2 heq hcap5
            exfalso
            injection heq with h1 h2
            subst h2
            omega
      · -- the peer has an entry further in the set: replace it
        have hq2 : q.2 = peer := by
          have := List.find?_some hf
          simpa using this
        have hqrest : q ∈ rest := List.mem_of_find?_eq_some hf
        have hqmem : q ∈ (tOld, pOld) :: rest := List.mem_cons_of_mem _ hqrest
        have hqpair : ((q.1, peer) : PeerEntry) = q := by
          rw [← hq2]
        have hres : register_useful_peer ((tOld, pOld) :: rest) nanos peer
            = peersInsert (peersRemove ((tOld, pOld) :: rest) q) (nanos, peer) := by
          simp only [register_useful_peer, if_neg hop, hf, Option.map_some']
          rw [hqpair]
        have hneL := List.pairwise_cons.mpr ⟨hallN, hrestN⟩
        have hsortL := List.pairwise_cons.mpr ⟨hallS, hrestS⟩
        have hallRem : ∀ b ∈ peersRemove ((tOld, pOld) :: rest) q, b.2 ≠ peer := by
          intro b hb hbp
          have hbl := mem_peersRemove hb
          have hbq : b ≠ q := fun he => not_mem_peersRemove_self hndL q (he ▸ hb)
          exact snd_unique hneL hqmem hbl hbq (hbp.trans hq2.symm)
        have hfreshRem : (nanos, peer) ∉ peersRemove ((tOld, pOld) :: rest) q := fun hmem =>
          hallRem (nanos, peer) hmem rfl
        have hlenR : (register_useful_peer ((tOld, pOld) :: rest) nanos peer).length
            = ((tOld, pOld) :: rest).length := by
          rw [hres, peersInsert_length_of_fresh hfreshRem]
          have := peersRemove_length_of_mem hqmem
          omega
        refine ⟨⟨?_, ?_, ?_⟩, ?_, ?_⟩
        · rw [hres]
          exact peersInsert_sorted
            (List.Pairwise.sublist (peersRemove_sublist _ _) hsortL) (nanos, peer)
        · rw [hres]
          exact sndNe_peersInsert
            (show ∀ b ∈ peersRemove ((tOld, pOld) :: rest) q, b.2 ≠ ((nanos, peer) : PeerEntry).2
              from hallRem)
            (List.Pairwise.sublist (peersRemove_sublist _ _) hneL)
        · rw [hlenR]; exact hlen
        · intro _
          refine ⟨hlenR, by rw [hres]; exact self_mem_peersInsert _ _, ?_⟩
          intro t2 ht2
          rw [hres] at ht2
          rcases mem_peersInsert ht2 with h1 | h1
          · exact congrArg Prod.fst h1
          · exact absurd rfl (hallRem (t2, peer) h1)
        · intro hnm
          exfalso
          apply hnm
          exact List.mem_map.mpr ⟨q, hqmem, hq2⟩

theorem runPeers_foldl_inv :
    ∀ (calls : List (Nat × Nat)) (acc : List PeerEntry), PeersInv acc →
      PeersInv (calls.foldl (fun peers c => register_useful_peer peers c.1 c.2) acc)
  | [], _, h => h
  | c :: cs, acc, h =>
    runPeers_foldl_inv cs (register_useful_peer acc c.1 c.2)
      ((register_cases acc c.1 c.2 h.1 h.2.1 h.2.2).1)

theorem runPeers_inv (calls : List (Nat × Nat)) : PeersInv (runPeers calls) :=
  runPeers_foldl_inv calls [] ⟨List.Pairwise.nil, List.Pairwise.nil, Nat.zero_le _⟩

/-- C6: after any sequence of `register_useful_peer` calls the per-namespace
peer set holds at most `PEERS_PER_DOC_CACHE_SIZE` entries; re-registering a
present peer replaces its entry with the new timestamp at unchanged size; and
registering a new peer while the set is full evicts exactly the first (oldest
`last_used_ns`) entry, keeping all others. -/
theorem claim_C6 (calls : List (Nat × Nat)) :
    (runPeers calls).length ≤ PEERS_PER_DOC_CACHE_SIZE ∧
    (∀ nanos peer, peer ∈ (runPeers calls).map Prod.snd →
      (register_useful_peer (runPeers calls) nanos peer).length = (runPeers calls).length ∧
      (nanos, peer) ∈ register_useful_peer (runPeers calls) nanos peer ∧
      (∀ t2, (t2, peer) ∈ register_useful_peer (runPeers calls) nanos peer → t2 = nanos)) ∧
    (∀ nanos peer oldest rest, peer ∉ (runPeers calls).map Prod.snd →
      runPeers calls = oldest :: rest →
      rest.length + 1 = PEERS_PER_DOC_CACHE_SIZE →
      (register_useful_peer (runPeers calls) nanos peer).length = PEERS_PER_DOC_CACHE_SIZE ∧
      oldest ∉ register_useful_peer (runPeers calls) nanos peer ∧
      (nanos, peer) ∈ register_useful_peer (runPeers calls) nanos peer ∧
      (∀ q ∈ rest, q ∈ register_useful_peer (runPeers calls) nanos peer) ∧
      (∀ q ∈ rest, oldest.1 ≤ q.1)) := by
  have hinv := runPeers_inv calls
  refine ⟨hinv.2.2, ?_, ?_⟩
  · intro nanos peer hmem
    exact (register_cases (runPeers calls) nanos peer hinv.1 hinv.2.1 hinv.2.2).2.1 hmem
  · intro nanos peer oldest rest hnm heq hcap
    have h3 := (register_cases (runPeers calls) nanos peer hinv.1 hinv.2.1 hinv.2.2).2.2
      hnm oldest rest heq hcap
    refine ⟨h3.1, h3.2.1, h3.2.2.1, h3.2.2.2, ?_⟩
    intro q hq
    have hsort := hinv.1
    rw [heq, List.pairwise_cons] at hsort
    exact cmpNs2_lt_fst_le (hsort.1 q hq)

theorem claim_C6_witness :
    ((106 : Nat) ∉ (runPeers [(1, 101), (2, 102), (3, 103), (4, 104), (5, 105)]).map Prod.snd ∧
     runPeers [(1, 101), (2, 102), (3, 103), (4, 104), (5, 105)]
       = (1, 101) :: [(2, 102), (3, 103), (4, 104), (5, 105)] ∧
     ([(2, 102), (3, 103), (4, 104), (5, 105)] : List PeerEntry).length + 1
       = PEERS_PER_DOC_CACHE_SIZE) ∧
    (register_useful_peer (runPeers [(1, 101), (2, 102), (3, 103), (4, 104), (5, 105)]) 6 106).length
      = PEERS_PER_DOC_CACHE_SIZE ∧
    (1, 101) ∉ register_useful_peer (runPeers [(1, 101), (2, 102), (3, 103), (4, 104), (5, 105)]) 6 106 :=
  ⟨⟨by decide, by decide, by decide⟩,
   ((claim_C6 [(1, 101), (2, 102), (3, 103), (4, 104), (5, 105)]).2.2 6 106 (1, 101)
      [(2, 102), (3, 103), (4, 104), (5, 105)] (by decide) (by decide) (by decide)).1,
   ((claim_C6 [(1, 101), (2, 102), (3, 103), (4, 104), (5, 105)]).2.2 6 106 (1, 101)
      [(2, 102), (3, 103), (4, 104), (5, 105)] (by decide) (by decide) (by decide)).2.1⟩

theorem alTake_eq_none {κ ν : Type} [DecidableEq κ] :
    ∀ (l : List (κ × ν)) (k : κ), alGet l k = none → alTake l k = none
  | [], _, _ => rfl
  | (k', v') :: rest, k, h => by
    unfold alGet at h
    unfold alTake
    by_cases hk : k = k'
    · rw [if_pos hk] at h; cases h
    · rw [if_neg hk] at h
      rw [if_neg hk, alTake_eq_none rest k h]

/-- C9: a `TransferReady` or `TransferFailed` event whose transfer id is not in
`active_transfers` leaves the scheduler state completely unchanged. -/
theorem claim_C9 (s : State) (id : Nat) (failure : FailureAction)
    (h : alGet s.active_transfers id = none) :
    handle s (.TransferReady id) = s ∧ handle s (.TransferFailed id failure) = s := by
  have ht := alTake_eq_none s.active_transfers id h
  constructor
  · show on_transfer_ready s id = s
    unfold on_transfer_ready
    rw [ht]
  · show on_transfer_failed s id failure = s
    unfold on_transfer_failed
    rw [ht]

theorem claim_C9_witness :
    alGet (run defaultLimits c9Events).active_transfers 99 = none ∧
    (handle (run defaultLimits c9Events) (.TransferReady 99) = run defaultLimits c9Events ∧
     handle (run defaultLimits c9Events) (.TransferFailed 99 .RetryLater)
       = run defaultLimits c9Events) :=
  ⟨by decide, claim_C9 (run defaultLimits c9Events) 99 .RetryLater (by decide)⟩

/-- C1: the spec says a connected node that fails transiently with retries
left is moved to the retry-timeout state and a `RetryNode` timer is
registered. The code's condition `may_reconnect && !node.should_reconnect()`
is inverted, so such a node is dropped instead: after `c1Events` node 0 ends
in `Disconnected true`, the emitted actions contain a `DropConnection` and no
`RegisterTimer` at all. -/
theorem claim_C1 :
    (alGet (run defaultLimits c1Events).nodes 0).map NodeInfo.state
      = some (NodeState.Disconnected true) ∧
    (run defaultLimits c1Events).actions
      = [.StartDial 0, .StartTransfer ⟨0, exResourceA, 0⟩, .DropConnection 0] ∧
    (run defaultLimits c1Events).actions.all (fun a => ! a.isRegTimer) = true := by
  decide

/-- C4, counterexample: the global `max_concurrent_transfers` cap can be
overshot (limit 2, but 4 transfers started in one fill), and the number of
concurrently active connections is not limited by `max_open_connections` at
all (limit 1, but 2 connections accepted). -/
theorem claim_C4_counterexample :
    ((run ⟨2, 4, 25⟩ c4FillEvents).active_transfers.length = 4 ∧
      ¬ (run ⟨2, 4, 25⟩ c4FillEvents).active_transfers.length ≤ 2) ∧
    (connection_count (run ⟨50, 4, 1⟩ c4ConnEvents) = 2 ∧
      ¬ connection_count (run ⟨50, 4, 1⟩ c4ConnEvents) ≤ 1) := by
  decide

/-- C10, counterexample: resource hints passed with `AddNode` are recorded in
the node's `resources` set but not in the resource's `nodes` set, so the two
indexes desynchronise: after `c10Events` node 0 lists `exResourceA` while the
resource's node list is empty. -/
theorem claim_C10_counterexample :
    (alGet (run defaultLimits c10Events).nodes 0).map NodeInfo.resources
      = some [exResourceA] ∧
    (alGet (run defaultLimits c10Events).resources exResourceA).map ResourceState.nodes
      = some [] := by
  decide

/-! ## Association-list lemmas for the scheduler maps -/

theorem alGet_mem {κ ν : Type} [DecidableEq κ] :
    ∀ (l : List (κ × ν)) (k : κ) (v : ν), alGet l k = some v → (k, v) ∈ l
  | [], _, _, h => by cases h
  | (k', v') :: rest, k, v, h => by
    unfold alGet at h
    by_cases hk : k = k'
    · rw [if_pos hk] at h
      injection h with hv
      subst hv
      rw [hk]
      exact List.mem_cons.mpr (Or.inl rfl)
    · rw [if_neg hk] at h
      exact List.mem_cons_of_mem _ (alGet_mem rest k v h)

theorem alGet_eq_none_iff {κ ν : Type} [DecidableEq κ] :
    ∀ (l : List (κ × ν)) (k : κ), alGet l k = none ↔ k ∉ l.map Prod.fst
  | [], k => by simp [alGet]
  | (k', v') :: rest, k => by
    unfold alGet
    by_cases hk : k = k'
    · rw [if_pos hk]
      simp [hk]
    · rw [if_neg hk, List.map_cons]
      simp only [List.mem_cons]
      constructor
      · intro h hmem
        rcases hmem with h1 | h1
        · exact hk h1
        · exact ((alGet_eq_none_iff rest k).mp h) h1
      · intro h
        exact (alGet_eq_none_iff rest k).mpr (fun h1 => h (Or.inr h1))

theorem alGet_isSome_iff {κ ν : Type} [DecidableEq κ] :
    ∀ (l : List (κ × ν)) (k : κ), (alGet l k).isSome = true ↔ k ∈ l.map Prod.fst
  | [], k => by simp [alGet]
  | (k', v') :: rest, k => by
    unfold alGet
    by_cases hk : k = k'
    · rw [if_pos hk]
      simp [hk]
    · rw [if_neg hk, List.map_cons]
      simp only [List.mem_cons]
      rw [alGet_isSome_iff rest k]
      constructor
      · exact fun h => Or.inr h
      · intro h
        rcases h with h1 | h1
        · exact absurd h1 hk
        · exact h1

theorem mem_alSet {κ ν : Type} [DecidableEq κ] :
    ∀ (l : List (κ × ν)) (k : κ) (v : ν) (p : κ × ν), p ∈ alSet l k v → p = (k, v) ∨ p ∈ l
  | [], _, _, _, h => by cases h
  | (k', v') :: rest, k, v, p, h => by
    unfold alSet at h
    by_cases hk : k = k'
    · rw [if_pos hk] at h
      rcases List.mem_cons.mp h with h1 | h1
      · exact Or.inl h1
      · exact Or.inr (List.mem_cons_of_mem _ h1)
    · rw [if_neg hk] at h
      rcases List.mem_cons.mp h with h1 | h1
      · refine Or.inr ?_
        rw [h1]
        exact List.mem_cons.mpr (Or.inl rfl)
      · rcases mem_alSet rest k v p h1 with h2 | h2
        · exact Or.inl h2
        · exact Or.inr (List.mem_cons_of_mem _ h2)

theorem alSet_map_fst {κ ν : Type} [DecidableEq κ] :
    ∀ (l : List (κ × ν)) (k : κ) (v : ν), (alSet l k v).map Prod.fst = l.map Prod.fst
  | [], _, _ => rfl
  | (k', v') :: rest, k, v => by
    unfold alSet
    by_cases hk : k = k'
    · rw [if_pos hk]
      simp [hk]
    · rw [if_neg hk]
      simp [alSet_map_fst rest k v]

theorem alGet_alSet_same {κ ν : Type} [DecidableEq κ] :
    ∀ (l : List (κ × ν)) (k : κ) (v w : ν), alGet l k = some w →
      alGet (alSet l k v) k = some v
  | [], _, _, _, h => by cases h
  | (k', v') :: rest, k, v, w, h => by
    unfold alGet at h
    unfold alSet
    by_cases hk : k = k'
    · rw [if_pos hk]
      unfold alGet
      rw [if_pos rfl]
    · rw [if_neg hk] at h
      rw [if_neg hk]
      unfold alGet
      rw [if_neg hk]
      exact alGet_alSet_same rest k v w h

theorem alGet_alSet_ne {κ ν : Type} [DecidableEq κ] :
    ∀ (l : List (κ × ν)) (k : κ) (v : ν) (n : κ), n ≠ k →
      alGet (alSet l k v) n = alGet l n
  | [], _, _, _, _ => rfl
  | (k', v') :: rest, k, v, n, hne => by
    unfold alSet
    by_cases hk : k = k'
    · rw [if_pos hk]
      unfold alGet
      rw [if_neg hne, if_neg (hk ▸ hne)]
    · rw [if_neg hk]
      unfold alGet
      by_cases hn : n = k'
      · rw [if_pos hn, if_pos hn]
      · rw [if_neg hn, if_neg hn]
        exact alGet_alSet_ne rest k v n hne

theorem alSet_of_absent {κ ν : Type} [DecidableEq κ] :
    ∀ (l : List (κ × ν)) (k : κ) (v : ν), alGet l k = none → alSet l k v = l
  | [], _, _, _ => rfl
  | (k', v') :: rest, k, v, h => by
    unfold alGet at h
    unfold alSet
    by_cases hk : k = k'
    · rw [if_pos hk] at h; cases h
    · rw [if_neg hk] at h
      rw [if_neg hk, alSet_of_absent rest k v h]

theorem alInsert_length_le {κ ν : Type} [DecidableEq κ] :
    ∀ (l : List (κ × ν)) (k : κ) (v : ν), (alInsert l k v).length ≤ l.length + 1
  | [], _, _ => by simp [alInsert]
  | (k', v') :: rest, k, v => by
    unfold alInsert
    by_cases hk : k = k'
    · rw [if_pos hk]; simp
    · rw [if_neg hk]
      simp only [List.length_cons]
      exact Nat.succ_le_succ (alInsert_length_le rest k v)

theorem alTake_rest_mem {κ ν : Type} [DecidableEq κ] :
    ∀ (l : List (κ × ν)) (k : κ) (v : ν) (r : List (κ × ν)),
      alTake l k = some (v, r) → ∀ p ∈ r, p ∈ l
  | [], _, _, _, h => by cases h
  | (k', v') :: rest, k, v, r, h => by
    unfold alTake at h
    by_cases hk : k = k'
    · rw [if_pos hk] at h
      injection h with h1
      injection h1 with h2 h3
      subst h3
      intro p hp
      exact List.mem_cons_of_mem _ hp
    · rw [if_neg hk] at h
      rcases hr : alTake rest k with _ | pr
      · rw [hr] at h; cases h
      · obtain ⟨v0, r0⟩ := pr
        rw [hr] at h
        injection h with h1
        injection h1 with h2 h3
        subst h3
        intro p hp
        rcases List.mem_cons.mp hp with h4 | h4
        · rw [h4]
          exact List.mem_cons.mpr (Or.inl rfl)
        · exact List.mem_cons_of_mem _ (alTake_rest_mem rest k v0 r0 hr p h4)

theorem alTake_rest_length {κ ν : Type} [DecidableEq κ] :
    ∀ (l : List (κ × ν)) (k : κ) (v : ν) (r : List (κ × ν)),
      alTake l k = some (v, r) → r.length + 1 = l.length
  | [], _, _, _, h => by cases h
  | (k', v') :: rest, k, v, r, h => by
    unfold alTake at h
    by_cases hk : k = k'
    · rw [if_pos hk] at h
      injection h with h1
      injection h1 with h2 h3
      subst h3
      rfl
    · rw [if_neg hk] at h
      rcases hr : alTake rest k with _ | pr
      · rw [hr] at h; cases h
      · obtain ⟨v0, r0⟩ := pr
        rw [hr] at h
        injection h with h1
        injection h1 with h2 h3
        subst h3
        have := alTake_rest_length rest k v0 r0 hr
        simp only [List.length_cons]
        omega

theorem alTake_rest_map_fst {κ ν : Type} [DecidableEq κ] :
    ∀ (l : List (κ × ν)) (k : κ) (v : ν) (r : List (κ × ν)),
      alTake l k = some (v, r) → List.Sublist (r.map Prod.fst) (l.map Prod.fst)
  | [], _, _, _, h => by cases h
  | (k', v') :: rest, k, v, r, h => by
    unfold alTake at h
    by_cases hk : k = k'
    · rw [if_pos hk] at h
      injection h with h1
      injection h1 with h2 h3
      subst h3
      rw [List.map_cons]
      exact List.sublist_cons_self _ _
    · rw [if_neg hk] at h
      rcases hr : alTake rest k with _ | pr
      · rw [hr] at h; cases h
      · obtain ⟨v0, r0⟩ := pr
        rw [hr] at h
        injection h with h1
        injection h1 with h2 h3
        subst h3
        rw [List.map_cons, List.map_cons]
        exact List.Sublist.cons₂ _ (alTake_rest_map_fst rest k v0 r0 hr)

theorem alTake_rest_fst_ne {κ ν : Type} [DecidableEq κ] :
    ∀ (l : List (κ × ν)) (k : κ) (v : ν) (r : List (κ × ν)),
      (l.map Prod.fst).Nodup → alTake l k = some (v, r) → ∀ p ∈ r, p.1 ≠ k
  | [], _, _, _, _, h => by cases h
  | (k', v') :: rest, k, v, r, hnd, h => by
    rw [List.map_cons, List.nodup_cons] at hnd
    unfold alTake at h
    by_cases hk : k = k'
    · rw [if_pos hk] at h
      injection h with h1
      injection h1 with h2 h3
      subst h3
      intro p hp hpk
      apply hnd.1
      rw [← hk, ← hpk]
      exact List.mem_map.mpr ⟨p, hp, rfl⟩
    · rw [if_neg hk] at h
      rcases hr : alTake rest k with _ | pr
      · rw [hr] at h; cases h
      · obtain ⟨v0, r0⟩ := pr
        rw [hr] at h
        injection h with h1
        injection h1 with h2 h3
        subst h3
        intro p hp hpk
        rcases List.mem_cons.mp hp with h4 | h4
        · apply hk
          rw [← hpk, h4]
        · exact alTake_rest_fst_ne rest k v0 r0 hnd.2 hr p h4 hpk

theorem mem_alEntryOr {κ ν : Type} [DecidableEq κ] (l : List (κ × ν)) (k : κ) (d : ν)
    (p : κ × ν) (h : p ∈ alEntryOr l k d) : p ∈ l ∨ p = (k, d) := by
  unfold alEntryOr at h
  rcases hg : alGet l k with _ | v
  · rw [hg] at h
    rcases List.mem_append.mp h with h1 | h1
    · exact Or.inl h1
    · exact Or.inr (List.mem_singleton.mp h1)
  · rw [hg] at h
    exact Or.inl h

theorem alEntryOr_map_fst_nodup {κ ν : Type} [DecidableEq κ] (l : List (κ × ν)) (k : κ)
    (d : ν) (hnd : (l.map Prod.fst).Nodup) : ((alEntryOr l k d).map Prod.fst).Nodup := by
  unfold alEntryOr
  rcases hg : alGet l k with _ | v
  · have hk : k ∉ l.map Prod.fst := (alGet_eq_none_iff l k).mp hg
    rw [List.map_append]
    simp only [List.map_cons, List.map_nil]
    rw [List.nodup_append]
    refine ⟨hnd, List.nodup_singleton k, ?_⟩
    intro a ha hb
    rw [List.mem_singleton] at hb
    exact hk (hb ▸ ha)
  · exact hnd

theorem alGet_alEntryOr_map_fst {κ ν : Type} [DecidableEq κ] (l : List (κ × ν)) (k : κ)
    (d : ν) (n : κ) (hmem : n ∈ l.map Prod.fst) : n ∈ (alEntryOr l k d).map Prod.fst := by
  unfold alEntryOr
  rcases hg : alGet l k with _ | v
  · rw [List.map_append]
    exact List.mem_append.mpr (Or.inl hmem)
  · exact hmem

theorem mem_insertIdx {α : Type} [DecidableEq α] {l : List α} {x y : α}
    (h : y ∈ insertIdx l x) : y ∈ l ∨ y = x := by
  unfold insertIdx at h
  by_cases hx : x ∈ l
  · rw [if_pos hx] at h; exact Or.inl h
  · rw [if_neg hx] at h
    rcases List.mem_append.mp h with h1 | h1
    · exact Or.inl h1
    · exact Or.inr (List.mem_singleton.mp h1)

theorem insertIdx_nodup {α : Type} [DecidableEq α] {l : List α} {x : α} (h : l.Nodup) :
    (insertIdx l x).Nodup := by
  unfold insertIdx
  by_cases hx : x ∈ l
  · rw [if_pos hx]; exact h
  · rw [if_neg hx]
    rw [List.nodup_append]
    refine ⟨h, List.nodup_singleton x, ?_⟩
    intro a ha hb
    rw [List.mem_singleton] at hb
    exact hx (hb ▸ ha)

theorem insertIdx_length_le {α : Type} [DecidableEq α] (l : List α) (x : α) :
    (insertIdx l x).length ≤ l.length + 1 := by
  unfold insertIdx
  by_cases hx : x ∈ l
  · rw [if_pos hx]; omega
  · rw [if_neg hx]; simp

theorem subset_insertIdx {α : Type} [DecidableEq α] (l : List α) (x : α) :
    ∀ y ∈ l, y ∈ insertIdx l x := by
  unfold insertIdx
  by_cases hx : x ∈ l
  · rw [if_pos hx]; exact fun y hy => hy
  · rw [if_neg hx]; exact fun y hy => List.mem_append.mpr (Or.inl hy)

/-! ## Lemmas about `nodesEnsure` and `queue_reconnects` -/

theorem alGet_none_of_lt_all :
    ∀ (l : List (NodeId × NodeInfo)) (n : NodeId), (∀ p ∈ l, n < p.1) → alGet l n = none
  | [], _, _ => rfl
  | (k, v) :: rest, n, h => by
    unfold alGet
    have hk : n < k := h (k, v) (List.mem_cons.mpr (Or.inl rfl))
    rw [if_neg (Nat.ne_of_lt hk)]
    exact alGet_none_of_lt_all rest n (fun p hp => h p (List.mem_cons_of_mem _ hp))

theorem mem_nodesEnsure :
    ∀ (nodes : List (NodeId × NodeInfo)) (n : NodeId) (p : NodeId × NodeInfo),
      p ∈ nodesEnsure nodes n → p = (n, NodeInfo.init) ∨ p ∈ nodes
  | [], n, p, h => by
    unfold nodesEnsure at h
    exact Or.inl (List.mem_singleton.mp h)
  | (k, v) :: rest, n, p, h => by
    unfold nodesEnsure at h
    by_cases h1 : n < k
    · rw [if_pos h1] at h
      rcases List.mem_cons.mp h with h2 | h2
      · exact Or.inl h2
      · exact Or.inr h2
    · rw [if_neg h1] at h
      by_cases h2 : n = k
      · rw [if_pos h2] at h
        exact Or.inr h
      · rw [if_neg h2] at h
        rcases List.mem_cons.mp h with h3 | h3
        · exact Or.inr (List.mem_cons.mpr (Or.inl h3))
        · rcases mem_nodesEnsure rest n p h3 with h4 | h4
          · exact Or.inl h4
          · exact Or.inr (List.mem_cons_of_mem _ h4)

theorem alGet_nodesEnsure_self :
    ∀ (nodes : List (NodeId × NodeInfo)) (n : NodeId), NodesSorted nodes →
      ∃ ni, alGet (nodesEnsure nodes n) n = some ni ∧
        ((ni = NodeInfo.init ∧ alGet nodes n = none) ∨ alGet nodes n = some ni)
  | [], n, _ => by
    refine ⟨NodeInfo.init, ?_, Or.inl ⟨rfl, rfl⟩⟩
    unfold nodesEnsure alGet
    rw [if_pos rfl]
  | (k, v) :: rest, n, hs => by
    unfold nodesEnsure
    by_cases h1 : n < k
    · rw [if_pos h1]
      refine ⟨NodeInfo.init, ?_, Or.inl ⟨rfl, ?_⟩⟩
      · show alGet ((n, NodeInfo.init) :: (k, v) :: rest) n = some NodeInfo.init
        unfold alGet
        rw [if_pos rfl]
      · apply alGet_none_of_lt_all
        intro p hp
        rcases List.mem_cons.mp hp with h2 | h2
        · rw [h2]; exact h1
        · have hk : k < p.1 := by
            unfold NodesSorted at hs
            rw [List.map_cons, List.pairwise_cons] at hs
            exact hs.1 p.1 (List.mem_map.mpr ⟨p, h2, rfl⟩)
          exact Nat.lt_trans h1 hk
    · rw [if_neg h1]
      by_cases h2 : n = k
      · rw [if_pos h2]
        refine ⟨v, ?_, Or.inr ?_⟩
        · unfold alGet; rw [if_pos h2]
        · unfold alGet; rw [if_pos h2]
      · rw [if_neg h2]
        have hs2 : NodesSorted rest := by
          unfold NodesSorted at hs ⊢
          rw [List.map_cons, List.pairwise_cons] at hs
          exact hs.2
        obtain ⟨ni, hget, hdis⟩ := alGet_nodesEnsure_self rest n hs2
        refine ⟨ni, ?_, ?_⟩
        · show alGet ((k, v) :: nodesEnsure rest n) n = some ni
          unfold alGet
          rw [if_neg h2]
          exact hget
        · rcases hdis with ⟨hni, hnone⟩ | hsome
          · refine Or.inl ⟨hni, ?_⟩
            unfold alGet
            rw [if_neg h2]
            exact hnone
          · refine Or.inr ?_
            unfold alGet
            rw [if_neg h2]
            exact hsome

theorem alGet_nodesEnsure_ne :
    ∀ (nodes : List (NodeId × NodeInfo)) (n m : NodeId), m ≠ n →
      alGet (nodesEnsure nodes n) m = alGet nodes m
  | [], n, m, h => by
    unfold nodesEnsure alGet
    rw [if_neg h]
    rfl
  | (k, v) :: rest, n, m, h => by
    unfold nodesEnsure
    by_cases h1 : n < k
    · rw [if_pos h1]
      show alGet ((n, NodeInfo.init) :: (k, v) :: rest) m = alGet ((k, v) :: rest) m
      unfold alGet
      rw [if_neg h]
      rfl
    · rw [if_neg h1]
      by_cases h2 : n = k
      · rw [if_pos h2]
      · rw [if_neg h2]
        show alGet ((k, v) :: nodesEnsure rest n) m = alGet ((k, v) :: rest) m
        unfold alGet
        by_cases h3 : m = k
        · rw [if_pos h3, if_pos h3]
        · rw [if_neg h3, if_neg h3]
          exact alGet_nodesEnsure_ne rest n m h

theorem nodesEnsure_sorted :
    ∀ (nodes : List (NodeId × NodeInfo)) (n : NodeId), NodesSorted nodes →
      NodesSorted (nodesEnsure nodes n)
  | [], n, _ => by
    unfold nodesEnsure NodesSorted
    simp
  | (k, v) :: rest, n, hs => by
    unfold nodesEnsure
    by_cases h1 : n < k
    · rw [if_pos h1]
      unfold NodesSorted at hs ⊢
      rw [List.map_cons, List.pairwise_cons]
      refine ⟨?_, hs⟩
      intro b hb
      rw [List.map_cons, List.mem_cons] at hb
      rcases hb with h2 | h2
      · have h2b : b = k := h2
        rw [h2b]
        exact h1
      · have h3 : k < b := by
          rw [List.map_cons, List.pairwise_cons] at hs
          exact hs.1 b h2
        exact Nat.lt_trans h1 h3
    · rw [if_neg h1]
      by_cases h2 : n = k
      · rw [if_pos h2]; exact hs
      · rw [if_neg h2]
        unfold NodesSorted at hs ⊢
        rw [List.map_cons, List.pairwise_cons] at hs ⊢
        obtain ⟨hall, hrest⟩ := hs
        constructor
        · intro b hb
          rcases List.mem_map.mp hb with ⟨p, hp, hpb⟩
          rcases mem_nodesEnsure rest n p hp with h3 | h3
          · have h4 : p.1 = n := by rw [h3]
            have hkn : k < n :=
              Nat.lt_of_le_of_ne (Nat.le_of_not_lt h1) (fun he => h2 he.symm)
            rw [← hpb, h4]
            exact hkn
          · exact hpb ▸ hall p.1 (List.mem_map.mpr ⟨p, h3, rfl⟩)
        · have := nodesEnsure_sorted rest n hrest
          unfold NodesSorted at this
          exact this

theorem queue_map_fst (res : List (Resource × ResourceState))
    (grp : List (Group × GroupState)) :
    ∀ (nodes : List (NodeId × NodeInfo)) (k : Nat),
      (queue_reconnects res grp nodes k).1.map Prod.fst = nodes.map Prod.fst
  | [], _ => rfl
  | (n, ni) :: rest, k => by
    by_cases h1 : k = 0
    · simp only [queue_reconnects, if_pos h1]
    · by_cases h2 : node_should_connect res grp n ni = true
      · simp only [queue_reconnects, if_neg h1, if_pos h2, List.map_cons]
        rw [queue_map_fst res grp rest (k - 1)]
      · simp only [queue_reconnects, if_neg h1, if_neg h2, List.map_cons]
        rw [queue_map_fst res grp rest k]

theorem queue_mem (res : List (Resource × ResourceState))
    (grp : List (Group × GroupState)) :
    ∀ (nodes : List (NodeId × NodeInfo)) (k : Nat) (p : NodeId × NodeInfo),
      p ∈ (queue_reconnects res grp nodes k).1 →
      ∃ ni2, (p.1, ni2) ∈ nodes ∧ p.2.active_transfers = ni2.active_transfers ∧
        p.2.resources = ni2.resources
  | [], _, p, h => by cases h
  | (n, ni) :: rest, k, p, h => by
    by_cases h1 : k = 0
    · simp only [queue_reconnects, if_pos h1] at h
      exact ⟨p.2, h, rfl, rfl⟩
    · by_cases h2 : node_should_connect res grp n ni = true
      · simp only [queue_reconnects, if_neg h1, if_pos h2] at h
        rcases List.mem_cons.mp h with h3 | h3
        · refine ⟨ni, ?_, ?_, ?_⟩
          · rw [h3]; exact List.mem_cons.mpr (Or.inl rfl)
          · rw [h3]
          · rw [h3]
        · obtain ⟨ni2, hm, ha, hr⟩ := queue_mem res grp rest (k - 1) p h3
          exact ⟨ni2, List.mem_cons_of_mem _ hm, ha, hr⟩
      · simp only [queue_reconnects, if_neg h1, if_neg h2] at h
        rcases List.mem_cons.mp h with h3 | h3
        · refine ⟨ni, ?_, ?_, ?_⟩
          · rw [h3]; exact List.mem_cons.mpr (Or.inl rfl)
          · rw [h3]
          · rw [h3]
        · obtain ⟨ni2, hm, ha, hr⟩ := queue_mem res grp rest k p h3
          exact ⟨ni2, List.mem_cons_of_mem _ hm, ha, hr⟩

theorem queue_alGet (res : List (Resource × ResourceState))
    (grp : List (Group × GroupState)) :
    ∀ (nodes : List (NodeId × NodeInfo)) (k : Nat) (n : NodeId) (ni : NodeInfo),
      alGet (queue_reconnects res grp nodes k).1 n = some ni →
      ∃ ni2, alGet nodes n = some ni2 ∧ ni.resources = ni2.resources ∧
        ni.active_transfers = ni2.active_transfers
  | [], _, n, ni, h => by cases h
  | (m, mi) :: rest, k, n, ni, h => by
    by_cases h1 : k = 0
    · simp only [queue_reconnects, if_pos h1] at h
      exact ⟨ni, h, rfl, rfl⟩
    · by_cases h2 : node_should_connect res grp m mi = true
      · simp only [queue_reconnects, if_neg h1, if_pos h2] at h
        unfold alGet at h
        by_cases h3 : n = m
        · rw [if_pos h3] at h
          injection h with h4
          refine ⟨mi, ?_, ?_, ?_⟩
          · unfold alGet; rw [if_pos h3]
          · rw [← h4]
          · rw [← h4]
        · rw [if_neg h3] at h
          obtain ⟨ni2, hg, hr, ha⟩ := queue_alGet res grp rest (k - 1) n ni h
          refine ⟨ni2, ?_, hr, ha⟩
          unfold alGet
          rw [if_neg h3]
          exact hg
      · simp only [queue_reconnects, if_neg h1, if_neg h2] at h
        unfold alGet at h
        by_cases h3 : n = m
        · rw [if_pos h3] at h
          injection h with h4
          refine ⟨mi, ?_, ?_, ?_⟩
          · unfold alGet; rw [if_pos h3]
          · rw [← h4]
          · rw [← h4]
        · rw [if_neg h3] at h
          obtain ⟨ni2, hg, hr, ha⟩ := queue_alGet res grp rest k n ni h
          refine ⟨ni2, ?_, hr, ha⟩
          unfold alGet
          rw [if_neg h3]
          exact hg

/-! ## Preservation lemmas for `node_fill_transfers` -/

theorem nodeKnown_transfer (s s2 : State)
    (hmap : s2.nodes.map Prod.fst = s.nodes.map Prod.fst) (n : NodeId)
    (h : ∃ ni, alGet s.nodes n = some ni) : ∃ ni, alGet s2.nodes n = some ni := by
  obtain ⟨ni, hni⟩ := h
  have h1 : n ∈ s.nodes.map Prod.fst := (alGet_isSome_iff s.nodes n).mp (by rw [hni]; rfl)
  have h2 := (alGet_isSome_iff s2.nodes n).mpr (hmap ▸ h1)
  exact Option.isSome_iff_exists.mp h2

theorem nodeLoad_eq (s : State) (n : NodeId) (ni : NodeInfo)
    (h : alGet s.nodes n = some ni) : nodeLoad s n = ni.active_transfers.length := by
  unfold nodeLoad
  rw [h]

theorem start_transfer_spec (node : NodeId) (s : State) (r : Resource) :
    (start_transfer node s r).limits = s.limits ∧
    (start_transfer node s r).active_transfers.length ≤ s.active_transfers.length + 1 ∧
    (∀ p ∈ (start_transfer node s r).nodes, p ∈ s.nodes ∨
      (p.1 = node ∧ ∃ ni, alGet s.nodes node = some ni ∧
        p.2.active_transfers.length ≤ ni.active_transfers.length + 1 ∧
        p.2.resources = ni.resources)) ∧
    (∀ n ni, alGet (start_transfer node s r).nodes n = some ni →
      ∃ ni2, alGet s.nodes n = some ni2 ∧ ni.resources = ni2.resources ∧
        ni.active_transfers.length ≤ ni2.active_transfers.length + 1) ∧
    (start_transfer node s r).nodes.map Prod.fst = s.nodes.map Prod.fst ∧
    (∀ p ∈ (start_transfer node s r).resources,
      ∃ p2 ∈ s.resources, p.1 = p2.1 ∧ p.2.nodes = p2.2.nodes) ∧
    (start_transfer node s r).resources.map Prod.fst = s.resources.map Prod.fst := by
  rcases hres : alGet s.resources r with _ | rs
  · have he : start_transfer node s r = s := by
      unfold start_transfer
      rw [hres]
    rw [he]
    exact ⟨rfl, by omega, fun p hp => Or.inl hp,
      fun n ni h => ⟨ni, h, rfl, by omega⟩, rfl, fun p hp => ⟨p, hp, rfl, rfl⟩, rfl⟩
  · rcases hni : alGet s.nodes node with _ | ni
    · have he : start_transfer node s r = s := by
        unfold start_transfer
        rw [hres, hni]
      rw [he]
      exact ⟨rfl, by omega, fun p hp => Or.inl hp,
        fun n ni h => ⟨ni, h, rfl, by omega⟩, rfl, fun p hp => ⟨p, hp, rfl, rfl⟩, rfl⟩
    · have he : start_transfer node s r = { s with
          transfer_id := s.transfer_id + 1
          actions := s.actions ++ [.StartTransfer ⟨s.transfer_id, r, node⟩]
          active_transfers := alInsert s.active_transfers s.transfer_id ⟨s.transfer_id, r, node⟩
          nodes := alSet s.nodes node
            { ni with active_transfers := insertIdx ni.active_transfers s.transfer_id }
          resources := alSet s.resources r { rs with active_transfer := some s.transfer_id } } := by
        unfold start_transfer
        rw [hres, hni]
      rw [he]
      refine ⟨rfl, ?_, ?_, ?_, ?_, ?_, ?_⟩
      · exact alInsert_length_le s.active_transfers s.transfer_id ⟨s.transfer_id, r, node⟩
      · intro p hp
        rcases mem_alSet s.nodes node _ p hp with h1 | h1
        · refine Or.inr ⟨by rw [h1], ni, rfl, ?_, by rw [h1]⟩
          rw [h1]
          exact insertIdx_length_le ni.active_transfers s.transfer_id
        · exact Or.inl h1
      · intro n ni2 hget
        by_cases hn : n = node
        · subst hn
          rw [alGet_alSet_same s.nodes n _ ni hni] at hget
          injection hget with h4
          refine ⟨ni, hni, ?_, ?_⟩
          · rw [← h4]
          · rw [← h4]
            exact insertIdx_length_le ni.active_transfers s.transfer_id
        · rw [alGet_alSet_ne s.nodes node _ n hn] at hget
          exact ⟨ni2, hget, rfl, by omega⟩
      · exact alSet_map_fst s.nodes node _
      · intro p hp
        rcases mem_alSet s.resources r _ p hp with h1 | h1
        · exact ⟨(r, rs), alGet_mem s.resources r rs hres, by rw [h1], by rw [h1]⟩
        · exact ⟨p, h1, rfl, rfl⟩
      · exact alSet_map_fst s.resources r _

theorem start_transfer_nodeLoad (node : NodeId) (s : State) (r : Resource) :
    nodeLoad (start_transfer node s r) node ≤ nodeLoad s node + 1 := by
  obtain ⟨_, _, _, hchar, _, _, _⟩ := start_transfer_spec node s r
  rcases hg : alGet (start_transfer node s r).nodes node with _ | ni
  · have hz : nodeLoad (start_transfer node s r) node = 0 := by
      unfold nodeLoad
      rw [hg]
    rw [hz]
    omega
  · obtain ⟨ni2, hg2, _, hlen⟩ := hchar node ni hg
    rw [nodeLoad_eq _ _ _ hg, nodeLoad_eq _ _ _ hg2]
    exact hlen

theorem fill_fold_spec (node : NodeId) :
    ∀ (next : List Resource) (s : State),
      (next.foldl (start_transfer node) s).limits = s.limits ∧
      (next.foldl (start_transfer node) s).active_transfers.length
        ≤ s.active_transfers.length + next.length ∧
      nodeLoad (next.foldl (start_transfer node) s) node ≤ nodeLoad s node + next.length ∧
      (∀ p ∈ (next.foldl (start_transfer node) s).nodes, p ∈ s.nodes ∨
        (p.1 = node ∧ p.2.active_transfers.length ≤ nodeLoad s node + next.length ∧
          ∃ ni, alGet s.nodes node = some ni ∧ p.2.resources = ni.resources)) ∧
      (∀ n ni, alGet (next.foldl (start_transfer node) s).nodes n = some ni →
        ∃ ni2, alGet s.nodes n = some ni2 ∧ ni.resources = ni2.resources) ∧
      (next.foldl (start_transfer node) s).nodes.map Prod.fst = s.nodes.map Prod.fst ∧
      (∀ p ∈ (next.foldl (start_transfer node) s).resources,
        ∃ p2 ∈ s.resources, p.1 = p2.1 ∧ p.2.nodes = p2.2.nodes) ∧
      (next.foldl (start_transfer node) s).resources.map Prod.fst = s.resources.map Prod.fst
  | [], s =>
    ⟨rfl, Nat.le_add_right _ _, Nat.le_add_right _ _, fun p hp => Or.inl hp,
      fun n ni h => ⟨ni, h, rfl⟩, rfl, fun p hp => ⟨p, hp, rfl, rfl⟩, rfl⟩
  | r :: rest, s => by
    obtain ⟨sl, sa, sm, sg, sf, sr, srf⟩ := start_transfer_spec node s r
    obtain ⟨il, ia, ild, im, ig, ifm, ir, irf⟩ :=
      fill_fold_spec node rest (start_transfer node s r)
    have hload := start_transfer_nodeLoad node s r
    simp only [List.foldl_cons, List.length_cons]
    refine ⟨il.trans sl, by omega, by omega, ?_, ?_, ifm.trans sf, ?_, irf.trans srf⟩
    · intro p hp
      rcases im p hp with h1 | ⟨h1, h2, ni, hni, h3⟩
      · rcases sm p h1 with h4 | ⟨h4, ni, hni, h5, h6⟩
        · exact Or.inl h4
        · refine Or.inr ⟨h4, ?_, ni, hni, h6⟩
          rw [nodeLoad_eq s node ni hni]
          omega
      · obtain ⟨ni2, hni2, hres2, _⟩ := sg node ni hni
        refine Or.inr ⟨h1, by omega, ni2, hni2, by rw [h3, hres2]⟩
    · intro n ni hget
      obtain ⟨ni2, hg2, hr2⟩ := ig n ni hget
      obtain ⟨ni3, hg3, hr3, _⟩ := sg n ni2 hg2
      exact ⟨ni3, hg3, hr2.trans hr3⟩
    · intro p hp
      obtain ⟨p2, hp2, hk, hn⟩ := ir p hp
      obtain ⟨p3, hp3, hk2, hn2⟩ := sr p2 hp2
      exact ⟨p3, hp3, hk.trans hk2, hn.trans hn2⟩

theorem collect_next_le (node : NodeId) (remaining : Nat) :
    ∀ (cands : List (Resource × ResourceState)) (acc : List Resource),
      acc.length < remaining → (collect_next node cands remaining acc).length ≤ remaining
  | [], acc, h => by
    unfold collect_next
    omega
  | (r, st) :: rest, acc, h => by
    simp only [collect_next]
    by_cases h1 : st.can_start_transfer node = true
    · rw [if_pos h1]
      by_cases h2 : r ∈ acc
      · rw [if_pos h2]
        by_cases h3 : acc.length = remaining
        · rw [if_pos h3]
          omega
        · rw [if_neg h3]
          exact collect_next_le node remaining rest acc h
      · rw [if_neg h2]
        by_cases h3 : (acc ++ [r]).length = remaining
        · rw [if_pos h3]
          omega
        · rw [if_neg h3]
          refine collect_next_le node remaining rest (acc ++ [r]) ?_
          have h4 : (acc ++ [r]).length = acc.length + 1 := by simp
          omega
    · rw [if_neg h1]
      exact collect_next_le node remaining rest acc h

theorem fill_mark_pres (s1 : State) (node : NodeId) (ni2 : NodeInfo) (flag : Bool)
    (acts : List OutEvent) (h : MasterInv s1) (hni2 : alGet s1.nodes node = some ni2) :
    MasterInv { s1 with
      actions := acts
      nodes := alSet s1.nodes node { ni2 with in_disconnect_timeout := flag } } := by
  obtain ⟨hS, hK, hN, hP, hG, hR, hKn⟩ := h
  refine ⟨?_, hK, hN, ?_, hG, ?_, ?_⟩
  · unfold NodesSorted at hS ⊢
    rw [alSet_map_fst]
    exact hS
  · intro p hp
    rcases mem_alSet s1.nodes node _ p hp with h1 | h1
    · have hm : (node, ni2) ∈ s1.nodes := alGet_mem s1.nodes node ni2 hni2
      have h2 := hP (node, ni2) hm
      rw [h1]
      exact h2
    · exact hP p h1
  · intro p hp n hn ni3 hget
    by_cases hne : n = node
    · subst hne
      rw [alGet_alSet_same s1.nodes n _ ni2 hni2] at hget
      injection hget with h4
      have h5 := hR p hp n hn ni2 hni2
      rw [← h4]
      exact h5
    · rw [alGet_alSet_ne s1.nodes node _ n hne] at hget
      exact hR p hp n hn ni3 hget
  · intro p hp n hn
    refine nodeKnown_transfer s1 _ ?_ n (hKn p hp n hn)
    exact alSet_map_fst s1.nodes node _

theorem fill_finish_pres (s1 : State) (node : NodeId) (h : MasterInv s1) :
    MasterInv (fill_finish s1 node) := by
  rcases hni2 : alGet s1.nodes node with _ | ni2
  · have he : fill_finish s1 node = s1 := by
      unfold fill_finish
      rw [hni2]
    rw [he]
    exact h
  · by_cases hc : (ni2.active_transfers.isEmpty && !ni2.in_disconnect_timeout) = true
    · have he : fill_finish s1 node = { s1 with
          actions := s1.actions ++ [.RegisterTimer IDLE_PEER_TIMEOUT (.DropConnection node)]
          nodes := alSet s1.nodes node { ni2 with in_disconnect_timeout := true } } := by
        unfold fill_finish
        simp only [hni2]
        rw [if_pos hc]
      rw [he]
      exact fill_mark_pres s1 node ni2 true _ h hni2
    · have he : fill_finish s1 node = { s1 with
          nodes := alSet s1.nodes node { ni2 with in_disconnect_timeout := false } } := by
        unfold fill_finish
        simp only [hni2]
        rw [if_neg hc]
      rw [he]
      exact fill_mark_pres s1 node ni2 false s1.actions h hni2

theorem fill_pres (s : State) (node : NodeId) (h : MasterInv s) :
    MasterInv (node_fill_transfers s node) := by
  obtain ⟨hS, hK, hN, hP, hG, hR, hKn⟩ := h
  rcases hni : alGet s.nodes node with _ | ni
  · have he : node_fill_transfers s node = s := by
      unfold node_fill_transfers
      rw [hni]
    rw [he]
    exact ⟨hS, hK, hN, hP, hG, hR, hKn⟩
  · by_cases hskip : (!ni.is_connected
        || s.limits.node_at_request_capacity ni.active_transfers.length
        || s.limits.at_requests_capacity s.active_transfers.length) = true
    · have he : node_fill_transfers s node = s := by
        unfold node_fill_transfers
        simp only [hni]
        rw [if_pos hskip]
      rw [he]
      exact ⟨hS, hK, hN, hP, hG, hR, hKn⟩
    · have hcap1 : ¬ s.limits.node_at_request_capacity ni.active_transfers.length = true := by
        intro hc
        apply hskip
        rw [hc]
        simp
      have hcap2 : ¬ s.limits.at_requests_capacity s.active_transfers.length = true := by
        intro hc
        apply hskip
        rw [hc]
        simp
      have hlt1 : ni.active_transfers.length < s.limits.max_concurrent_requests_per_node := by
        unfold ConcurrencyLimits.node_at_request_capacity at hcap1
        simp only [decide_eq_true_eq] at hcap1
        omega
      have hlt2 : s.active_transfers.length < s.limits.max_concurrent_requests := by
        unfold ConcurrencyLimits.at_requests_capacity at hcap2
        simp only [decide_eq_true_eq] at hcap2
        omega
      rcases hrem : s.limits.node_remaining_requests ni.active_transfers.length with _ | remaining
      · have he : node_fill_transfers s node = fill_finish s node := by
          unfold node_fill_transfers
          simp only [hni]
          rw [if_neg hskip]
          simp only [hrem]
        rw [he]
        exact fill_finish_pres s node ⟨hS, hK, hN, hP, hG, hR, hKn⟩
      · obtain ⟨hrv1, hrv2⟩ : remaining
            = s.limits.max_concurrent_requests_per_node - ni.active_transfers.length
            ∧ remaining ≠ 0 := by
          by_cases h0 : s.limits.max_concurrent_requests_per_node
              - ni.active_transfers.length = 0
          · exfalso
            have hz : s.limits.node_remaining_requests ni.active_transfers.length = none := by
              show (if s.limits.max_concurrent_requests_per_node
                    - ni.active_transfers.length = 0 then none
                  else some (s.limits.max_concurrent_requests_per_node
                    - ni.active_transfers.length)) = none
              rw [if_pos h0]
            rw [hz] at hrem
            cases hrem
          · have hz : s.limits.node_remaining_requests ni.active_transfers.length
                = some (s.limits.max_concurrent_requests_per_node
                  - ni.active_transfers.length) := by
              show (if s.limits.max_concurrent_requests_per_node
                    - ni.active_transfers.length = 0 then none
                  else some (s.limits.max_concurrent_requests_per_node
                    - ni.active_transfers.length)) = some _
              rw [if_neg h0]
            rw [hz] at hrem
            injection hrem with h5
            exact ⟨h5.symm, fun hzr => h0 (h5.trans hzr)⟩
        have he : node_fill_transfers s node = fill_finish
            ((collect_next node (node_resource_iter s.resources s.groups ni) remaining
              []).foldl (start_transfer node) s) node := by
          unfold node_fill_transfers
          simp only [hni]
          rw [if_neg hskip]
          simp only [hrem]
        rw [he]
        apply fill_finish_pres
        obtain ⟨fl, fa, fld, fm, fg, ff, fr, frf⟩ := fill_fold_spec node
          (collect_next node (node_resource_iter s.resources s.groups ni) remaining []) s
        have hnextle : (collect_next node (node_resource_iter s.resources s.groups ni)
            remaining []).length ≤ remaining := by
          apply collect_next_le
          simp only [List.length_nil]
          omega
        refine ⟨?_, ?_, ?_, ?_, ?_, ?_, ?_⟩
        · unfold NodesSorted at hS ⊢
          rw [ff]
          exact hS
        · unfold ResKeysNodup at hK ⊢
          rw [frf]
          exact hK
        · intro p hp
          obtain ⟨p2, hp2, _, hn⟩ := fr p hp
          rw [hn]
          exact hN p2 hp2
        · intro p hp
          rcases fm p hp with h1 | ⟨h1, h2, _⟩
          · rw [fl]
            exact hP p h1
          · rw [fl]
            rw [nodeLoad_eq s node ni hni] at h2
            omega
        · unfold GlobalCap
          rw [fl]
          omega
        · intro p hp n hn ni3 hget
          obtain ⟨p2, hp2, hk, hnodes⟩ := fr p hp
          obtain ⟨ni2, hg2, hres2⟩ := fg n ni3 hget
          have h6 := hR p2 hp2 n (by rw [← hnodes]; exact hn) ni2 hg2
          rw [hk, hres2]
          exact h6
        · intro p hp n hn
          obtain ⟨p2, hp2, _, hnodes⟩ := fr p hp
          exact nodeKnown_transfer s _ ff n (hKn p2 hp2 n (by rw [← hnodes]; exact hn))

/-! ## Preservation lemmas for `add_node` and `add_resource` -/

theorem node_update_pres (s1 : State) (node : NodeId) (ni2 ni3 : NodeInfo)
    (acts : List OutEvent) (h : MasterInv s1) (hni2 : alGet s1.nodes node = some ni2)
    (hres : ni3.resources = ni2.resources)
    (hact : ni3.active_transfers.length ≤ ni2.active_transfers.length) :
    MasterInv { s1 with
      nodes := alSet s1.nodes node ni3
      actions := acts } := by
  obtain ⟨hS, hK, hN, hP, hG, hR, hKn⟩ := h
  refine ⟨?_, hK, hN, ?_, hG, ?_, ?_⟩
  · unfold NodesSorted at hS ⊢
    rw [alSet_map_fst]
    exact hS
  · intro p hp
    rcases mem_alSet s1.nodes node _ p hp with h1 | h1
    · have hm := hP (node, ni2) (alGet_mem s1.nodes node ni2 hni2)
      rw [h1]
      exact le_trans hact hm
    · exact hP p h1
  · intro p hp n hn ni4 hget
    by_cases hne : n = node
    · subst hne
      rw [alGet_alSet_same s1.nodes n _ ni2 hni2] at hget
      injection hget with h4
      have h5 := hR p hp n hn ni2 hni2
      rw [← h4, hres]
      exact h5
    · rw [alGet_alSet_ne s1.nodes node _ n hne] at hget
      exact hR p hp n hn ni4 hget
  · intro p hp n hn
    refine nodeKnown_transfer s1 _ ?_ n (hKn p hp n hn)
    exact alSet_map_fst s1.nodes node _

theorem add_node_apply_pres (s1 : State) (node : NodeId) (ni2 : NodeInfo) (atCap : Bool)
    (h : MasterInv s1) (hni2 : alGet s1.nodes node = some ni2) :
    MasterInv (add_node_apply s1 node ni2 atCap) := by
  rcases hstate : ni2.state with failed | ⟨ps, rr⟩ | _
  · have he : add_node_apply s1 node ni2 atCap =
        if !atCap && node_should_connect s1.resources s1.groups node ni2 then
          { s1 with
            nodes := alSet s1.nodes node { ni2 with state := NodeState.connecting }
            actions := s1.actions ++ [.StartDial node] }
        else s1 := by
      unfold add_node_apply
      simp only [hstate]
    rw [he]
    by_cases hcond : (!atCap && node_should_connect s1.resources s1.groups node ni2) = true
    · rw [if_pos hcond]
      exact node_update_pres s1 node ni2 { ni2 with state := NodeState.connecting }
        (s1.actions ++ [.StartDial node]) h hni2 rfl (Nat.le_refl _)
    · rw [if_neg hcond]
      exact h
  · have he : add_node_apply s1 node ni2 atCap = s1 := by
      unfold add_node_apply
      simp only [hstate]
    rw [he]
    exact h
  · have he : add_node_apply s1 node ni2 atCap = node_fill_transfers s1 node := by
      unfold add_node_apply
      simp only [hstate]
    rw [he]
    exact fill_pres s1 node h

theorem attach_mem (m : List (Resource × ResourceState)) (r : Resource) (node : NodeId)
    (p : Resource × ResourceState) (hp : p ∈ resourcesAttachNode m r node) :
    p ∈ m ∨ ∃ rs, (r, rs) ∈ m ∧ p = (r, { rs with
      nodes := insertIdx rs.nodes node, skip_nodes := rs.skip_nodes.erase node }) := by
  unfold resourcesAttachNode at hp
  rcases hg : alGet m r with _ | rs
  · rw [hg] at hp
    exact Or.inl hp
  · simp only [hg] at hp
    rcases mem_alSet m r _ p hp with h1 | h1
    · exact Or.inr ⟨rs, alGet_mem m r rs hg, h1⟩
    · exact Or.inl h1

theorem attach_map_fst (m : List (Resource × ResourceState)) (r : Resource)
    (node : NodeId) : (resourcesAttachNode m r node).map Prod.fst = m.map Prod.fst := by
  unfold resourcesAttachNode
  rcases hg : alGet m r with _ | rs
  · simp only [hg]
  · simp only [hg]
    exact alSet_map_fst m r _

theorem addNodeResourcesLoop_sub (node : NodeId) :
    ∀ (hlist : List Resource) (nrs : List Resource) (m : List (Resource × ResourceState)),
      (∀ x ∈ nrs, x ∈ (addNodeResourcesLoop node hlist nrs m).1) ∧
      (∀ p ∈ (addNodeResourcesLoop node hlist nrs m).2, ∃ p2 ∈ m, p.1 = p2.1 ∧
        (∀ x ∈ p.2.nodes, (x = node ∧ p.1 ∈ (addNodeResourcesLoop node hlist nrs m).1)
          ∨ x ∈ p2.2.nodes) ∧
        (p2.2.nodes.Nodup → p.2.nodes.Nodup)) ∧
      (addNodeResourcesLoop node hlist nrs m).2.map Prod.fst = m.map Prod.fst
  | [], nrs, m => by
    refine ⟨fun x hx => hx, ?_, rfl⟩
    exact fun p hp => ⟨p, hp, rfl, fun x hx => Or.inr hx, fun hd => hd⟩
  | r :: rest, nrs, m => by
    simp only [addNodeResourcesLoop]
    by_cases h1 : r ∈ nrs
    · rw [if_pos h1]
      exact addNodeResourcesLoop_sub node rest nrs m
    · rw [if_neg h1]
      obtain ⟨ihn, ihm, ihf⟩ :=
        addNodeResourcesLoop_sub node rest (nrs ++ [r]) (resourcesAttachNode m r node)
      refine ⟨?_, ?_, ?_⟩
      · intro x hx
        exact ihn x (List.mem_append.mpr (Or.inl hx))
      · intro p hp
        obtain ⟨p2, hp2, hk, hnodes, hnd⟩ := ihm p hp
        rcases attach_mem m r node p2 hp2 with h2 | ⟨rs, hrs, h3⟩
        · exact ⟨p2, h2, hk, hnodes, hnd⟩
        · refine ⟨(r, rs), hrs, by rw [hk, h3], ?_, ?_⟩
          · intro x hx
            rcases hnodes x hx with ⟨hxn, hmem⟩ | hmem
            · exact Or.inl ⟨hxn, hmem⟩
            · rw [h3] at hmem
              rcases mem_insertIdx hmem with h4 | h4
              · exact Or.inr h4
              · refine Or.inl ⟨h4, ?_⟩
                rw [hk, h3]
                exact ihn r (List.mem_append.mpr (Or.inr (List.mem_singleton.mpr rfl)))
          · intro hdup
            apply hnd
            rw [h3]
            exact insertIdx_nodup hdup
      · rw [ihf]
        exact attach_map_fst m r node

theorem add_node_pres (s : State) (node : NodeId) (hints : NodeHints) (h : MasterInv s) :
    MasterInv (add_node s node hints) := by
  obtain ⟨hS, hK, hN, hP, hG, hR, hKn⟩ := h
  obtain ⟨ni, hniE, hdis⟩ := alGet_nodesEnsure_self s.nodes node hS
  obtain ⟨ihn, ihm, ihf⟩ := addNodeResourcesLoop_sub node hints.resources ni.resources s.resources
  have hB : MasterInv { s with groups := (addNodeGroupsLoop node hints.groups ni.groups s.groups).2, resources := (addNodeResourcesLoop node hints.resources ni.resources s.resources).2, nodes := alSet (nodesEnsure s.nodes node) node { ni with groups := (addNodeGroupsLoop node hints.groups ni.groups s.groups).1, resources := (addNodeResourcesLoop node hints.resources ni.resources s.resources).1 } } := by
    refine ⟨?_, ?_, ?_, ?_, ?_, ?_, ?_⟩
    · show NodesSorted (alSet (nodesEnsure s.nodes node) node { ni with groups := (addNodeGroupsLoop node hints.groups ni.groups s.groups).1, resources := (addNodeResourcesLoop node hints.resources ni.resources s.resources).1 })
      unfold NodesSorted
      rw [alSet_map_fst]
      have h1 := nodesEnsure_sorted s.nodes node hS
      unfold NodesSorted at h1
      exact h1
    · show (((addNodeResourcesLoop node hints.resources ni.resources s.resources).2).map Prod.fst).Nodup
      rw [ihf]
      exact hK
    · intro p hp
      have hp2 : p ∈ (addNodeResourcesLoop node hints.resources ni.resources s.resources).2 := hp
      obtain ⟨p2, hmem2, hk, hnodes, hnd⟩ := ihm p hp2
      exact hnd (hN p2 hmem2)
    · intro p hp
      have hpX : p ∈ alSet (nodesEnsure s.nodes node) node { ni with groups := (addNodeGroupsLoop node hints.groups ni.groups s.groups).1, resources := (addNodeResourcesLoop node hints.resources ni.resources s.resources).1 } := hp
      rcases mem_alSet (nodesEnsure s.nodes node) node { ni with groups := (addNodeGroupsLoop node hints.groups ni.groups s.groups).1, resources := (addNodeResourcesLoop node hints.resources ni.resources s.resources).1 } p hpX with h1 | h1
      · rw [h1]
        show ni.active_transfers.length ≤ s.limits.max_concurrent_requests_per_node
        rcases hdis with ⟨hinit, _⟩ | hsome
        · rw [hinit]
          exact Nat.zero_le _
        · exact hP (node, ni) (alGet_mem s.nodes node ni hsome)
      · rcases mem_nodesEnsure s.nodes node p h1 with h2 | h2
        · rw [h2]
          exact Nat.zero_le _
        · exact hP p h2
    · exact hG
    · intro p hp n hn ni3 hget
      have hp2 : p ∈ (addNodeResourcesLoop node hints.resources ni.resources s.resources).2 := hp
      obtain ⟨p2, hmem2, hk, hnodes, _⟩ := ihm p hp2
      rcases hnodes n hn with ⟨hneq, hmem1⟩ | hmem2n
      · rw [hneq] at hget
        have hget2 : alGet (alSet (nodesEnsure s.nodes node) node { ni with groups := (addNodeGroupsLoop node hints.groups ni.groups s.groups).1, resources := (addNodeResourcesLoop node hints.resources ni.resources s.resources).1 }) node = some ni3 := hget
        rw [alGet_alSet_same (nodesEnsure s.nodes node) node { ni with groups := (addNodeGroupsLoop node hints.groups ni.groups s.groups).1, resources := (addNodeResourcesLoop node hints.resources ni.resources s.resources).1 } ni hniE] at hget2
        injection hget2 with h4
        rw [← h4]
        exact hmem1
      · by_cases hne : n = node
        · rw [hne] at hget hmem2n
          have hget2 : alGet (alSet (nodesEnsure s.nodes node) node { ni with groups := (addNodeGroupsLoop node hints.groups ni.groups s.groups).1, resources := (addNodeResourcesLoop node hints.resources ni.resources s.resources).1 }) node = some ni3 := hget
          rw [alGet_alSet_same (nodesEnsure s.nodes node) node { ni with groups := (addNodeGroupsLoop node hints.groups ni.groups s.groups).1, resources := (addNodeResourcesLoop node hints.resources ni.resources s.resources).1 } ni hniE] at hget2
          injection hget2 with h4
          rcases hdis with ⟨hinit, hnone⟩ | hsome
          · exfalso
            obtain ⟨ni0, hni0⟩ := hKn p2 hmem2 node hmem2n
            rw [hnone] at hni0
            cases hni0
          · have h5 := hR p2 hmem2 node hmem2n ni hsome
            have h6 : p2.1 ∈ (addNodeResourcesLoop node hints.resources ni.resources s.resources).1 := ihn p2.1 h5
            rw [← h4, hk]
            exact h6
        · have hget2 : alGet (alSet (nodesEnsure s.nodes node) node { ni with groups := (addNodeGroupsLoop node hints.groups ni.groups s.groups).1, resources := (addNodeResourcesLoop node hints.resources ni.resources s.resources).1 }) n = some ni3 := hget
          rw [alGet_alSet_ne (nodesEnsure s.nodes node) node { ni with groups := (addNodeGroupsLoop node hints.groups ni.groups s.groups).1, resources := (addNodeResourcesLoop node hints.resources ni.resources s.resources).1 } n hne] at hget2
          rw [alGet_nodesEnsure_ne s.nodes node n hne] at hget2
          have h5 := hR p2 hmem2 n hmem2n ni3 hget2
          rw [hk]
          exact h5
    · intro p hp n hn
      have hp2 : p ∈ (addNodeResourcesLoop node hints.resources ni.resources s.resources).2 := hp
      obtain ⟨p2, hmem2, hk, hnodes, _⟩ := ihm p hp2
      rcases hnodes n hn with ⟨hneq, _⟩ | hmem2n
      · rw [hneq]
        exact ⟨{ ni with groups := (addNodeGroupsLoop node hints.groups ni.groups s.groups).1, resources := (addNodeResourcesLoop node hints.resources ni.resources s.resources).1 }, alGet_alSet_same (nodesEnsure s.nodes node) node { ni with groups := (addNodeGroupsLoop node hints.groups ni.groups s.groups).1, resources := (addNodeResourcesLoop node hints.resources ni.resources s.resources).1 } ni hniE⟩
      · by_cases hne : n = node
        · rw [hne]
          exact ⟨{ ni with groups := (addNodeGroupsLoop node hints.groups ni.groups s.groups).1, resources := (addNodeResourcesLoop node hints.resources ni.resources s.resources).1 }, alGet_alSet_same (nodesEnsure s.nodes node) node { ni with groups := (addNodeGroupsLoop node hints.groups ni.groups s.groups).1, resources := (addNodeResourcesLoop node hints.resources ni.resources s.resources).1 } ni hniE⟩
        · obtain ⟨ni0, hni0⟩ := hKn p2 hmem2 n hmem2n
          refine ⟨ni0, ?_⟩
          show alGet (alSet (nodesEnsure s.nodes node) node { ni with groups := (addNodeGroupsLoop node hints.groups ni.groups s.groups).1, resources := (addNodeResourcesLoop node hints.resources ni.resources s.resources).1 }) n = some ni0
          rw [alGet_alSet_ne (nodesEnsure s.nodes node) node { ni with groups := (addNodeGroupsLoop node hints.groups ni.groups s.groups).1, resources := (addNodeResourcesLoop node hints.resources ni.resources s.resources).1 } n hne]
          rw [alGet_nodesEnsure_ne s.nodes node n hne]
          exact hni0
  have he : add_node s node hints = add_node_apply { s with groups := (addNodeGroupsLoop node hints.groups ni.groups s.groups).2, resources := (addNodeResourcesLoop node hints.resources ni.resources s.resources).2, nodes := alSet (nodesEnsure s.nodes node) node { ni with groups := (addNodeGroupsLoop node hints.groups ni.groups s.groups).1, resources := (addNodeResourcesLoop node hints.resources ni.resources s.resources).1 } } node { ni with groups := (addNodeGroupsLoop node hints.groups ni.groups s.groups).1, resources := (addNodeResourcesLoop node hints.resources ni.resources s.resources).1 } s.conns_at_capacity := by
    unfold add_node
    simp only [hniE]
  rw [he]
  exact add_node_apply_pres { s with groups := (addNodeGroupsLoop node hints.groups ni.groups s.groups).2, resources := (addNodeResourcesLoop node hints.resources ni.resources s.resources).2, nodes := alSet (nodesEnsure s.nodes node) node { ni with groups := (addNodeGroupsLoop node hints.groups ni.groups s.groups).1, resources := (addNodeResourcesLoop node hints.resources ni.resources s.resources).1 } } node { ni with groups := (addNodeGroupsLoop node hints.groups ni.groups s.groups).1, resources := (addNodeResourcesLoop node hints.resources ni.resources s.resources).1 } s.conns_at_capacity hB
    (alGet_alSet_same (nodesEnsure s.nodes node) node { ni with groups := (addNodeGroupsLoop node hints.groups ni.groups s.groups).1, resources := (addNodeResourcesLoop node hints.resources ni.resources s.resources).1 } ni hniE)

theorem add_node_fold_pres :
    ∀ (nl : List NodeId) (resource : Resource) (s2 : State), MasterInv s2 →
      MasterInv (nl.foldl (fun s3 n => add_node s3 n ⟨[resource], []⟩) s2)
  | [], _, _, h => h
  | n :: rest, resource, s2, h =>
    add_node_fold_pres rest resource _ (add_node_pres s2 n ⟨[resource], []⟩ h)

theorem entry_or_pres (s : State) (resource : Resource) (h : MasterInv s) :
    MasterInv { s with resources := alEntryOr s.resources resource ResourceState.init } := by
  obtain ⟨hS, hK, hN, hP, hG, hR, hKn⟩ := h
  refine ⟨hS, ?_, ?_, hP, hG, ?_, ?_⟩
  · exact alEntryOr_map_fst_nodup s.resources resource ResourceState.init hK
  · intro p hp
    rcases mem_alEntryOr s.resources resource ResourceState.init p hp with h1 | h1
    · exact hN p h1
    · rw [h1]
      exact List.nodup_nil
  · intro p hp n hn ni hget
    rcases mem_alEntryOr s.resources resource ResourceState.init p hp with h1 | h1
    · exact hR p h1 n hn ni hget
    · rw [h1] at hn
      cases hn
  · intro p hp n hn
    rcases mem_alEntryOr s.resources resource ResourceState.init p hp with h1 | h1
    · exact hKn p h1 n hn
    · rw [h1] at hn
      cases hn

theorem add_resource_pres (s : State) (resource : Resource) (hints : ResourceHints)
    (h : MasterInv s) : MasterInv (add_resource s resource hints) := by
  have hA := entry_or_pres s resource h
  rcases hg : alGet (alEntryOr s.resources resource ResourceState.init) resource with _ | rs
  · have he : add_resource s resource hints = hints.nodes.foldl
        (fun s2 n => add_node s2 n ⟨[resource], []⟩)
        { s with resources := alEntryOr s.resources resource ResourceState.init } := by
      unfold add_resource
      simp only [hg]
    rw [he]
    exact add_node_fold_pres hints.nodes resource _ hA
  · have hrsmem : (resource, rs) ∈ alEntryOr s.resources resource ResourceState.init :=
      alGet_mem _ resource rs hg
    have he : add_resource s resource hints = hints.nodes.foldl
        (fun s2 n => add_node s2 n ⟨[resource], []⟩)
        { s with
          resources := alSet (alEntryOr s.resources resource ResourceState.init) resource { rs with skip_nodes := hints.skip_nodes.foldl insertIdx rs.skip_nodes, groups := (addResourceGroupsLoop resource hints.groups rs.groups s.groups).1 }
          groups := (addResourceGroupsLoop resource hints.groups rs.groups s.groups).2 } := by
      unfold add_resource
      simp only [hg]
    rw [he]
    apply add_node_fold_pres
    obtain ⟨hS, hK, hN, hP, hG, hR, hKn⟩ := hA
    refine ⟨hS, ?_, ?_, hP, hG, ?_, ?_⟩
    · show ((alSet (alEntryOr s.resources resource ResourceState.init) resource { rs with skip_nodes := hints.skip_nodes.foldl insertIdx rs.skip_nodes, groups := (addResourceGroupsLoop resource hints.groups rs.groups s.groups).1 }).map
        Prod.fst).Nodup
      rw [alSet_map_fst]
      exact hK
    · intro p hp
      have hpX : p ∈ alSet (alEntryOr s.resources resource ResourceState.init)
          resource { rs with skip_nodes := hints.skip_nodes.foldl insertIdx rs.skip_nodes, groups := (addResourceGroupsLoop resource hints.groups rs.groups s.groups).1 } := hp
      rcases mem_alSet _ _ _ p hpX with h1 | h1
      · rw [h1]
        exact hN (resource, rs) hrsmem
      · exact hN p h1
    · intro p hp n hn ni hget
      have hpX : p ∈ alSet (alEntryOr s.resources resource ResourceState.init)
          resource { rs with skip_nodes := hints.skip_nodes.foldl insertIdx rs.skip_nodes, groups := (addResourceGroupsLoop resource hints.groups rs.groups s.groups).1 } := hp
      rcases mem_alSet _ _ _ p hpX with h1 | h1
      · have hn2 : n ∈ rs.nodes := by
          rw [h1] at hn
          exact hn
        have h5 := hR (resource, rs) hrsmem n hn2 ni hget
        rw [h1]
        exact h5
      · exact hR p h1 n hn ni hget
    · intro p hp n hn
      have hpX : p ∈ alSet (alEntryOr s.resources resource ResourceState.init)
          resource { rs with skip_nodes := hints.skip_nodes.foldl insertIdx rs.skip_nodes, groups := (addResourceGroupsLoop resource hints.groups rs.groups s.groups).1 } := hp
      rcases mem_alSet _ _ _ p hpX with h1 | h1
      · have hn2 : n ∈ rs.nodes := by
          rw [h1] at hn
          exact hn
        exact hKn (resource, rs) hrsmem n hn2
      · exact hKn p h1 n hn

theorem on_node_connected_pres (s : State) (node : NodeId) (h : MasterInv s) :
    MasterInv (on_node_connected s node) := by
  rcases hni : alGet s.nodes node with _ | ni
  · have he : on_node_connected s node = s := by
      unfold on_node_connected
      rw [hni]
    rw [he]
    exact h
  · have he : on_node_connected s node = node_fill_transfers
        { s with nodes := alSet s.nodes node { ni with state := .Connected } } node := by
      unfold on_node_connected
      simp only [hni]
    rw [he]
    apply fill_pres
    have h2 := node_update_pres s node ni { ni with state := .Connected } s.actions h hni rfl
      (Nat.le_refl _)
    exact h2

/-! ## Preservation lemmas for `on_node_failed` and the transfer handlers -/

theorem alSet_mem_char {κ ν : Type} [DecidableEq κ] :
    ∀ (l : List (κ × ν)) (k : κ) (v : ν) (p : κ × ν), (l.map Prod.fst).Nodup →
      p ∈ alSet l k v → p = (k, v) ∨ (p ∈ l ∧ p.1 ≠ k)
  | [], _, _, _, _, h => by cases h
  | (k', v') :: rest, k, v, p, hnd, h => by
    rw [List.map_cons, List.nodup_cons] at hnd
    unfold alSet at h
    by_cases hk : k = k'
    · rw [if_pos hk] at h
      rcases List.mem_cons.mp h with h1 | h1
      · exact Or.inl h1
      · refine Or.inr ⟨List.mem_cons_of_mem _ h1, ?_⟩
        intro hpk
        apply hnd.1
        rw [← hk, ← hpk]
        exact List.mem_map.mpr ⟨p, h1, rfl⟩
    · rw [if_neg hk] at h
      rcases List.mem_cons.mp h with h1 | h1
      · refine Or.inr ⟨List.mem_cons.mpr (Or.inl h1), ?_⟩
        intro hpk
        apply hk
        rw [← hpk, h1]
      · rcases alSet_mem_char rest k v p hnd.2 h1 with h2 | ⟨h2, h3⟩
        · exact Or.inl h2
        · exact Or.inr ⟨List.mem_cons_of_mem _ h2, h3⟩

theorem resourceDropNode_mem (m : List (Resource × ResourceState)) (node : NodeId)
    (r : Resource) (p : Resource × ResourceState) (hp : p ∈ resourceDropNode m node r) :
    p ∈ m ∨ ∃ rs, (r, rs) ∈ m ∧ p = (r, { rs with nodes := rs.nodes.erase node }) := by
  unfold resourceDropNode at hp
  rcases hg : alGet m r with _ | rs
  · rw [hg] at hp
    exact Or.inl hp
  · simp only [hg] at hp
    rcases mem_alSet m r _ p hp with h1 | h1
    · exact Or.inr ⟨rs, alGet_mem m r rs hg, h1⟩
    · exact Or.inl h1

theorem resourceDropNode_map_fst (m : List (Resource × ResourceState)) (node : NodeId)
    (r : Resource) : (resourceDropNode m node r).map Prod.fst = m.map Prod.fst := by
  unfold resourceDropNode
  rcases hg : alGet m r with _ | rs
  · simp only [hg]
  · simp only [hg]
    exact alSet_map_fst m r _

theorem dropFold_mem (node : NodeId) :
    ∀ (rlist : List Resource) (m : List (Resource × ResourceState))
      (p : Resource × ResourceState),
      p ∈ rlist.foldl (fun m2 r => resourceDropNode m2 node r) m →
      ∃ p2 ∈ m, p.1 = p2.1 ∧ (∀ x ∈ p.2.nodes, x ∈ p2.2.nodes) ∧
        (p2.2.nodes.Nodup → p.2.nodes.Nodup)
  | [], m, p, hp => ⟨p, hp, rfl, fun x hx => hx, fun hd => hd⟩
  | r :: rest, m, p, hp => by
    simp only [List.foldl_cons] at hp
    obtain ⟨p2, hm2, hk, hsub, hnd⟩ := dropFold_mem node rest (resourceDropNode m node r) p hp
    rcases resourceDropNode_mem m node r p2 hm2 with h1 | ⟨rs, hrs, h2⟩
    · exact ⟨p2, h1, hk, hsub, hnd⟩
    · refine ⟨(r, rs), hrs, by rw [hk, h2], ?_, ?_⟩
      · intro x hx
        have h3 := hsub x hx
        rw [h2] at h3
        exact List.mem_of_mem_erase h3
      · intro hdup
        apply hnd
        rw [h2]
        exact List.Nodup.erase node hdup

theorem dropFold_map_fst (node : NodeId) :
    ∀ (rlist : List Resource) (m : List (Resource × ResourceState)),
      (rlist.foldl (fun m2 r => resourceDropNode m2 node r) m).map Prod.fst = m.map Prod.fst
  | [], _ => rfl
  | r :: rest, m => by
    simp only [List.foldl_cons]
    rw [dropFold_map_fst node rest (resourceDropNode m node r)]
    exact resourceDropNode_map_fst m node r

theorem dropFold_stable (node : NodeId) :
    ∀ (rlist : List Resource) (m : List (Resource × ResourceState))
      (p : Resource × ResourceState), p.1 ∉ rlist →
      p ∈ rlist.foldl (fun m2 r => resourceDropNode m2 node r) m → p ∈ m
  | [], _, _, _, hp => hp
  | r :: rest, m, p, hnr, hp => by
    simp only [List.foldl_cons] at hp
    have h1 : p.1 ∉ rest := fun hx => hnr (List.mem_cons_of_mem _ hx)
    have h2 := dropFold_stable node rest (resourceDropNode m node r) p h1 hp
    rcases resourceDropNode_mem m node r p h2 with h3 | ⟨rs, hrs, h4⟩
    · exact h3
    · exfalso
      apply hnr
      rw [h4]
      exact List.mem_cons.mpr (Or.inl rfl)

theorem dropFold_erased (node : NodeId) :
    ∀ (rlist : List Resource) (m : List (Resource × ResourceState)),
      (m.map Prod.fst).Nodup → (∀ q ∈ m, q.2.nodes.Nodup) →
      ∀ p ∈ rlist.foldl (fun m2 r => resourceDropNode m2 node r) m, p.1 ∈ rlist →
        node ∉ p.2.nodes
  | [], _, _, _, _, _, hr => by cases hr
  | r :: rest, m, hknd, hnnd, p, hp, hr => by
    simp only [List.foldl_cons] at hp
    have hknd2 : ((resourceDropNode m node r).map Prod.fst).Nodup := by
      rw [resourceDropNode_map_fst m node r]
      exact hknd
    have hnnd2 : ∀ q ∈ resourceDropNode m node r, q.2.nodes.Nodup := by
      intro q hq
      rcases resourceDropNode_mem m node r q hq with h1 | ⟨rs, hrs, h2⟩
      · exact hnnd q h1
      · rw [h2]
        exact List.Nodup.erase node (hnnd (r, rs) hrs)
    by_cases hrr : p.1 ∈ rest
    · exact dropFold_erased node rest (resourceDropNode m node r) hknd2 hnnd2 p hp hrr
    · have hpr : p.1 = r := by
        rcases List.mem_cons.mp hr with h1 | h1
        · exact h1
        · exact absurd h1 hrr
      have hpm := dropFold_stable node rest (resourceDropNode m node r) p hrr hp
      unfold resourceDropNode at hpm
      rcases hg : alGet m r with _ | rs
      · rw [hg] at hpm
        exfalso
        have h5 : r ∉ m.map Prod.fst := (alGet_eq_none_iff m r).mp hg
        apply h5
        rw [← hpr]
        exact List.mem_map.mpr ⟨p, hpm, rfl⟩
      · simp only [hg] at hpm
        rcases alSet_mem_char m r _ p hknd hpm with h1 | ⟨h1, h2⟩
        · rw [h1]
          intro hmem
          have hrsnd := hnnd (r, rs) (alGet_mem m r rs hg)
          have h6 := (List.Nodup.mem_erase_iff hrsnd).mp hmem
          exact h6.1 rfl
        · exact absurd hpr h2

theorem queue_step_pres (s1 : State) (k : Nat) (h : MasterInv s1) :
    MasterInv { s1 with
      nodes := (queue_reconnects s1.resources s1.groups s1.nodes k).1
      actions := s1.actions ++ (queue_reconnects s1.resources s1.groups s1.nodes k).2 } := by
  obtain ⟨hS, hK, hN, hP, hG, hR, hKn⟩ := h
  refine ⟨?_, hK, hN, ?_, hG, ?_, ?_⟩
  · show NodesSorted (queue_reconnects s1.resources s1.groups s1.nodes k).1
    unfold NodesSorted at hS ⊢
    rw [queue_map_fst]
    exact hS
  · intro p hp
    have hp2 : p ∈ (queue_reconnects s1.resources s1.groups s1.nodes k).1 := hp
    obtain ⟨ni2, hm, ha, _⟩ := queue_mem s1.resources s1.groups s1.nodes k p hp2
    have h2 := hP (p.1, ni2) hm
    show p.2.active_transfers.length ≤ s1.limits.max_concurrent_requests_per_node
    rw [ha]
    exact h2
  · intro p hp n hn ni3 hget
    have hg2 : alGet (queue_reconnects s1.resources s1.groups s1.nodes k).1 n = some ni3 := hget
    obtain ⟨ni2, hga, hres, _⟩ := queue_alGet s1.resources s1.groups s1.nodes k n ni3 hg2
    have h5 := hR p hp n hn ni2 hga
    rw [hres]
    exact h5
  · intro p hp n hn
    refine nodeKnown_transfer s1 _ ?_ n (hKn p hp n hn)
    exact queue_map_fst s1.resources s1.groups s1.nodes k

theorem on_node_failed_pres (s : State) (node : NodeId) (mr : Bool) (h : MasterInv s) :
    MasterInv (on_node_failed s node mr) := by
  rcases hni : alGet s.nodes node with _ | ni
  · have he : on_node_failed s node mr = s := by
      unfold on_node_failed
      rw [hni]
    rw [he]
    exact h
  · by_cases hcond : (mr && !ni.should_reconnect) = true
    · have h1 : MasterInv { s with actions := s.actions ++ [OutEvent.RegisterTimer RETRY_TIMEOUT (Timer.RetryNode node)], nodes := alSet s.nodes node { ni with state := NodeState.Pending PendingState.RetryTimeout ni.remaining_retries } } :=
        node_update_pres s node ni { ni with state := NodeState.Pending PendingState.RetryTimeout ni.remaining_retries }
          (s.actions ++ [OutEvent.RegisterTimer RETRY_TIMEOUT (Timer.RetryNode node)]) h hni rfl (Nat.le_refl _)
      rcases hrc : s.limits.remaining_connections (connection_count { s with actions := s.actions ++ [OutEvent.RegisterTimer RETRY_TIMEOUT (Timer.RetryNode node)], nodes := alSet s.nodes node { ni with state := NodeState.Pending PendingState.RetryTimeout ni.remaining_retries } }) with _ | remaining
      · have he : on_node_failed s node mr = { s with actions := s.actions ++ [OutEvent.RegisterTimer RETRY_TIMEOUT (Timer.RetryNode node)], nodes := alSet s.nodes node { ni with state := NodeState.Pending PendingState.RetryTimeout ni.remaining_retries } } := by
          unfold on_node_failed
          simp only [hni]
          rw [if_pos hcond]
          simp only [hrc]
        rw [he]
        exact h1
      · have he : on_node_failed s node mr = { { s with actions := s.actions ++ [OutEvent.RegisterTimer RETRY_TIMEOUT (Timer.RetryNode node)], nodes := alSet s.nodes node { ni with state := NodeState.Pending PendingState.RetryTimeout ni.remaining_retries } } with
            nodes := (queue_reconnects ({ s with actions := s.actions ++ [OutEvent.RegisterTimer RETRY_TIMEOUT (Timer.RetryNode node)], nodes := alSet s.nodes node { ni with state := NodeState.Pending PendingState.RetryTimeout ni.remaining_retries } }).resources ({ s with actions := s.actions ++ [OutEvent.RegisterTimer RETRY_TIMEOUT (Timer.RetryNode node)], nodes := alSet s.nodes node { ni with state := NodeState.Pending PendingState.RetryTimeout ni.remaining_retries } }).groups ({ s with actions := s.actions ++ [OutEvent.RegisterTimer RETRY_TIMEOUT (Timer.RetryNode node)], nodes := alSet s.nodes node { ni with state := NodeState.Pending PendingState.RetryTimeout ni.remaining_retries } }).nodes
              remaining).1
            actions := ({ s with actions := s.actions ++ [OutEvent.RegisterTimer RETRY_TIMEOUT (Timer.RetryNode node)], nodes := alSet s.nodes node { ni with state := NodeState.Pending PendingState.RetryTimeout ni.remaining_retries } }).actions ++ (queue_reconnects ({ s with actions := s.actions ++ [OutEvent.RegisterTimer RETRY_TIMEOUT (Timer.RetryNode node)], nodes := alSet s.nodes node { ni with state := NodeState.Pending PendingState.RetryTimeout ni.remaining_retries } }).resources
              ({ s with actions := s.actions ++ [OutEvent.RegisterTimer RETRY_TIMEOUT (Timer.RetryNode node)], nodes := alSet s.nodes node { ni with state := NodeState.Pending PendingState.RetryTimeout ni.remaining_retries } }).groups ({ s with actions := s.actions ++ [OutEvent.RegisterTimer RETRY_TIMEOUT (Timer.RetryNode node)], nodes := alSet s.nodes node { ni with state := NodeState.Pending PendingState.RetryTimeout ni.remaining_retries } }).nodes remaining).2 } := by
          unfold on_node_failed
          simp only [hni]
          rw [if_pos hcond]
          simp only [hrc]
        rw [he]
        exact queue_step_pres { s with actions := s.actions ++ [OutEvent.RegisterTimer RETRY_TIMEOUT (Timer.RetryNode node)], nodes := alSet s.nodes node { ni with state := NodeState.Pending PendingState.RetryTimeout ni.remaining_retries } } remaining h1
    · obtain ⟨hS, hK, hN, hP, hG, hR, hKn⟩ := h
      have h1 : MasterInv { s with actions := s.actions ++ [OutEvent.DropConnection node], resources := (ni.resources.foldl (fun m r => resourceDropNode m node r) s.resources), nodes := (alSet s.nodes node { ni with resources := [], state := NodeState.Disconnected true }) } := by
        refine ⟨?_, ?_, ?_, ?_, hG, ?_, ?_⟩
        · show NodesSorted (alSet s.nodes node { ni with resources := [], state := NodeState.Disconnected true })
          unfold NodesSorted at hS ⊢
          rw [alSet_map_fst]
          exact hS
        · show (((ni.resources.foldl (fun m r => resourceDropNode m node r) s.resources)).map Prod.fst).Nodup
          rw [dropFold_map_fst]
          exact hK
        · intro p hp
          have hp2 : p ∈ (ni.resources.foldl (fun m r => resourceDropNode m node r) s.resources) := hp
          obtain ⟨p2, hm2, hk, hsub, hnd⟩ := dropFold_mem node ni.resources s.resources p hp2
          exact hnd (hN p2 hm2)
        · intro p hp
          have hpX : p ∈ (alSet s.nodes node { ni with resources := [], state := NodeState.Disconnected true }) := hp
          rcases mem_alSet s.nodes node _ p hpX with h1 | h1
          · rw [h1]
            show ni.active_transfers.length ≤ s.limits.max_concurrent_requests_per_node
            exact hP (node, ni) (alGet_mem s.nodes node ni hni)
          · exact hP p h1
        · intro p hp n hn ni3 hget
          have hp2 : p ∈ (ni.resources.foldl (fun m r => resourceDropNode m node r) s.resources) := hp
          obtain ⟨p2, hm2, hk, hsub, _⟩ := dropFold_mem node ni.resources s.resources p hp2
          have hn2 : n ∈ p2.2.nodes := hsub n hn
          by_cases hne : n = node
          · exfalso
            rw [hne] at hn hn2
            have h5 := hR p2 hm2 node hn2 ni hni
            have h6 : p.1 ∈ ni.resources := by
              rw [hk]
              exact h5
            have h7 := dropFold_erased node ni.resources s.resources hK hN p hp2 h6
            exact h7 hn
          · have hgx : alGet s.nodes n = some ni3 := by
              have hg2 : alGet (alSet s.nodes node { ni with resources := [], state := NodeState.Disconnected true }) n = some ni3 := hget
              rw [alGet_alSet_ne s.nodes node _ n hne] at hg2
              exact hg2
            have h5 := hR p2 hm2 n hn2 ni3 hgx
            rw [hk]
            exact h5
        · intro p hp n hn
          have hp2 : p ∈ (ni.resources.foldl (fun m r => resourceDropNode m node r) s.resources) := hp
          obtain ⟨p2, hm2, hk, hsub, _⟩ := dropFold_mem node ni.resources s.resources p hp2
          refine nodeKnown_transfer s _ ?_ n (hKn p2 hm2 n (hsub n hn))
          exact alSet_map_fst s.nodes node _
      rcases hrc : s.limits.remaining_connections (connection_count { s with actions := s.actions ++ [OutEvent.DropConnection node], resources := (ni.resources.foldl (fun m r => resourceDropNode m node r) s.resources), nodes := (alSet s.nodes node { ni with resources := [], state := NodeState.Disconnected true }) }) with _ | remaining
      · have he : on_node_failed s node mr = { s with actions := s.actions ++ [OutEvent.DropConnection node], resources := (ni.resources.foldl (fun m r => resourceDropNode m node r) s.resources), nodes := (alSet s.nodes node { ni with resources := [], state := NodeState.Disconnected true }) } := by
          unfold on_node_failed
          simp only [hni]
          rw [if_neg hcond]
          simp only [hrc]
        rw [he]
        exact h1
      · have he : on_node_failed s node mr = { { s with actions := s.actions ++ [OutEvent.DropConnection node], resources := (ni.resources.foldl (fun m r => resourceDropNode m node r) s.resources), nodes := (alSet s.nodes node { ni with resources := [], state := NodeState.Disconnected true }) } with
            nodes := (queue_reconnects ({ s with actions := s.actions ++ [OutEvent.DropConnection node], resources := (ni.resources.foldl (fun m r => resourceDropNode m node r) s.resources), nodes := (alSet s.nodes node { ni with resources := [], state := NodeState.Disconnected true }) }).resources ({ s with actions := s.actions ++ [OutEvent.DropConnection node], resources := (ni.resources.foldl (fun m r => resourceDropNode m node r) s.resources), nodes := (alSet s.nodes node { ni with resources := [], state := NodeState.Disconnected true }) }).groups ({ s with actions := s.actions ++ [OutEvent.DropConnection node], resources := (ni.resources.foldl (fun m r => resourceDropNode m node r) s.resources), nodes := (alSet s.nodes node { ni with resources := [], state := NodeState.Disconnected true }) }).nodes
              remaining).1
            actions := ({ s with actions := s.actions ++ [OutEvent.DropConnection node], resources := (ni.resources.foldl (fun m r => resourceDropNode m node r) s.resources), nodes := (alSet s.nodes node { ni with resources := [], state := NodeState.Disconnected true }) }).actions ++ (queue_reconnects ({ s with actions := s.actions ++ [OutEvent.DropConnection node], resources := (ni.resources.foldl (fun m r => resourceDropNode m node r) s.resources), nodes := (alSet s.nodes node { ni with resources := [], state := NodeState.Disconnected true }) }).resources
              ({ s with actions := s.actions ++ [OutEvent.DropConnection node], resources := (ni.resources.foldl (fun m r => resourceDropNode m node r) s.resources), nodes := (alSet s.nodes node { ni with resources := [], state := NodeState.Disconnected true }) }).groups ({ s with actions := s.actions ++ [OutEvent.DropConnection node], resources := (ni.resources.foldl (fun m r => resourceDropNode m node r) s.resources), nodes := (alSet s.nodes node { ni with resources := [], state := NodeState.Disconnected true }) }).nodes remaining).2 } := by
          unfold on_node_failed
          simp only [hni]
          rw [if_neg hcond]
          simp only [hrc]
        rw [he]
        exact queue_step_pres { s with actions := s.actions ++ [OutEvent.DropConnection node], resources := (ni.resources.foldl (fun m r => resourceDropNode m node r) s.resources), nodes := (alSet s.nodes node { ni with resources := [], state := NodeState.Disconnected true }) } remaining h1

theorem nodesDropResource_alGet (nodes : List (NodeId × NodeInfo)) (r : Resource)
    (n0 n : NodeId) (ni : NodeInfo)
    (hget : alGet (nodesDropResource nodes r n0) n = some ni) :
    ∃ ni2, alGet nodes n = some ni2 ∧ ni.active_transfers = ni2.active_transfers ∧
      ∀ x ∈ ni2.resources, x ≠ r → x ∈ ni.resources := by
  unfold nodesDropResource at hget
  rcases hg : alGet nodes n0 with _ | ni0
  · rw [hg] at hget
    exact ⟨ni, hget, rfl, fun x hx _ => hx⟩
  · simp only [hg] at hget
    by_cases hn : n = n0
    · rw [hn] at hget
      rw [alGet_alSet_same nodes n0 _ ni0 hg] at hget
      injection hget with h4
      refine ⟨ni0, by rw [hn]; exact hg, by rw [← h4], ?_⟩
      intro x hx hxr
      rw [← h4]
      exact (List.mem_erase_of_ne hxr).mpr hx
    · rw [alGet_alSet_ne nodes n0 _ n hn] at hget
      exact ⟨ni, hget, rfl, fun x hx _ => hx⟩

theorem ndrFold_alGet (r : Resource) :
    ∀ (nlist : List NodeId) (nodes : List (NodeId × NodeInfo)) (n : NodeId) (ni : NodeInfo),
      alGet (nlist.foldl (fun m n2 => nodesDropResource m r n2) nodes) n = some ni →
      ∃ ni2, alGet nodes n = some ni2 ∧ ni.active_transfers = ni2.active_transfers ∧
        ∀ x ∈ ni2.resources, x ≠ r → x ∈ ni.resources
  | [], _, _, ni, h => ⟨ni, h, rfl, fun x hx _ => hx⟩
  | n0 :: rest, nodes, n, ni, h => by
    simp only [List.foldl_cons] at h
    obtain ⟨ni1, hg1, ha1, hr1⟩ := ndrFold_alGet r rest (nodesDropResource nodes r n0) n ni h
    obtain ⟨ni2, hg2, ha2, hr2⟩ := nodesDropResource_alGet nodes r n0 n ni1 hg1
    exact ⟨ni2, hg2, ha1.trans ha2, fun x hx hxr => hr1 x (hr2 x hx hxr) hxr⟩

theorem nodesDropResource_mem (nodes : List (NodeId × NodeInfo)) (r : Resource)
    (n0 : NodeId) (p : NodeId × NodeInfo) (hp : p ∈ nodesDropResource nodes r n0) :
    ∃ p2 ∈ nodes, p.1 = p2.1 ∧ p.2.active_transfers = p2.2.active_transfers := by
  unfold nodesDropResource at hp
  rcases hg : alGet nodes n0 with _ | ni0
  · rw [hg] at hp
    exact ⟨p, hp, rfl, rfl⟩
  · simp only [hg] at hp
    rcases mem_alSet nodes n0 _ p hp with h1 | h1
    · exact ⟨(n0, ni0), alGet_mem nodes n0 ni0 hg, by rw [h1], by rw [h1]⟩
    · exact ⟨p, h1, rfl, rfl⟩

theorem ndrFold_mem (r : Resource) :
    ∀ (nlist : List NodeId) (nodes : List (NodeId × NodeInfo)) (p : NodeId × NodeInfo),
      p ∈ nlist.foldl (fun m n2 => nodesDropResource m r n2) nodes →
      ∃ p2 ∈ nodes, p.1 = p2.1 ∧ p.2.active_transfers = p2.2.active_transfers
  | [], _, p, hp => ⟨p, hp, rfl, rfl⟩
  | n0 :: rest, nodes, p, hp => by
    simp only [List.foldl_cons] at hp
    obtain ⟨p1, hm1, hk1, ha1⟩ := ndrFold_mem r rest (nodesDropResource nodes r n0) p hp
    obtain ⟨p2, hm2, hk2, ha2⟩ := nodesDropResource_mem nodes r n0 p1 hm1
    exact ⟨p2, hm2, hk1.trans hk2, ha1.trans ha2⟩

theorem nodesDropResource_map_fst (nodes : List (NodeId × NodeInfo)) (r : Resource)
    (n0 : NodeId) : (nodesDropResource nodes r n0).map Prod.fst = nodes.map Prod.fst := by
  unfold nodesDropResource
  rcases hg : alGet nodes n0 with _ | ni0
  · simp only [hg]
  · simp only [hg]
    exact alSet_map_fst nodes n0 _

theorem ndrFold_map_fst (r : Resource) :
    ∀ (nlist : List NodeId) (nodes : List (NodeId × NodeInfo)),
      (nlist.foldl (fun m n2 => nodesDropResource m r n2) nodes).map Prod.fst
        = nodes.map Prod.fst
  | [], _ => rfl
  | n0 :: rest, nodes => by
    simp only [List.foldl_cons]
    rw [ndrFold_map_fst r rest (nodesDropResource nodes r n0)]
    exact nodesDropResource_map_fst nodes r n0

theorem res_update_pres (s1 : State) (r : Resource) (rs rs2 : ResourceState)
    (h : MasterInv s1) (hg : alGet s1.resources r = some rs)
    (hnodes : rs2.nodes = rs.nodes) :
    MasterInv { s1 with resources := alSet s1.resources r rs2 } := by
  obtain ⟨hS, hK, hN, hP, hG, hR, hKn⟩ := h
  have hmem := alGet_mem s1.resources r rs hg
  refine ⟨hS, ?_, ?_, hP, hG, ?_, ?_⟩
  · show ((alSet s1.resources r rs2).map Prod.fst).Nodup
    rw [alSet_map_fst]
    exact hK
  · intro p hp
    rcases mem_alSet s1.resources r rs2 p hp with h1 | h1
    · rw [h1]
      show rs2.nodes.Nodup
      rw [hnodes]
      exact hN (r, rs) hmem
    · exact hN p h1
  · intro p hp n hn ni hget
    rcases mem_alSet s1.resources r rs2 p hp with h1 | h1
    · have hn2 : n ∈ rs2.nodes := by
        rw [h1] at hn
        exact hn
      rw [hnodes] at hn2
      have h5 := hR (r, rs) hmem n hn2 ni hget
      rw [h1]
      exact h5
    · exact hR p h1 n hn ni hget
  · intro p hp n hn
    rcases mem_alSet s1.resources r rs2 p hp with h1 | h1
    · have hn2 : n ∈ rs2.nodes := by
        rw [h1] at hn
        exact hn
      rw [hnodes] at hn2
      exact hKn (r, rs) hmem n hn2
    · exact hKn p h1 n hn

theorem transfer_ready_apply_pres (s : State) (t : Transfer) (id : Nat)
    (h : MasterInv s) : MasterInv (transfer_ready_apply s t id) := by
  rcases hni : alGet s.nodes t.node with _ | ni
  · have he : transfer_ready_apply s t id = s := by
      unfold transfer_ready_apply
      rw [hni]
    rw [he]
    exact h
  · have he : transfer_ready_apply s t id = node_fill_transfers
        { s with nodes := alSet s.nodes t.node { ni with active_transfers := ni.active_transfers.erase id } } t.node := by
      unfold transfer_ready_apply
      simp only [hni]
    rw [he]
    apply fill_pres
    exact node_update_pres s t.node ni
      { ni with active_transfers := ni.active_transfers.erase id } s.actions h hni rfl
      ((List.erase_sublist id ni.active_transfers).length_le)

theorem transfer_failed_apply_pres (s : State) (t : Transfer) (id : Nat)
    (action : FailureAction) (h : MasterInv s) :
    MasterInv (transfer_failed_apply s t id action) := by
  rcases hni : alGet s.nodes t.node with _ | ni
  · have he : transfer_failed_apply s t id action = s := by
      unfold transfer_failed_apply
      rw [hni]
    rw [he]
    exact h
  · have hD : MasterInv { s with nodes := alSet s.nodes t.node { ni with active_transfers := ni.active_transfers.erase id } } :=
      node_update_pres s t.node ni
        { ni with active_transfers := ni.active_transfers.erase id } s.actions h hni rfl
        ((List.erase_sublist id ni.active_transfers).length_le)
    cases action with
    | NotFound =>
      have he : transfer_failed_apply s t id FailureAction.NotFound = node_fill_transfers
          { s with nodes := alSet s.nodes t.node { ni with active_transfers := ni.active_transfers.erase id } } t.node := by
        unfold transfer_failed_apply
        simp only [hni]
      rw [he]
      exact fill_pres _ t.node hD
    | AbortRequest =>
      have he : transfer_failed_apply s t id FailureAction.AbortRequest = node_fill_transfers
          { s with nodes := alSet s.nodes t.node { ni with active_transfers := ni.active_transfers.erase id } } t.node := by
        unfold transfer_failed_apply
        simp only [hni]
      rw [he]
      exact fill_pres _ t.node hD
    | DropPeer =>
      have he : transfer_failed_apply s t id FailureAction.DropPeer = on_node_failed
          { s with nodes := alSet s.nodes t.node { ni with active_transfers := ni.active_transfers.erase id } } t.node false := by
        unfold transfer_failed_apply
        simp only [hni]
      rw [he]
      exact on_node_failed_pres _ t.node false hD
    | RetryLater =>
      have he : transfer_failed_apply s t id FailureAction.RetryLater = on_node_failed
          { s with nodes := alSet s.nodes t.node { ni with active_transfers := ni.active_transfers.erase id } } t.node true := by
        unfold transfer_failed_apply
        simp only [hni]
      rw [he]
      exact on_node_failed_pres _ t.node true hD

theorem on_transfer_ready_pres (s : State) (id : Nat) (h : MasterInv s) :
    MasterInv (on_transfer_ready s id) := by
  rcases ht : alTake s.active_transfers id with _ | tp
  · have he : on_transfer_ready s id = s := by
      unfold on_transfer_ready
      rw [ht]
    rw [he]
    exact h
  · obtain ⟨t, rest⟩ := tp
    have hA : MasterInv { s with active_transfers := rest } := by
      obtain ⟨hS, hK, hN, hP, hG, hR, hKn⟩ := h
      refine ⟨hS, hK, hN, hP, ?_, hR, hKn⟩
      show rest.length ≤ s.limits.max_concurrent_requests
        + s.limits.max_concurrent_requests_per_node - 1
      have h2 := alTake_rest_length s.active_transfers id t rest ht
      have h3 : s.active_transfers.length ≤ s.limits.max_concurrent_requests
          + s.limits.max_concurrent_requests_per_node - 1 := hG
      omega
    rcases htr : alTake s.resources t.resource with _ | rp
    · have he : on_transfer_ready s id
          = transfer_ready_apply { s with active_transfers := rest } t id := by
        unfold on_transfer_ready
        simp only [ht]
        simp only [htr]
      rw [he]
      exact transfer_ready_apply_pres _ t id hA
    · obtain ⟨rs, resRest⟩ := rp
      obtain ⟨hS, hK, hN, hP, hG, hR, hKn⟩ := h
      have hGB : rest.length ≤ s.limits.max_concurrent_requests
          + s.limits.max_concurrent_requests_per_node - 1 := hA.2.2.2.2.1
      have hB : MasterInv { s with
          active_transfers := rest
          resources := resRest
          nodes := rs.nodes.foldl (fun m n => nodesDropResource m t.resource n) s.nodes
          groups := rs.groups.foldl (fun m g => groupsDropResource m t.resource g) s.groups } := by
        refine ⟨?_, ?_, ?_, ?_, hGB, ?_, ?_⟩
        · show NodesSorted (rs.nodes.foldl (fun m n => nodesDropResource m t.resource n) s.nodes)
          unfold NodesSorted at hS ⊢
          rw [ndrFold_map_fst]
          exact hS
        · show (resRest.map Prod.fst).Nodup
          exact List.Nodup.sublist (alTake_rest_map_fst s.resources t.resource rs resRest htr) hK
        · intro p hp
          have hp2 : p ∈ resRest := hp
          exact hN p (alTake_rest_mem s.resources t.resource rs resRest htr p hp2)
        · intro p hp
          have hp2 : p ∈ rs.nodes.foldl (fun m n => nodesDropResource m t.resource n) s.nodes := hp
          obtain ⟨p2, hm2, hk, ha⟩ := ndrFold_mem t.resource rs.nodes s.nodes p hp2
          have h5 := hP p2 hm2
          show p.2.active_transfers.length ≤ s.limits.max_concurrent_requests_per_node
          rw [ha]
          exact h5
        · intro p hp n hn ni3 hget
          have hp2 : p ∈ resRest := hp
          have hpo := alTake_rest_mem s.resources t.resource rs resRest htr p hp2
          have hpne := alTake_rest_fst_ne s.resources t.resource rs resRest hK htr p hp2
          have hg2 : alGet (rs.nodes.foldl (fun m n => nodesDropResource m t.resource n) s.nodes)
              n = some ni3 := hget
          obtain ⟨ni2, hga, ha, hres⟩ := ndrFold_alGet t.resource rs.nodes s.nodes n ni3 hg2
          have h5 := hR p hpo n hn ni2 hga
          exact hres p.1 h5 hpne
        · intro p hp n hn
          have hp2 : p ∈ resRest := hp
          have hpo := alTake_rest_mem s.resources t.resource rs resRest htr p hp2
          refine nodeKnown_transfer s _ ?_ n (hKn p hpo n hn)
          exact ndrFold_map_fst t.resource rs.nodes s.nodes
      have he : on_transfer_ready s id = transfer_ready_apply { s with
          active_transfers := rest
          resources := resRest
          nodes := rs.nodes.foldl (fun m n => nodesDropResource m t.resource n) s.nodes
          groups := rs.groups.foldl (fun m g => groupsDropResource m t.resource g) s.groups }
          t id := by
        unfold on_transfer_ready
        simp only [ht]
        simp only [htr]
      rw [he]
      exact transfer_ready_apply_pres _ t id hB

theorem on_transfer_failed_pres (s : State) (id : Nat) (action : FailureAction)
    (h : MasterInv s) : MasterInv (on_transfer_failed s id action) := by
  rcases ht : alTake s.active_transfers id with _ | tp
  · have he : on_transfer_failed s id action = s := by
      unfold on_transfer_failed
      rw [ht]
    rw [he]
    exact h
  · obtain ⟨t, rest⟩ := tp
    have hA : MasterInv { s with active_transfers := rest } := by
      obtain ⟨hS, hK, hN, hP, hG, hR, hKn⟩ := h
      refine ⟨hS, hK, hN, hP, ?_, hR, hKn⟩
      show rest.length ≤ s.limits.max_concurrent_requests
        + s.limits.max_concurrent_requests_per_node - 1
      have h2 := alTake_rest_length s.active_transfers id t rest ht
      have h3 : s.active_transfers.length ≤ s.limits.max_concurrent_requests
          + s.limits.max_concurrent_requests_per_node - 1 := hG
      omega
    have hB : MasterInv { s with
        active_transfers := rest
        resources := alEntryOr s.resources t.resource ResourceState.init } :=
      entry_or_pres { s with active_transfers := rest } t.resource hA
    rcases hg : alGet (alEntryOr s.resources t.resource ResourceState.init) t.resource
        with _ | rs
    · have he : on_transfer_failed s id action = transfer_failed_apply { s with
          active_transfers := rest
          resources := alEntryOr s.resources t.resource ResourceState.init } t id action := by
        unfold on_transfer_failed
        simp only [ht]
        simp only [hg]
      rw [he]
      exact transfer_failed_apply_pres _ t id action hB
    · have hC : MasterInv { s with
          active_transfers := rest
          resources := alSet (alEntryOr s.resources t.resource ResourceState.init) t.resource
            { rs with skip_nodes := insertIdx rs.skip_nodes t.node, active_transfer := none } } := by
        have h2 := res_update_pres { s with
            active_transfers := rest
            resources := alEntryOr s.resources t.resource ResourceState.init } t.resource rs
          { rs with skip_nodes := insertIdx rs.skip_nodes t.node, active_transfer := none }
          hB hg rfl
        exact h2
      have he : on_transfer_failed s id action = transfer_failed_apply { s with
          active_transfers := rest
          resources := alSet (alEntryOr s.resources t.resource ResourceState.init) t.resource
            { rs with skip_nodes := insertIdx rs.skip_nodes t.node, active_transfer := none } }
          t id action := by
        unfold on_transfer_failed
        simp only [ht]
        simp only [hg]
      rw [he]
      exact transfer_failed_apply_pres _ t id action hC

theorem on_timer_pres (s : State) (tm : Timer) (h : MasterInv s) :
    MasterInv (on_timer s tm) := by
  rcases tm with node | node
  · rcases hni : alGet s.nodes node with _ | ni
    · have he : on_timer s (.RetryNode node) = s := by
        unfold on_timer
        simp only [hni]
      rw [he]
      exact h
    · have he : on_timer s (.RetryNode node) = { s with
          nodes := alSet s.nodes node { ni with state := NodeState.connecting }
          actions := s.actions ++ [OutEvent.StartDial node] } := by
        unfold on_timer
        simp only [hni]
      rw [he]
      exact node_update_pres s node ni { ni with state := NodeState.connecting }
        (s.actions ++ [OutEvent.StartDial node]) h hni rfl (Nat.le_refl _)
  · rcases hni : alGet s.nodes node with _ | ni
    · have he : on_timer s (.DropConnection node) = s := by
        unfold on_timer
        simp only [hni]
      rw [he]
      exact h
    · by_cases h1 : ni.in_disconnect_timeout = true
      · by_cases h2 : ni.active_transfers.isEmpty = true
        · have he : on_timer s (.DropConnection node) = { s with
              nodes := alSet s.nodes node
                { ni with in_disconnect_timeout := false, state := NodeState.Disconnected false }
              actions := s.actions ++ [OutEvent.DropConnection node] } := by
            unfold on_timer
            simp only [hni]
            rw [if_pos h1, if_pos h2]
          rw [he]
          exact node_update_pres s node ni
            { ni with in_disconnect_timeout := false, state := NodeState.Disconnected false }
            (s.actions ++ [OutEvent.DropConnection node]) h hni rfl (Nat.le_refl _)
        · have he : on_timer s (.DropConnection node) = { s with
              nodes := alSet s.nodes node { ni with in_disconnect_timeout := false } } := by
            unfold on_timer
            simp only [hni]
            rw [if_pos h1, if_neg h2]
          rw [he]
          exact node_update_pres s node ni { ni with in_disconnect_timeout := false }
            s.actions h hni rfl (Nat.le_refl _)
      · have he : on_timer s (.DropConnection node) = s := by
          unfold on_timer
          simp only [hni]
          rw [if_neg h1]
        rw [he]
        exact h

theorem handle_pres (s : State) (e : InEvent) (h : MasterInv s) : MasterInv (handle s e) := by
  cases e with
  | AddNode node hints => exact add_node_pres s node hints h
  | AddResource r hints => exact add_resource_pres s r hints h
  | TransferReady id => exact on_transfer_ready_pres s id h
  | TransferFailed id f => exact on_transfer_failed_pres s id f h
  | NodeConnected node => exact on_node_connected_pres s node h
  | NodeFailed node => exact on_node_failed_pres s node true h
  | TimerExpired tm => exact on_timer_pres s tm h

theorem run_foldl_inv :
    ∀ (events : List InEvent) (s : State), MasterInv s → MasterInv (events.foldl handle s)
  | [], _, h => h
  | e :: rest, s, h => run_foldl_inv rest (handle s e) (handle_pres s e h)

theorem run_inv (limits : ConcurrencyLimits) (events : List InEvent) :
    MasterInv (run limits events) :=
  run_foldl_inv events (State.new limits)
    ⟨List.Pairwise.nil, List.nodup_nil, fun p hp => absurd hp (List.not_mem_nil p),
     fun p hp => absurd hp (List.not_mem_nil p), Nat.zero_le _,
     fun p hp => absurd hp (List.not_mem_nil p), fun p hp => absurd hp (List.not_mem_nil p)⟩

/-- C4, amended: in every state reachable from the initial scheduler state, (a)
every node runs at most `max_concurrent_requests_per_node` transfers, and (b)
the total number of active transfers is bounded by `max_concurrent_requests +
max_concurrent_requests_per_node - 1` — the global cap is checked only once
per fill round, so it can be overshot by up to one node budget, and no bound
on open connections holds at all (see the counterexample). -/
theorem claim_C4_amended (limits : ConcurrencyLimits) (events : List InEvent) :
    NodesPerCap (run limits events) ∧ GlobalCap (run limits events) :=
  ⟨(run_inv limits events).2.2.2.1, (run_inv limits events).2.2.2.2.1⟩

/-- C10, amended: only one direction of the provider index consistency holds
in every reachable state — a node listed in a resource's provider set always
has that resource in its own set. The converse direction fails (see the
counterexample). -/
theorem claim_C10_amended (limits : ConcurrencyLimits) (events : List InEvent) :
    ReverseIdxOk (run limits events) :=
  (run_inv limits events).2.2.2.2.2.1

end Iroh
